import Mathlib

/-!
# The upscaling worker (`src/worker.js`) as Lean definitions

Conventions of the embedding.

* JavaScript numbers are modelled by an ordered field `α` with a floor function
  (`ℚ` for evaluation, `ℝ` for the statements that need `Math.sin`); arithmetic is
  exact, so the rounding of doubles and of `Float32Array` stores is not modelled.
* `Math.PI`, `Math.sin`, `Math.exp` and `Math.sqrt` belong to the host, not to the
  repository: they are the fields of a `JSMath α` passed to every function that uses them.
  Where a statement depends on `Math.sin(Math.PI * k)` not being exactly zero (resampling at
  scale 1), `Math.PI` is the double nearest to π (`doublePI`) and `Math.sin` the real sine.
* A typed array is a `List`; a loop nest that writes every cell of a fresh array exactly
  once is the table `fill n f` of the value written at each index.  Reading outside the
  array (which yields `undefined` in the source) reads `0`; the statements below about
  sample values are made where every read is in range.
* `new Array(n)` with a negative `n` throws a `RangeError`; this is the only exception the
  model raises.  Engine limits on allocation sizes are not modelled.
* A run of the message handler is the list of messages it posts, in order.  Labels of
  progress messages, the text of an error message and the measured duration are omitted.
-/

namespace Worker

/-- Host numeric functions used by the worker: `Math.PI`, `Math.sin`, `Math.exp`, `Math.sqrt`. -/
structure JSMath (α : Type) where
  PI : α
  sin : α → α
  exp : α → α
  sqrt : α → α

/-- One entry `{ index, weight }` of a resampling weight list. -/
structure Tap (α : Type) where
  index : ℤ
  weight : α

/-- The record `{ y, cb, cr, alpha }` returned by `splitToYcbcr`. -/
structure Planes (α : Type) where
  y : List α
  cb : List α
  cr : List α
  alpha : List α

/-- The payload `{ width, height, scale, buffer }` of a message of type process. -/
structure Request (α : Type) where
  width : ℕ
  height : ℕ
  scale : α
  buffer : List (Fin 256)

/-- A message posted by the worker. -/
inductive Event (α : Type) where
  | progress (value : α)
  | complete (width height : ℤ) (buffer : List ℤ)
  | error

/-- Whether a message is a progress notification. -/
def Event.isProgress {α : Type} : Event α → Bool
  | .progress _ => true
  | _ => false

/-- Whether a message is a result. -/
def Event.isComplete {α : Type} : Event α → Bool
  | .complete _ _ _ => true
  | _ => false

/-- Whether a message is an error notification. -/
def Event.isError {α : Type} : Event α → Bool
  | .error => true
  | _ => false

/-- The values of the progress notifications of a run, in order. -/
def progressValues {α : Type} (events : List (Event α)) : List α :=
  events.filterMap fun e =>
    match e with
    | .progress v => some v
    | _ => none

section Definitions

variable {α : Type} [LinearOrderedField α] [FloorRing α]

/-- The constant `LANCZOS_A`. -/
def LANCZOS_A : α := 3

/-- Source `clamp(value, min, max)`. -/
def clamp {β : Type} [LinearOrder β] (value lo hi : β) : β :=
  if value < lo then lo else if value > hi then hi else value

/-- Source `clamp255(value)`. -/
def clamp255 (value : α) : α := max 0 (min 255 value)

/-- `Math.round`: the nearest integer, halves rounded up. -/
def jsRound (x : α) : ℤ := ⌊x + 1 / 2⌋

/-- The conversion applied when a number is stored into a `Uint8ClampedArray`
(ECMAScript `ToUint8Clamp`): clamp to `[0,255]`, then round to nearest, ties to even. -/
def toUint8Clamp (x : α) : ℤ :=
  let c := clamp x 0 255
  let f := ⌊c⌋
  if c < f + 1 / 2 then f
  else if (f : α) + 1 / 2 < c then f + 1
  else if f % 2 = 0 then f else f + 1

/-- The store `output[i] = clamp255(v + 0.5)` into the `Uint8ClampedArray` of the handler. -/
def quantize (v : α) : ℤ := toUint8Clamp (clamp255 (v + 0.5))

/-- Read of a typed array at a natural index. -/
def rd (buf : List α) (i : ℕ) : α := buf.getD i 0

/-- Read of a typed array at an integer index. -/
def rdZ (buf : List α) (i : ℤ) : α := if i < 0 then 0 else buf.getD i.toNat 0

/-- A fresh typed array of length `n` whose cell `i` has been written with `f i`. -/
def fill (n : ℕ) (f : ℕ → α) : List α := (List.range n).map f

/-- The integers `lo, lo+1, ..., hi` visited by `for (let j = lo; j <= hi; j++)`. -/
def intRange (lo hi : ℤ) : List ℤ :=
  (List.range (hi + 1 - lo).toNat).map fun (d : ℕ) => lo + (d : ℤ)

/-- Source `toFloat32`. -/
def toFloat32 (src : List (Fin 256)) : List α := src.map fun (v : Fin 256) => (v.val : α)

/-- Source `splitToYcbcr`. -/
def splitToYcbcr (rgba : List α) (width height : ℕ) : Planes α :=
  let size := width * height
  { y := fill size fun i =>
      0.299 * rd rgba (4 * i) + 0.587 * rd rgba (4 * i + 1) + 0.114 * rd rgba (4 * i + 2)
    cb := fill size fun i =>
      -0.168736 * rd rgba (4 * i) - 0.331264 * rd rgba (4 * i + 1) + 0.5 * rd rgba (4 * i + 2) + 128
    cr := fill size fun i =>
      0.5 * rd rgba (4 * i) - 0.418688 * rd rgba (4 * i + 1) - 0.081312 * rd rgba (4 * i + 2) + 128
    alpha := fill size fun i => rd rgba (4 * i + 3) }

/-- Source `mergeFromYcbcr`; `alpha = none` is the call without the fourth argument. -/
def mergeFromYcbcr (y cb cr : List α) (alpha : Option (List α)) : List α :=
  let size := y.length
  fill (size * 4) fun k =>
    let i := k / 4
    let yy := rd y i
    let u := rd cb i - 128
    let v := rd cr i - 128
    match k % 4 with
    | 0 => yy + 1.402 * v
    | 1 => yy - 0.344136 * u - 0.714136 * v
    | 2 => yy + 1.772 * u
    | _ =>
      match alpha with
      | some al => rd al i
      | none => 255

/-- The nine `(offsetY, offsetX, k)` of the two nested offset loops of `bilateralFilterY`
and `buildSpatialKernel3x3`, in the order visited. -/
def taps3x3 : List (ℤ × ℤ × ℕ) :=
  [(-1, -1, 0), (-1, 0, 1), (-1, 1, 2), (0, -1, 3), (0, 0, 4), (0, 1, 5),
   (1, -1, 6), (1, 0, 7), (1, 1, 8)]

/-- Source `buildSpatialKernel3x3`. -/
def buildSpatialKernel3x3 (M : JSMath α) (sigma : α) : List α :=
  let denom := 2 * sigma * sigma
  let values := taps3x3.map fun t => M.exp (-((t.2.1 * t.2.1 + t.1 * t.1 : ℤ) : α) / denom)
  let sum := values.foldl (fun s v => s + v) 0
  values.map fun v => v / sum

/-- Source `mixArrays`. -/
def mixArrays (a b : List α) (blend : α) : List α :=
  fill a.length fun i => rd a i * (1 - blend) + rd b i * blend

/-- The `(neighbor, weight)` pairs accumulated by `bilateralFilterY` at pixel `(x, y)`. -/
def bilateralTaps (M : JSMath α) (src spatialKernel : List α) (width height : ℕ)
    (sigmaRangeSq : α) (x y : ℤ) (center : α) : List (α × α) :=
  taps3x3.map fun t =>
    let ny := clamp (t.1 + y) 0 ((height : ℤ) - 1)
    let nx := clamp (t.2.1 + x) 0 ((width : ℤ) - 1)
    let neighbor := rdZ src (ny * width + nx)
    let diff := neighbor - center
    let rangeWeight := M.exp (-(diff * diff) / sigmaRangeSq)
    (neighbor, rd spatialKernel t.2.2 * rangeWeight)

/-- The value `out[idx]` computed by `bilateralFilterY` before the final blend. -/
def bilateralPixel (M : JSMath α) (src spatialKernel : List α) (width height : ℕ)
    (sigmaRangeSq : α) (idx : ℕ) : α :=
  let y : ℤ := ((idx / width : ℕ) : ℤ)
  let x : ℤ := ((idx % width : ℕ) : ℤ)
  let center := rd src idx
  let taps := bilateralTaps M src spatialKernel width height sigmaRangeSq x y center
  let sum := taps.foldl (fun s t => s + t.1 * t.2) 0
  let weightSum := taps.foldl (fun s t => s + t.2) 0
  if weightSum > 0 then sum / weightSum else center

/-- Source `bilateralFilterY`. -/
def bilateralFilterY (M : JSMath α) (src : List α) (width height : ℕ)
    (sigmaSpatial sigmaRange : α) : List α :=
  let spatialKernel := buildSpatialKernel3x3 M sigmaSpatial
  let sigmaRangeSq := 2 * sigmaRange * sigmaRange
  let out := fill src.length fun idx =>
    if idx < width * height then bilateralPixel M src spatialKernel width height sigmaRangeSq idx
    else 0
  mixArrays src out 0.35

/-- Source `lanczosKernel`. -/
def lanczosKernel (M : JSMath α) (x a : α) : α :=
  if x = 0 then 1
  else
    let piX := M.PI * x
    let piXOverA := piX / a
    (M.sin piX / piX) * (M.sin piXOverA / piXOverA)

/-- The list `items` built by the inner loop of `precomputeWeights` for one `center`. -/
def weightItems (M : JSMath α) (oldSize : ℕ) (a center : α) : List (Tap α) :=
  let support := a
  let left := ⌊center - support⌋
  let right := ⌈center + support⌉
  (intRange left right).filterMap fun (j : ℤ) =>
    if j < 0 ∨ j ≥ (oldSize : ℤ) then none
    else
      let x := center - (j : α) - 0.5
      let weight := lanczosKernel M x a
      if weight ≠ 0 then some { index := j, weight := weight } else none

/-- The list `weights[i]` computed by one iteration of the outer loop of `precomputeWeights`. -/
def weightRow (M : JSMath α) (oldSize newSize : ℕ) (a : α) (i : ℕ) : List (Tap α) :=
  let scale : α := (newSize : α) / (oldSize : α)
  let invScale := 1 / scale
  let center := ((i : α) + 0.5) * invScale
  let items := weightItems M oldSize a center
  let sum := items.foldl (fun s t => s + t.weight) 0
  if items.length = 0 then
    [{ index := clamp (jsRound (center - 0.5)) 0 ((oldSize : ℤ) - 1), weight := 1 }]
  else if sum ≠ 0 then
    items.map fun t => { index := t.index, weight := t.weight / sum }
  else
    items.map fun t => { index := t.index, weight := 1 / (items.length : α) }

/-- Source `precomputeWeights`; `new Array(newSize)` throws for a negative `newSize`. -/
def precomputeWeights (M : JSMath α) (oldSize : ℕ) (newSize : ℤ) (a : α) :
    Except String (List (List (Tap α))) :=
  if newSize < 0 then .error "Invalid array length"
  else .ok ((List.range newSize.toNat).map fun i => weightRow M oldSize newSize.toNat a i)

/-- The values passed to `progressCallback` by `lanczosScaleRGBA`, in order. -/
def lanczosProgress (height newHeight : ℕ) : List α :=
  ((List.range height).filter fun y => y % 24 = 0).map (fun (y : ℕ) => (y : α) / (height : α))
    ++ ((List.range newHeight).filter fun y => y % 12 = 0).map
        (fun (y : ℕ) => 0.5 + (y : α) / (newHeight : α) * 0.5)
    ++ [1]

/-- The accumulation `acc += buf[at index] * weight` over one weight list. -/
def weightedSum (buf : List α) (list : List (Tap α)) (pos : ℤ → ℤ) : α :=
  list.foldl (fun acc t => acc + rdZ buf (pos t.index) * t.weight) 0

/-- The intermediate buffer `temp` of `lanczosScaleRGBA` (horizontal pass). -/
def lanczosTemp (src : List α) (weightsX : List (List (Tap α))) (width height newWidth : ℕ) :
    List α :=
  fill (newWidth * height * 4) fun k =>
    let c := k % 4
    let x := (k / 4) % newWidth
    let y := (k / 4) / newWidth
    weightedSum src (weightsX.getD x []) fun index => (y * width + index) * 4 + c

/-- The buffer `dst` of `lanczosScaleRGBA` (vertical pass over `temp`). -/
def lanczosDst (temp : List α) (weightsY : List (List (Tap α))) (newWidth newHeight : ℕ) :
    List α :=
  fill (newWidth * newHeight * 4) fun k =>
    let c := k % 4
    let x := (k / 4) % newWidth
    let y := (k / 4) / newWidth
    weightedSum temp (weightsY.getD y []) fun index => (index * newWidth + x) * 4 + c

/-- Source `lanczosScaleRGBA`: the values reported to the callback and the buffer returned. -/
def lanczosScaleRGBA (M : JSMath α) (src : List α) (width height : ℕ) (newWidth newHeight : ℤ) :
    Except String (List α × List α) :=
  match precomputeWeights M width newWidth LANCZOS_A with
  | .error e => .error e
  | .ok weightsX =>
    match precomputeWeights M height newHeight LANCZOS_A with
    | .error e => .error e
    | .ok weightsY =>
      let temp := lanczosTemp src weightsX width height newWidth.toNat
      let dst := lanczosDst temp weightsY newWidth.toNat newHeight.toNat
      .ok (lanczosProgress height newHeight.toNat, dst)

/-- Source `buildGaussianKernel`. -/
def buildGaussianKernel (M : JSMath α) (radius : ℕ) (sigma : α) : List α :=
  let denom := 2 * sigma * sigma
  let values := (List.range (radius + 1)).map fun (i : ℕ) => M.exp (-((i : α) * (i : α)) / denom)
  let sum := ((List.range (radius + 1)).map fun i =>
    if i = 0 then rd values i else rd values i * 2).foldl (fun s v => s + v) 0
  values.map fun v => v / sum

/-- One pass of `gaussianBlur` at one pixel: `sum / weightSum` over `k = -radius .. radius`,
where `pos k` is the index read for offset `k`. -/
def blurPixel (data kernel : List α) (radius : ℕ) (pos : ℤ → ℤ) : α :=
  let ks := intRange (-(radius : ℤ)) radius
  let sum := ks.foldl (fun s k => s + rdZ data (pos k) * rd kernel k.natAbs) 0
  let weightSum := ks.foldl (fun s k => s + rd kernel k.natAbs) 0
  sum / weightSum

/-- Source `gaussianBlur`. -/
def gaussianBlur (M : JSMath α) (data : List α) (width height radius : ℕ) (sigma : α) : List α :=
  let kernel := buildGaussianKernel M radius sigma
  let temp := fill data.length fun idx =>
    if idx < width * height then
      let y : ℤ := ((idx / width : ℕ) : ℤ)
      let x : ℤ := ((idx % width : ℕ) : ℤ)
      blurPixel data kernel radius fun k => y * width + clamp (x + k) 0 ((width : ℤ) - 1)
    else 0
  fill data.length fun idx =>
    if idx < width * height then
      let y : ℤ := ((idx / width : ℕ) : ℤ)
      let x : ℤ := ((idx % width : ℕ) : ℤ)
      blurPixel temp kernel radius fun k => clamp (y + k) 0 ((height : ℤ) - 1) * width + x
    else 0

/-- The plane `adjusted` of `contrastNormalize` after the statistical clipping loop. -/
def statClip (M : JSMath α) (data : List α) (strength : α) : List α :=
  let size : α := (data.length : α)
  let mean := data.foldl (fun s v => s + v) 0 / size
  let variance := data.foldl (fun s v => s + (v - mean) * (v - mean)) 0 / size
  let std := M.sqrt (max variance 1e-5)
  let targetStd := max std 28 * (1 + strength * 2.2)
  let minRange := mean - targetStd
  let maxRange := mean + targetStd
  data.map fun value =>
    let clipped := clamp value minRange maxRange
    clamp (mean + (clipped - mean) * (1 + strength)) 0 255

/-- The histogram bucket `clamp(Math.round(v), 0, 255)` of a value. -/
def bucket (v : α) : ℤ := clamp (jsRound v) 0 255

/-- The 256 counters of `contrastNormalize` after the counting loop. -/
def histogram (adjusted : List α) : List ℕ :=
  (List.range 256).map fun (b : ℕ) => adjusted.countP fun v => decide (bucket v = (b : ℤ))

/-- The bound `low` found by the upward scan of `contrastNormalize`. -/
def histLow (hist : List ℕ) (lowerTarget : ℤ) : ℕ :=
  ((List.range 256).find? fun i => decide (lowerTarget ≤ (((hist.take (i + 1)).sum : ℕ) : ℤ))).getD 0

/-- The bound `high` found by the downward scan of `contrastNormalize`. -/
def histHigh (hist : List ℕ) (total : ℕ) (upperTarget : ℤ) : ℕ :=
  ((List.range 256).reverse.find? fun i =>
    decide ((total : ℤ) - upperTarget ≤ (((hist.drop i).sum : ℕ) : ℤ))).getD 255

/-- The histogram stretch of `contrastNormalize` (the body of `if (lowClipRatio > 0)`). -/
def histStretch (adjusted : List α) (lowClipRatio : α) : List α :=
  let hist := histogram adjusted
  let total := adjusted.length
  let lowerTarget : ℤ := ⌊(total : α) * lowClipRatio⌋
  let upperTarget : ℤ := ⌊(total : α) * (1 - lowClipRatio)⌋
  let low := histLow hist lowerTarget
  let high := histHigh hist total upperTarget
  let range : ℤ := (high : ℤ) - (low : ℤ)
  let scale : α := if range > 1 then 255 / (range : α) else 1
  adjusted.map fun v => clamp ((v - (low : α)) * scale) 0 255

/-- Source `contrastNormalize`. -/
def contrastNormalize (M : JSMath α) (data : List α) (lowClipRatio strength : α) : List α :=
  let adjusted := statClip M data strength
  if lowClipRatio > 0 then histStretch adjusted lowClipRatio else adjusted

/-- The plane `sharpened` of `enhanceLuma`. -/
def sharpen (y blurred : List α) (size : ℕ) : List α :=
  let threshold : α := 2.0
  fill size fun i =>
    let original := rd y i
    let soft := rd blurred i
    let detail := original - soft
    let magnitude := |detail|
    let adaptiveBoost : α := if magnitude > threshold then 0.85 else 0.4
    let value := original + adaptiveBoost * detail
    value + 0.12 * (original - value)

/-- Source `enhanceLuma`. -/
def enhanceLuma (M : JSMath α) (rgba : List α) (width height : ℕ) : List α :=
  let size := width * height
  let y := fill size fun i =>
    0.299 * rd rgba (4 * i) + 0.587 * rd rgba (4 * i + 1) + 0.114 * rd rgba (4 * i + 2)
  let cb := fill size fun i =>
    -0.168736 * rd rgba (4 * i) - 0.331264 * rd rgba (4 * i + 1) + 0.5 * rd rgba (4 * i + 2) + 128
  let cr := fill size fun i =>
    0.5 * rd rgba (4 * i) - 0.418688 * rd rgba (4 * i + 1) - 0.081312 * rd rgba (4 * i + 2) + 128
  let blurred := gaussianBlur M y width height 2 1.2
  let sharpened := sharpen y blurred size
  let normalized := contrastNormalize M sharpened 0.05 0.1
  fill rgba.length fun k =>
    let i := k / 4
    if i < size then
      let yy := rd normalized i
      let u := rd cb i - 128
      let v := rd cr i - 128
      match k % 4 with
      | 0 => yy + 1.402 * v
      | 1 => yy - 0.344136 * u - 0.714136 * v
      | 2 => yy + 1.772 * u
      | _ => rd rgba k
    else 0

/-- The handler `self.onmessage` for a message of type process: the messages posted. -/
def onmessage (M : JSMath α) (req : Request α) : List (Event α) :=
  let source := req.buffer
  let floats : List α := toFloat32 source
  let planes := splitToYcbcr floats req.width req.height
  let denoisedY := bilateralFilterY M planes.y req.width req.height 1.25 12
  let recombined := mergeFromYcbcr denoisedY planes.cb planes.cr (some planes.alpha)
  let targetWidth := jsRound ((req.width : α) * req.scale)
  let targetHeight := jsRound ((req.height : α) * req.scale)
  [Event.progress 5, Event.progress 18] ++
    match lanczosScaleRGBA M recombined req.width req.height targetWidth targetHeight with
    | .error _ => [Event.error]
    | .ok (reported, scaled) =>
      let enhanced := enhanceLuma M scaled targetWidth.toNat targetHeight.toNat
      reported.map (fun p => Event.progress (18 + p * 45))
        ++ [Event.progress 68, Event.progress 88, Event.progress 100,
            Event.complete targetWidth targetHeight (enhanced.map quantize)]

/-! ### Concrete requests used as examples -/

/-- A 4x4 image in which every pixel is `(128, 128, 128, 255)`. -/
def gray4x4 : List (Fin 256) := (List.replicate 16 [128, 128, 128, 255]).flatten

/-- The request of the uniform-image scenario: the 4x4 gray image, scale 2. -/
def grayRequest : Request α := { width := 4, height := 4, scale := 2, buffer := gray4x4 }

/-- A well-formed request for one pixel at scale 1. -/
def pixelRequest : Request α := { width := 1, height := 1, scale := 1, buffer := [10, 20, 30, 255] }

/-- A well-formed request for a black image 1 wide and 25 high, at scale 1. -/
def tallRequest : Request α :=
  { width := 1, height := 25, scale := 1, buffer := List.replicate 100 0 }

/-- A request whose buffer (empty) is shorter than `width * height * 4 = 4`. -/
def shortBufferRequest : Request α := { width := 1, height := 1, scale := 1, buffer := [] }

/-- A request with scale factor `0`. -/
def zeroScaleRequest : Request α :=
  { width := 1, height := 1, scale := 0, buffer := [10, 20, 30, 255] }

/-- A request with scale factor `-1`. -/
def negativeScaleRequest : Request α :=
  { width := 1, height := 1, scale := -1, buffer := [10, 20, 30, 255] }

/-- The composition `mergeFromYcbcr(y, cb, cr, alpha)` of the four planes returned by
`splitToYcbcr(rgba, width, height)`, with nothing done in between. -/
def roundTrip (rgba : List α) (width height : ℕ) : List α :=
  let planes := splitToYcbcr rgba width height
  mergeFromYcbcr planes.y planes.cb planes.cr (some planes.alpha)

/-- The RGBA buffer of `n` pixels that all have colour `(g, g, g)` and alpha `a`. -/
def uniformRGBA (n : ℕ) (g a : α) : List α := fill (n * 4) fun k => if k % 4 = 3 then a else g

/-- The 8-bit conversion as the specification words it: `value + 0.5` truncated, then clamped
to `[0, 255]`. -/
def specRound8 (v : α) : ℤ := clamp ⌊v + 0.5⌋ 0 255

/-- A well-formed request for one pixel with the odd alpha 253, at scale 1. -/
def oddAlphaRequest : Request α :=
  { width := 1, height := 1, scale := 1, buffer := [10, 20, 30, 253] }

/-- The buffer `recombined` of the handler: the denoised luma merged with the original chroma
and alpha planes. -/
def recombined (M : JSMath α) (req : Request α) : List α :=
  let planes := splitToYcbcr (toFloat32 req.buffer : List α) req.width req.height
  mergeFromYcbcr (bilateralFilterY M planes.y req.width req.height 1.25 12) planes.cb planes.cr
    (some planes.alpha)

/-- The pairs `(n, weight)` visited by the inner loop of one pass of `gaussianBlur` at the
coordinate `coord` of an axis of length `size`: `n = clamp(coord + k, 0, size - 1)` and
`weight = kernel[Math.abs(k)]`, for `k = -radius, ..., radius`. -/
def blurTaps (kernel : List α) (radius : ℕ) (coord size : ℤ) : List (ℤ × α) :=
  (intRange (-(radius : ℤ)) radius).map fun (k : ℤ) =>
    (clamp (coord + k) 0 (size - 1), rd kernel k.natAbs)

/-- The buffer `temp` of `gaussianBlur`: the first pass, along `x`. -/
def blurPassX (kernel data : List α) (width height radius : ℕ) : List α :=
  fill data.length fun idx =>
    if idx < width * height then
      let y : ℤ := ((idx / width : ℕ) : ℤ)
      let x : ℤ := ((idx % width : ℕ) : ℤ)
      blurPixel data kernel radius fun k => y * width + clamp (x + k) 0 ((width : ℤ) - 1)
    else 0

/-- The buffer `out` of `gaussianBlur`: the second pass, along `y`, over `temp`. -/
def blurPassY (kernel temp : List α) (width height radius : ℕ) : List α :=
  fill temp.length fun idx =>
    if idx < width * height then
      let y : ℤ := ((idx / width : ℕ) : ℤ)
      let x : ℤ := ((idx % width : ℕ) : ℤ)
      blurPixel temp kernel radius fun k => clamp (y + k) 0 ((height : ℤ) - 1) * width + x
    else 0

/-- The weighted average of the specification of the denoiser at pixel `p`: the values of the
3x3 clamp-to-edge neighbourhood of `p`, each weighted by
`spatialKernel[k] * exp(-(neighbor - center)^2 / (2 * sigmaRange^2))`, divided by the sum of
those weights. -/
def bilateralAverage (M : JSMath α) (src : List α) (width height : ℕ)
    (sigmaSpatial sigmaRange : α) (p : ℕ) : α :=
  let x : ℤ := ((p % width : ℕ) : ℤ)
  let y : ℤ := ((p / width : ℕ) : ℤ)
  let center := rd src p
  let spatialKernel := buildSpatialKernel3x3 M sigmaSpatial
  let neighbor := fun (t : ℤ × ℤ × ℕ) =>
    rdZ src (clamp (y + t.1) 0 ((height : ℤ) - 1) * width + clamp (x + t.2.1) 0 ((width : ℤ) - 1))
  let weight := fun (t : ℤ × ℤ × ℕ) =>
    rd spatialKernel t.2.2 * M.exp (-(neighbor t - center) ^ 2 / (2 * sigmaRange ^ 2))
  (taps3x3.map fun t => weight t * neighbor t).sum / (taps3x3.map weight).sum

/-- The direct 2-D resampling of channel `c` at destination `(x, y)`: the sum over the taps
`(j, wy)` of `weightsY[y]` and `(i, wx)` of `weightsX[x]` of
`wy * wx * src[(j * width + i) * 4 + c]`. -/
def resampleDirect (src : List α) (weightsX weightsY : List (List (Tap α))) (width : ℕ)
    (x y c : ℕ) : α :=
  ((weightsY.getD y []).map fun ty =>
    ((weightsX.getD x []).map fun tx =>
      ty.weight * tx.weight * rdZ src ((ty.index * width + tx.index) * 4 + c)).sum).sum

/-- The source value read by `bilateralFilterY` at pixel `p` for the tap
`t = (offsetY, offsetX, k)`: `src[ny * width + nx]`, with `ny = clamp(offsetY + y, 0, height - 1)`
and `nx = clamp(offsetX + x, 0, width - 1)`. -/
def neighborAt (src : List α) (width height p : ℕ) (t : ℤ × ℤ × ℕ) : α :=
  rdZ src (clamp (t.1 + ((p / width : ℕ) : ℤ)) 0 ((height : ℤ) - 1) * width
    + clamp (t.2.1 + ((p % width : ℕ) : ℤ)) 0 ((width : ℤ) - 1))

/-- The nine source values of the 3x3 clamp-to-edge neighbourhood of pixel `p`. -/
def neighborhood3x3 (src : List α) (width height p : ℕ) : List α :=
  taps3x3.map (neighborAt src width height p)

/-- The host constant `Math.PI`: the double nearest to π, which is the rational number
`884279719003555 / 2 ^ 48 = 3.141592653589793115997963...`, a little less than π. -/
def doublePI : α := 884279719003555 / 281474976710656

end Definitions

set_option linter.unusedSectionVars false
set_option linter.unusedVariables false

section Theorems

variable {α : Type} [LinearOrderedField α] [FloorRing α]

/-! ## Typed-array reads -/

theorem length_fill (n : ℕ) (f : ℕ → α) : (fill n f).length = n := by
  simp [fill]

theorem rd_fill (n : ℕ) (f : ℕ → α) (i : ℕ) (h : i < n) : rd (fill n f) i = f i := by
  simp [rd, fill, h]

theorem rd_of_length_le (buf : List α) (i : ℕ) (h : buf.length ≤ i) : rd buf i = 0 := by
  simp [rd, List.getElem?_eq_none h]

theorem rdZ_natCast (buf : List α) (i : ℕ) : rdZ buf (i : ℤ) = rd buf i := by
  simp [rdZ, rd]

theorem fill_eq_of_forall (n : ℕ) (f : ℕ → α) (l : List α) (hl : l.length = n)
    (h : ∀ i, i < n → f i = rd l i) : fill n f = l := by
  apply List.ext_getElem
  · simp [fill, hl]
  · intro i h1 h2
    have hi : i < n := by simpa [fill] using h1
    simp [fill, h i hi, rd, h2]

/-! ## The shape of a run -/

theorem jsRound_nonneg (x : α) (hx : 0 ≤ x) : 0 ≤ jsRound x := by
  unfold jsRound
  apply Int.floor_nonneg.mpr
  linarith

theorem precomputeWeights_ok (M : JSMath α) (oldSize : ℕ) (newSize : ℤ) (a : α)
    (h : 0 ≤ newSize) :
    precomputeWeights M oldSize newSize a
      = .ok ((List.range newSize.toNat).map fun i => weightRow M oldSize newSize.toNat a i) := by
  simp [precomputeWeights, not_lt.mpr h]

theorem lanczosScaleRGBA_ok (M : JSMath α) (src : List α) (width height : ℕ)
    (newWidth newHeight : ℤ) (hw : 0 ≤ newWidth) (hh : 0 ≤ newHeight) :
    lanczosScaleRGBA M src width height newWidth newHeight
      = .ok (lanczosProgress height newHeight.toNat,
          lanczosDst
            (lanczosTemp src
              ((List.range newWidth.toNat).map fun i =>
                weightRow M width newWidth.toNat LANCZOS_A i)
              width height newWidth.toNat)
            ((List.range newHeight.toNat).map fun i =>
              weightRow M height newHeight.toNat LANCZOS_A i)
            newWidth.toNat newHeight.toNat) := by
  simp [lanczosScaleRGBA, precomputeWeights_ok, hw, hh]

theorem lanczosScaleRGBA_error (M : JSMath α) (src : List α) (width height : ℕ)
    (newWidth newHeight : ℤ) (h : newWidth < 0 ∨ newHeight < 0) :
    ∃ e, lanczosScaleRGBA M src width height newWidth newHeight = .error e := by
  unfold lanczosScaleRGBA precomputeWeights
  by_cases hw : newWidth < 0
  · simp [hw]
  · have hh : newHeight < 0 := h.resolve_left hw
    simp [hw, hh]

theorem length_lanczosDst (temp : List α) (weightsY : List (List (Tap α)))
    (newWidth newHeight : ℕ) :
    (lanczosDst temp weightsY newWidth newHeight).length = newWidth * newHeight * 4 := by
  simp [lanczosDst, length_fill]

theorem length_enhanceLuma (M : JSMath α) (rgba : List α) (width height : ℕ) :
    (enhanceLuma M rgba width height).length = rgba.length := by
  simp [enhanceLuma, length_fill]

/-- The run of the handler when both target dimensions are non-negative: the two first
checkpoints, the resampler's reports, the three last checkpoints, then the result. -/
theorem onmessage_of_nonneg (M : JSMath α) (req : Request α)
    (hw : 0 ≤ jsRound ((req.width : α) * req.scale))
    (hh : 0 ≤ jsRound ((req.height : α) * req.scale)) :
    ∃ buf : List ℤ,
      (buf.length : ℤ)
          = jsRound ((req.width : α) * req.scale) * jsRound ((req.height : α) * req.scale) * 4 ∧
      onmessage M req =
        [Event.progress 5, Event.progress 18]
          ++ (lanczosProgress req.height (jsRound ((req.height : α) * req.scale)).toNat).map
              (fun p => Event.progress (18 + p * 45))
          ++ [Event.progress 68, Event.progress 88, Event.progress 100,
              Event.complete (jsRound ((req.width : α) * req.scale))
                (jsRound ((req.height : α) * req.scale)) buf] := by
  unfold onmessage
  simp only [lanczosScaleRGBA_ok M _ _ _ _ _ hw hh, List.append_assoc]
  refine ⟨_, ?_, rfl⟩
  simp only [List.length_map, length_enhanceLuma, length_lanczosDst]
  push_cast
  rw [Int.toNat_of_nonneg hw, Int.toNat_of_nonneg hh]

/-- The run of the handler when a target dimension is negative: the two first checkpoints,
then the error raised by the allocation in the resampler. -/
theorem onmessage_of_neg (M : JSMath α) (req : Request α)
    (h : jsRound ((req.width : α) * req.scale) < 0 ∨ jsRound ((req.height : α) * req.scale) < 0) :
    onmessage M req = [Event.progress 5, Event.progress 18, Event.error] := by
  obtain ⟨e, he⟩ := lanczosScaleRGBA_error M
    (mergeFromYcbcr
      (bilateralFilterY M (splitToYcbcr (toFloat32 req.buffer) req.width req.height).y
        req.width req.height 1.25 12)
      (splitToYcbcr (toFloat32 req.buffer) req.width req.height).cb
      (splitToYcbcr (toFloat32 req.buffer) req.width req.height).cr
      (some (splitToYcbcr (toFloat32 req.buffer) req.width req.height).alpha))
    req.width req.height _ _ h
  unfold onmessage
  simp only [he]
  rfl

/-! ## Quantisation to 8 bits -/

theorem clamp_range {β : Type} [LinearOrder β] (v lo hi : β) (h : lo ≤ hi) :
    lo ≤ clamp v lo hi ∧ clamp v lo hi ≤ hi := by
  unfold clamp
  split_ifs with h1 h2
  · exact ⟨le_refl _, h⟩
  · exact ⟨h, le_refl _⟩
  · exact ⟨not_lt.mp h1, not_lt.mp h2⟩

theorem toUint8Clamp_range (x : α) : 0 ≤ toUint8Clamp x ∧ toUint8Clamp x ≤ 255 := by
  obtain ⟨h0, h255⟩ := clamp_range x (0 : α) 255 (by norm_num)
  have hf0 : 0 ≤ ⌊clamp x (0 : α) 255⌋ := Int.floor_nonneg.mpr h0
  have hfle : (⌊clamp x (0 : α) 255⌋ : α) ≤ clamp x 0 255 := Int.floor_le _
  have hf255 : ⌊clamp x (0 : α) 255⌋ ≤ 255 := by
    have : (⌊clamp x (0 : α) 255⌋ : α) ≤ ((255 : ℤ) : α) := by push_cast; linarith
    exact_mod_cast this
  have hstep : ¬ clamp x (0 : α) 255 < (⌊clamp x (0 : α) 255⌋ : α) + 1 / 2 →
      ⌊clamp x (0 : α) 255⌋ + 1 ≤ 255 := by
    intro h
    have h1 : (⌊clamp x (0 : α) 255⌋ : α) < ((255 : ℤ) : α) := by
      push_cast; linarith [not_lt.mp h]
    have h2 : ⌊clamp x (0 : α) 255⌋ < 255 := by exact_mod_cast h1
    omega
  unfold toUint8Clamp
  simp only []
  split_ifs with h1 h2 h3
  · exact ⟨hf0, hf255⟩
  · exact ⟨by omega, hstep h1⟩
  · exact ⟨hf0, hf255⟩
  · exact ⟨by omega, hstep h1⟩

theorem quantize_range (v : α) : 0 ≤ quantize v ∧ quantize v ≤ 255 :=
  toUint8Clamp_range _

theorem jsRound_natCast (n : ℕ) : jsRound (n : α) = n := by
  unfold jsRound
  rw [Int.floor_eq_iff]
  constructor <;> push_cast <;> linarith

/-! ## C1 and C2: shape and range of the result -/

/-- C1: for a request with width and height at least 1, a positive scale and a buffer of
length `width * height * 4`, the run consists of progress notifications followed by one
result, which carries width `round(W*S)`, height `round(H*S)` and a buffer of length
`width * height * 4`. -/
theorem C1_output_shape (M : JSMath α) (req : Request α) (hw : 1 ≤ req.width)
    (hh : 1 ≤ req.height) (hs : 0 < req.scale)
    (hb : req.buffer.length = req.width * req.height * 4) :
    ∃ (pre : List (Event α)) (buf : List ℤ),
      onmessage M req
          = pre ++ [Event.complete (jsRound ((req.width : α) * req.scale))
                      (jsRound ((req.height : α) * req.scale)) buf] ∧
      (∀ e ∈ pre, e.isProgress = true) ∧
      (buf.length : ℤ)
          = jsRound ((req.width : α) * req.scale) * jsRound ((req.height : α) * req.scale) * 4 := by
  have h1 : 0 ≤ jsRound ((req.width : α) * req.scale) :=
    jsRound_nonneg _ (mul_nonneg (Nat.cast_nonneg _) hs.le)
  have h2 : 0 ≤ jsRound ((req.height : α) * req.scale) :=
    jsRound_nonneg _ (mul_nonneg (Nat.cast_nonneg _) hs.le)
  obtain ⟨buf, hlen, hrun⟩ := onmessage_of_nonneg M req h1 h2
  refine ⟨[Event.progress 5, Event.progress 18]
      ++ (lanczosProgress req.height (jsRound ((req.height : α) * req.scale)).toNat).map
          (fun p => Event.progress (18 + p * 45))
      ++ [Event.progress 68, Event.progress 88, Event.progress 100], buf, ?_, ?_, hlen⟩
  · rw [hrun]
    simp
  · intro e he
    simp only [List.mem_append, List.mem_map, List.mem_cons, List.mem_singleton,
      List.not_mem_nil, or_false] at he
    rcases he with ((h | h) | ⟨p, _, h⟩) | h | h | h <;> subst h <;> rfl

/-- C1 at the one-pixel request over the reals. -/
theorem C1_output_shape_witness :
    ∃ (pre : List (Event ℝ)) (buf : List ℤ),
      onmessage (JSMath.mk Real.pi Real.sin Real.exp Real.sqrt) pixelRequest
          = pre ++ [Event.complete 1 1 buf] ∧
      (∀ e ∈ pre, e.isProgress = true) ∧ (buf.length : ℤ) = 1 * 1 * 4 := by
  have h := C1_output_shape (JSMath.mk Real.pi Real.sin Real.exp Real.sqrt)
    (pixelRequest : Request ℝ) (le_refl 1) (le_refl 1) one_pos rfl
  have e1 : jsRound (((pixelRequest : Request ℝ).width : ℝ) * (pixelRequest : Request ℝ).scale)
      = 1 := by
    have := jsRound_natCast (α := ℝ) 1
    simpa [pixelRequest] using this
  have e2 : jsRound (((pixelRequest : Request ℝ).height : ℝ) * (pixelRequest : Request ℝ).scale)
      = 1 := by
    have := jsRound_natCast (α := ℝ) 1
    simpa [pixelRequest] using this
  rw [e1, e2] at h
  exact h

/-- C2: every sample of the buffer of a result posted by the handler is an integer in
`[0, 255]`, for every request. -/
theorem C2_output_range (M : JSMath α) (req : Request α) (w h : ℤ) (buf : List ℤ)
    (hrun : Event.complete w h buf ∈ onmessage M req) (s : ℤ) (hs : s ∈ buf) :
    0 ≤ s ∧ s ≤ 255 := by
  unfold onmessage at hrun
  simp only [List.cons_append, List.nil_append, List.mem_cons] at hrun
  rcases hrun with hrun | hrun | hrun
  · cases hrun
  · cases hrun
  · split at hrun
    · simp at hrun
    · simp only [List.mem_append, List.mem_map, List.mem_cons, List.mem_singleton,
        List.not_mem_nil, or_false] at hrun
      rcases hrun with ⟨p, _, hp⟩ | hp | hp | hp | hp
      · cases hp
      · cases hp
      · cases hp
      · cases hp
      · injection hp with _ _ hbuf
        subst hbuf
        obtain ⟨v, _, rfl⟩ := List.mem_map.mp hs
        exact quantize_range v

/-- C2 at the one-pixel request over the reals: the result has four samples, all in range. -/
theorem C2_output_range_witness :
    ∃ buf : List ℤ,
      Event.complete 1 1 buf
          ∈ onmessage (JSMath.mk Real.pi Real.sin Real.exp Real.sqrt) pixelRequest ∧
      buf.length = 4 ∧ ∀ s ∈ buf, 0 ≤ s ∧ s ≤ 255 := by
  have e1 : jsRound (((pixelRequest : Request ℝ).width : ℝ) * (pixelRequest : Request ℝ).scale)
      = 1 := by
    have := jsRound_natCast (α := ℝ) 1
    simpa [pixelRequest] using this
  have e2 : jsRound (((pixelRequest : Request ℝ).height : ℝ) * (pixelRequest : Request ℝ).scale)
      = 1 := by
    have := jsRound_natCast (α := ℝ) 1
    simpa [pixelRequest] using this
  obtain ⟨buf, hlen, hrun⟩ := onmessage_of_nonneg
    (JSMath.mk Real.pi Real.sin Real.exp Real.sqrt) (pixelRequest : Request ℝ)
    (by rw [e1]; norm_num) (by rw [e2]; norm_num)
  rw [e1, e2] at hrun hlen
  have hmem : Event.complete 1 1 buf
      ∈ onmessage (JSMath.mk Real.pi Real.sin Real.exp Real.sqrt) pixelRequest := by
    rw [hrun]; simp
  refine ⟨buf, hmem, ?_, fun s hs => C2_output_range _ _ 1 1 buf hmem s hs⟩
  have : (buf.length : ℤ) = 4 := by simpa using hlen
  exact_mod_cast this

/-! ## C3: the colour round trip -/

theorem rd_toFloat32 (buf : List (Fin 256)) (j : ℕ) (hj : j < buf.length) :
    rd (toFloat32 buf : List α) j = (((buf.getD j 0 : Fin 256) : ℕ) : α) := by
  simp only [rd, toFloat32, List.getD_eq_getElem?_getD, List.getElem?_map,
    List.getElem?_eq_getElem hj, Option.map_some', Option.getD_some]

theorem byte_bounds (b : Fin 256) : (0 : α) ≤ ((b : ℕ) : α) ∧ ((b : ℕ) : α) ≤ 255 := by
  refine ⟨Nat.cast_nonneg _, ?_⟩
  have h : (b : ℕ) ≤ 255 := by omega
  exact_mod_cast h

/-- A value within half a unit below and above `n` (a sample in `[0,255]`) is stored as `n` or
`n + 1` by the final conversion. -/
theorem quantize_near (n : ℤ) (hn0 : 0 ≤ n) (hn : n ≤ 255) (v : α)
    (h1 : (n : α) - 1 / 2 ≤ v) (h2 : v < (n : α) + 1 / 2) :
    n ≤ quantize v ∧ quantize v ≤ n + 1 := by
  have hn0' : (0 : α) ≤ (n : α) := by exact_mod_cast hn0
  have hn' : (n : α) ≤ 255 := by exact_mod_cast hn
  have hc1 : (n : α) ≤ clamp255 (v + 0.5) := by
    unfold clamp255
    apply le_max_of_le_right
    apply le_min hn'
    norm_num; linarith
  have hc2 : clamp255 (v + 0.5) < (n : α) + 1 := by
    unfold clamp255
    apply max_lt (by linarith)
    apply lt_of_le_of_lt (min_le_right _ _)
    norm_num; linarith
  have hc3 : clamp255 (v + 0.5) ≤ 255 := by
    unfold clamp255
    exact max_le (by norm_num) (min_le_left _ _)
  have hcl : clamp (clamp255 (v + 0.5)) (0 : α) 255 = clamp255 (v + 0.5) := by
    unfold clamp
    rw [if_neg (not_lt.mpr (le_trans hn0' hc1)), if_neg (not_lt.mpr hc3)]
  have hfl : ⌊clamp255 (v + 0.5)⌋ = n := by
    rw [Int.floor_eq_iff]
    exact ⟨hc1, hc2⟩
  unfold quantize toUint8Clamp
  simp only [hcl, hfl]
  split_ifs <;> constructor <;> omega

theorem abs_sub_le_one_of_near (n q : ℤ) (h : n ≤ q ∧ q ≤ n + 1) : |q - n| ≤ 1 := by
  rw [abs_le]
  constructor <;> omega

/-- C3: on a buffer of 8-bit samples of length `width * height * 4`, recomposing the planes
of the decomposition gives a buffer of the same length in which, for every pixel, each of
R, G and B is within 1 of the original sample after the 8-bit conversion of the handler, and
the alpha sample equals the original one. -/
theorem C3_color_roundtrip (buf : List (Fin 256)) (width height : ℕ)
    (hlen : buf.length = width * height * 4) (i : ℕ) (hi : i < width * height) :
    (roundTrip (toFloat32 buf : List α) width height).length = buf.length ∧
    |quantize (rd (roundTrip (toFloat32 buf : List α) width height) (4 * i))
      - (((buf.getD (4 * i) 0 : Fin 256) : ℕ) : ℤ)| ≤ 1 ∧
    |quantize (rd (roundTrip (toFloat32 buf : List α) width height) (4 * i + 1))
      - (((buf.getD (4 * i + 1) 0 : Fin 256) : ℕ) : ℤ)| ≤ 1 ∧
    |quantize (rd (roundTrip (toFloat32 buf : List α) width height) (4 * i + 2))
      - (((buf.getD (4 * i + 2) 0 : Fin 256) : ℕ) : ℤ)| ≤ 1 ∧
    rd (roundTrip (toFloat32 buf : List α) width height) (4 * i + 3)
      = (((buf.getD (4 * i + 3) 0 : Fin 256) : ℕ) : α) := by
  have hr := byte_bounds (α := α) (buf.getD (4 * i) 0)
  have hg := byte_bounds (α := α) (buf.getD (4 * i + 1) 0)
  have hb := byte_bounds (α := α) (buf.getD (4 * i + 2) 0)
  have e0 : (4 * i) / 4 = i := by omega
  have e1 : (4 * i + 1) / 4 = i := by omega
  have e2 : (4 * i + 2) / 4 = i := by omega
  have e3 : (4 * i + 3) / 4 = i := by omega
  have m0 : (4 * i) % 4 = 0 := by omega
  have m1 : (4 * i + 1) % 4 = 1 := by omega
  have m2 : (4 * i + 2) % 4 = 2 := by omega
  have m3 : (4 * i + 3) % 4 = 3 := by omega
  have hbyte : ∀ b : Fin 256, (((b : ℕ) : ℤ) : α) = ((b : ℕ) : α) := fun b => by push_cast; rfl
  refine ⟨?_, ?_, ?_, ?_, ?_⟩
  · simp [roundTrip, mergeFromYcbcr, splitToYcbcr, length_fill, hlen]
  · apply abs_sub_le_one_of_near
    apply quantize_near _ (by omega) (by omega)
    all_goals
      simp only [roundTrip, mergeFromYcbcr, splitToYcbcr, length_fill]
      rw [rd_fill _ _ _ (by omega)]
      simp only [e0, m0, rd_fill _ _ _ hi]
      rw [rd_toFloat32 _ _ (by omega), rd_toFloat32 _ _ (by omega), rd_toFloat32 _ _ (by omega)]
      rw [hbyte]
      generalize buf.getD (4 * i) 0 = r at hr ⊢
      generalize buf.getD (4 * i + 1) 0 = g at hg ⊢
      generalize buf.getD (4 * i + 2) 0 = b at hb ⊢
      norm_num
      linarith [hr.1, hr.2, hg.1, hg.2, hb.1, hb.2]
  · apply abs_sub_le_one_of_near
    apply quantize_near _ (by omega) (by omega)
    all_goals
      simp only [roundTrip, mergeFromYcbcr, splitToYcbcr, length_fill]
      rw [rd_fill _ _ _ (by omega)]
      simp only [e1, m1, rd_fill _ _ _ hi]
      rw [rd_toFloat32 _ _ (by omega), rd_toFloat32 _ _ (by omega), rd_toFloat32 _ _ (by omega)]
      rw [hbyte]
      generalize buf.getD (4 * i) 0 = r at hr ⊢
      generalize buf.getD (4 * i + 1) 0 = g at hg ⊢
      generalize buf.getD (4 * i + 2) 0 = b at hb ⊢
      norm_num
      linarith [hr.1, hr.2, hg.1, hg.2, hb.1, hb.2]
  · apply abs_sub_le_one_of_near
    apply quantize_near _ (by omega) (by omega)
    all_goals
      simp only [roundTrip, mergeFromYcbcr, splitToYcbcr, length_fill]
      rw [rd_fill _ _ _ (by omega)]
      simp only [e2, m2, rd_fill _ _ _ hi]
      rw [rd_toFloat32 _ _ (by omega), rd_toFloat32 _ _ (by omega), rd_toFloat32 _ _ (by omega)]
      rw [hbyte]
      generalize buf.getD (4 * i) 0 = r at hr ⊢
      generalize buf.getD (4 * i + 1) 0 = g at hg ⊢
      generalize buf.getD (4 * i + 2) 0 = b at hb ⊢
      norm_num
      linarith [hr.1, hr.2, hg.1, hg.2, hb.1, hb.2]
  · simp only [roundTrip, mergeFromYcbcr, splitToYcbcr, length_fill]
    rw [rd_fill _ _ _ (by omega)]
    simp only [e3, m3, rd_fill _ _ _ hi]
    rw [rd_toFloat32 _ _ (by omega)]

/-- C3 at the one-pixel buffer `(10, 20, 30, 255)` over the rationals. -/
theorem C3_color_roundtrip_witness :
    (roundTrip (toFloat32 [10, 20, 30, 255] : List ℚ) 1 1).length
        = ([10, 20, 30, 255] : List (Fin 256)).length ∧
    |quantize (rd (roundTrip (toFloat32 [10, 20, 30, 255] : List ℚ) 1 1) (4 * 0))
      - (((([10, 20, 30, 255] : List (Fin 256)).getD (4 * 0) 0 : Fin 256) : ℕ) : ℤ)| ≤ 1 ∧
    |quantize (rd (roundTrip (toFloat32 [10, 20, 30, 255] : List ℚ) 1 1) (4 * 0 + 1))
      - (((([10, 20, 30, 255] : List (Fin 256)).getD (4 * 0 + 1) 0 : Fin 256) : ℕ) : ℤ)| ≤ 1 ∧
    |quantize (rd (roundTrip (toFloat32 [10, 20, 30, 255] : List ℚ) 1 1) (4 * 0 + 2))
      - (((([10, 20, 30, 255] : List (Fin 256)).getD (4 * 0 + 2) 0 : Fin 256) : ℕ) : ℤ)| ≤ 1 ∧
    rd (roundTrip (toFloat32 [10, 20, 30, 255] : List ℚ) 1 1) (4 * 0 + 3)
      = (((([10, 20, 30, 255] : List (Fin 256)).getD (4 * 0 + 3) 0 : Fin 256) : ℕ) : ℚ) :=
  C3_color_roundtrip [10, 20, 30, 255] 1 1 rfl 0 (by norm_num)

/-! ## C4: resampling weights -/

theorem foldl_add_eq_sum {β : Type} (l : List β) (f : β → α) (a : α) :
    l.foldl (fun s t => s + f t) a = a + (l.map f).sum := by
  induction l generalizing a with
  | nil => simp
  | cons x xs ih => simp [ih, add_assoc]

theorem weightItems_index (M : JSMath α) (oldSize : ℕ) (a center : α) (t : Tap α)
    (ht : t ∈ weightItems M oldSize a center) : 0 ≤ t.index ∧ t.index < oldSize := by
  unfold weightItems at ht
  simp only [List.mem_filterMap] at ht
  obtain ⟨j, _, hj⟩ := ht
  split_ifs at hj with h1 h2
  · injection hj with hj
    subst hj
    simp only [not_or, not_lt, ge_iff_le, not_le] at h1
    exact h1

theorem weightRow_index (M : JSMath α) (oldSize newSize : ℕ) (a : α) (i : ℕ)
    (hold : 1 ≤ oldSize) (t : Tap α) (ht : t ∈ weightRow M oldSize newSize a i) :
    0 ≤ t.index ∧ t.index < oldSize := by
  unfold weightRow at ht
  simp only [] at ht
  split_ifs at ht with h1 h2
  · simp only [List.mem_singleton] at ht
    subst ht
    have h := clamp_range (jsRound (((i : α) + 0.5) * (1 / ((newSize : α) / (oldSize : α))) - 0.5))
      (0 : ℤ) ((oldSize : ℤ) - 1) (by omega)
    simp only []
    omega
  · obtain ⟨u, hu, rfl⟩ := List.mem_map.mp ht
    exact weightItems_index M oldSize a _ u hu
  · obtain ⟨u, hu, rfl⟩ := List.mem_map.mp ht
    exact weightItems_index M oldSize a _ u hu

theorem weightRow_sum (M : JSMath α) (oldSize newSize : ℕ) (a : α) (i : ℕ) :
    ((weightRow M oldSize newSize a i).map Tap.weight).sum = 1 := by
  unfold weightRow
  simp only []
  split_ifs with h1 h2
  · simp
  · rw [foldl_add_eq_sum, zero_add] at h2
    rw [foldl_add_eq_sum, zero_add, List.map_map]
    have : (Tap.weight ∘ fun t : Tap α =>
        ({ index := t.index, weight := t.weight / (List.map Tap.weight
          (weightItems M oldSize a (((i : α) + 0.5) * (1 / ((newSize : α) / (oldSize : α)))))).sum }
          : Tap α))
        = fun t : Tap α => t.weight * (List.map Tap.weight
          (weightItems M oldSize a (((i : α) + 0.5) * (1 / ((newSize : α) / (oldSize : α)))))).sum⁻¹ := by
      funext t
      simp [div_eq_mul_inv]
    rw [this, List.sum_map_mul_right]
    exact mul_inv_cancel₀ h2
  · rw [List.map_map]
    have : (Tap.weight ∘ fun t : Tap α =>
        ({ index := t.index, weight := 1 / ((weightItems M oldSize a
          (((i : α) + 0.5) * (1 / ((newSize : α) / (oldSize : α))))).length : α) } : Tap α))
        = fun _ : Tap α => 1 / ((weightItems M oldSize a
          (((i : α) + 0.5) * (1 / ((newSize : α) / (oldSize : α))))).length : α) := by
      funext t
      rfl
    rw [this, List.map_const', List.sum_replicate, nsmul_eq_mul]
    have hne : ((weightItems M oldSize a
        (((i : α) + 0.5) * (1 / ((newSize : α) / (oldSize : α))))).length : α) ≠ 0 := by
      exact_mod_cast h1
    exact mul_one_div_cancel hne

/-- C4: for source and destination sizes at least 1, `precomputeWeights(oldSize, newSize, 3)`
returns `newSize` weight lists; in each of them the weights sum to 1 and every index lies in
`[0, oldSize)`, whichever of the three branches produced the list. -/
theorem C4_weights_normalized (M : JSMath α) (oldSize newSize : ℕ) (hold : 1 ≤ oldSize)
    (hnew : 1 ≤ newSize) :
    ∃ weights : List (List (Tap α)),
      precomputeWeights M oldSize (newSize : ℤ) LANCZOS_A = .ok weights ∧
      weights.length = newSize ∧
      ∀ i, i < newSize →
        ((weights.getD i []).map Tap.weight).sum = 1 ∧
        ∀ t ∈ weights.getD i [], 0 ≤ t.index ∧ t.index < (oldSize : ℤ) := by
  refine ⟨_, precomputeWeights_ok M oldSize newSize LANCZOS_A (by omega), by simp, ?_⟩
  intro i hi
  have hrow : ((List.range (newSize : ℤ).toNat).map fun i =>
      weightRow M oldSize (newSize : ℤ).toNat (LANCZOS_A : α) i).getD i []
      = weightRow M oldSize newSize LANCZOS_A i := by
    simp [hi]
  rw [hrow]
  exact ⟨weightRow_sum M oldSize newSize _ i,
    fun t ht => weightRow_index M oldSize newSize _ i hold t ht⟩

/-- C4 at the real kernel, for the sizes 4 and 8 of the uniform-image scenario. -/
theorem C4_weights_normalized_witness :
    ∃ weights : List (List (Tap ℝ)),
      precomputeWeights (JSMath.mk Real.pi Real.sin Real.exp Real.sqrt) 4 ((8 : ℕ) : ℤ) LANCZOS_A
        = .ok weights ∧
      weights.length = 8 ∧
      ∀ i, i < 8 →
        ((weights.getD i []).map Tap.weight).sum = 1 ∧
        ∀ t ∈ weights.getD i [], 0 ≤ t.index ∧ t.index < ((4 : ℕ) : ℤ) :=
  C4_weights_normalized _ 4 8 (by norm_num) (by norm_num)

/-! ## Resampling at scale 1 with a sine that vanishes at the integer multiples of `PI` -/

theorem lanczosKernel_intCast (M : JSMath α) (hsin : ∀ k : ℤ, M.sin (M.PI * (k : α)) = 0)
    (k : ℤ) (hk : k ≠ 0) (a : α) : lanczosKernel M (k : α) a = 0 := by
  unfold lanczosKernel
  have hk0 : (k : α) ≠ 0 := by exact_mod_cast hk
  rw [if_neg hk0]
  simp [hsin k]

theorem lanczosKernel_zero (M : JSMath α) (a : α) : lanczosKernel M 0 a = 1 := by
  simp [lanczosKernel]

theorem intRange_eight (i : ℤ) :
    intRange (i - 3) (i + 4) = [i - 3, i - 2, i - 1, i, i + 1, i + 2, i + 3, i + 4] := by
  have h : (i + 4 + 1 - (i - 3)).toNat = 8 := by
    have : i + 4 + 1 - (i - 3) = 8 := by ring
    rw [this]; rfl
  unfold intRange
  rw [h]
  simp only [List.range_succ, List.range_zero, List.nil_append, List.cons_append, List.map_cons,
    List.map_nil]
  norm_num
  omega

theorem weightItems_unit (M : JSMath α) (hsin : ∀ k : ℤ, M.sin (M.PI * (k : α)) = 0)
    (oldSize i : ℕ) (hi : i < oldSize) :
    weightItems M oldSize 3 ((i : α) + 0.5) = [{ index := (i : ℤ), weight := 1 }] := by
  have hL : ⌊(i : α) + 0.5 - 3⌋ = (i : ℤ) - 3 := by
    rw [Int.floor_eq_iff]
    push_cast
    constructor
    · norm_num
    · norm_num; linarith
  have hR : ⌈(i : α) + 0.5 + 3⌉ = (i : ℤ) + 4 := by
    rw [Int.ceil_eq_iff]
    push_cast
    constructor
    · norm_num; linarith
    · norm_num; linarith
  have hitem : ∀ j : ℤ,
      (if j < 0 ∨ j ≥ (oldSize : ℤ) then none
        else if lanczosKernel M ((i : α) + 0.5 - (j : α) - 0.5) 3 ≠ 0 then
          some ({ index := j, weight := lanczosKernel M ((i : α) + 0.5 - (j : α) - 0.5) 3 } : Tap α)
        else none)
      = if j = (i : ℤ) then some ({ index := (i : ℤ), weight := 1 } : Tap α) else none := by
    intro j
    have hx : (i : α) + 0.5 - (j : α) - 0.5 = (((i : ℤ) - j : ℤ) : α) := by
      push_cast; ring
    rw [hx]
    by_cases hj : j = (i : ℤ)
    · subst hj
      have hlt : ¬ ((i : ℤ) < 0 ∨ (i : ℤ) ≥ (oldSize : ℤ)) := by omega
      simp [hi, lanczosKernel_zero]
    · have hne : (i : ℤ) - j ≠ 0 := by omega
      rw [lanczosKernel_intCast M hsin _ hne, if_neg hj]
      simp
  unfold weightItems
  simp only [hL, hR, intRange_eight, hitem]
  have h1 : (i : ℤ) - 3 ≠ i := by omega
  have h2 : (i : ℤ) - 2 ≠ i := by omega
  have h3 : (i : ℤ) - 1 ≠ i := by omega
  have h4 : (i : ℤ) + 1 ≠ i := by omega
  have h5 : (i : ℤ) + 2 ≠ i := by omega
  have h6 : (i : ℤ) + 3 ≠ i := by omega
  have h7 : (i : ℤ) + 4 ≠ i := by omega
  simp [List.filterMap_cons, h1, h2, h3]

theorem weightRow_unit (M : JSMath α) (hsin : ∀ k : ℤ, M.sin (M.PI * (k : α)) = 0)
    (size i : ℕ) (hi : i < size) :
    weightRow M size size LANCZOS_A i = [{ index := (i : ℤ), weight := 1 }] := by
  have hs : (size : α) ≠ 0 := by
    have : size ≠ 0 := by omega
    exact_mod_cast this
  have hc : ((i : α) + 0.5) * (1 / ((size : α) / (size : α))) = (i : α) + 0.5 := by
    rw [div_self hs]; simp
  unfold weightRow
  simp only [hc, LANCZOS_A, weightItems_unit M hsin size i hi]
  simp

theorem index_decode (k width : ℕ) :
    ((((k / 4 / width : ℕ) : ℤ) * (width : ℤ) + ((k / 4 % width : ℕ) : ℤ)) * 4
      + ((k % 4 : ℕ) : ℤ)) = (k : ℤ) := by
  have h1 : k / 4 / width * width + k / 4 % width = k / 4 := Nat.div_add_mod' _ _
  have h2 : (((k / 4 / width : ℕ) : ℤ) * (width : ℤ) + ((k / 4 % width : ℕ) : ℤ))
      = ((k / 4 : ℕ) : ℤ) := by exact_mod_cast h1
  rw [h2]
  omega

theorem weightedSum_single (buf : List α) (j : ℤ) (pos : ℤ → ℤ) :
    weightedSum buf [{ index := j, weight := 1 }] pos = rdZ buf (pos j) := by
  simp [weightedSum]

theorem lanczosTemp_unit (M : JSMath α) (hsin : ∀ k : ℤ, M.sin (M.PI * (k : α)) = 0)
    (src : List α) (width height : ℕ) (hw : 1 ≤ width) (hlen : src.length = width * height * 4) :
    lanczosTemp src ((List.range width).map fun i => weightRow M width width LANCZOS_A i)
      width height width = src := by
  unfold lanczosTemp
  apply fill_eq_of_forall _ _ _ hlen
  intro k hk
  have hx : k / 4 % width < width := Nat.mod_lt _ (by omega)
  have hrow : ((List.range width).map fun i => weightRow M width width (LANCZOS_A : α) i).getD
      (k / 4 % width) [] = [{ index := ((k / 4 % width : ℕ) : ℤ), weight := 1 }] := by
    simp [hx, weightRow_unit M hsin width _ hx]
  simp only [hrow, weightedSum_single, index_decode, rdZ_natCast]

theorem lanczosDst_unit (M : JSMath α) (hsin : ∀ k : ℤ, M.sin (M.PI * (k : α)) = 0)
    (temp : List α) (width height : ℕ) (hw : 1 ≤ width)
    (hlen : temp.length = width * height * 4) :
    lanczosDst temp ((List.range height).map fun i => weightRow M height height LANCZOS_A i)
      width height = temp := by
  unfold lanczosDst
  apply fill_eq_of_forall _ _ _ hlen
  intro k hk
  have hy : k / 4 / width < height := by
    apply Nat.div_lt_of_lt_mul
    have : k / 4 < width * height := by omega
    simpa [Nat.mul_comm] using this
  have hrow : ((List.range height).map fun i => weightRow M height height (LANCZOS_A : α) i).getD
      (k / 4 / width) [] = [{ index := ((k / 4 / width : ℕ) : ℤ), weight := 1 }] := by
    simp [hy, weightRow_unit M hsin height _ hy]
  simp only [hrow, weightedSum_single, index_decode, rdZ_natCast]

/-- Resampling to the same dimensions returns the source buffer, for any host sine that
vanishes at the integer multiples of `PI`. -/
theorem lanczosScaleRGBA_unit (M : JSMath α) (hsin : ∀ k : ℤ, M.sin (M.PI * (k : α)) = 0)
    (src : List α) (width height : ℕ) (hw : 1 ≤ width) (hh : 1 ≤ height)
    (hlen : src.length = width * height * 4) :
    lanczosScaleRGBA M src width height (width : ℤ) (height : ℤ)
      = .ok (lanczosProgress height height, src) := by
  rw [lanczosScaleRGBA_ok M src width height _ _ (by omega) (by omega)]
  simp only [Int.toNat_ofNat]
  rw [lanczosTemp_unit M hsin src width height hw hlen,
    lanczosDst_unit M hsin src width height hw hlen]

theorem real_sin_pi_mul_int (k : ℤ) : Real.sin (Real.pi * (k : ℝ)) = 0 := by
  rw [mul_comm]
  exact Real.sin_int_mul_pi k

/-! ## C6, C7, C8: the messages of a run -/

theorem progressValues_append (xs ys : List (Event α)) :
    progressValues (xs ++ ys) = progressValues xs ++ progressValues ys := by
  simp [progressValues, List.filterMap_append]

theorem progressValues_map_progress (ps : List α) (f : α → α) :
    progressValues (ps.map fun p => Event.progress (f p)) = ps.map f := by
  induction ps with
  | nil => rfl
  | cons p ps ih =>
    simp only [List.map_cons]
    rw [← ih]
    rfl

/-- The progress values of a run whose target dimensions are non-negative. -/
theorem progressValues_onmessage (M : JSMath α) (req : Request α)
    (hw : 0 ≤ jsRound ((req.width : α) * req.scale))
    (hh : 0 ≤ jsRound ((req.height : α) * req.scale)) :
    progressValues (onmessage M req)
      = [5, 18]
        ++ (lanczosProgress req.height (jsRound ((req.height : α) * req.scale)).toNat).map
            (fun p => 18 + p * 45)
        ++ [68, 88, 100] := by
  obtain ⟨buf, _, hrun⟩ := onmessage_of_nonneg M req hw hh
  rw [hrun, progressValues_append, progressValues_append, progressValues_map_progress]
  rfl

theorem tallRequest_round :
    jsRound (((tallRequest : Request ℝ).width : ℝ) * (tallRequest : Request ℝ).scale) = 1 ∧
    jsRound (((tallRequest : Request ℝ).height : ℝ) * (tallRequest : Request ℝ).scale) = 25 := by
  constructor
  · have := jsRound_natCast (α := ℝ) 1
    simpa [tallRequest] using this
  · have := jsRound_natCast (α := ℝ) 25
    simpa [tallRequest] using this

/-- C6 at a well-formed request of height 25 and scale 1: the progress values of the run are
5, 18, 18, 61.2, 40.5, 51.3, 62.1, 63, 68, 88, 100, which drop from 61.2 to 40.5. -/
theorem C6_progress_drops :
    progressValues (onmessage (JSMath.mk Real.pi Real.sin Real.exp Real.sqrt) tallRequest)
      = [5, 18, 18, 306 / 5, 81 / 2, 513 / 10, 621 / 10, 63, 68, 88, 100] ∧
    ¬ List.Chain' (fun a b : ℝ => a ≤ b)
      (progressValues (onmessage (JSMath.mk Real.pi Real.sin Real.exp Real.sqrt) tallRequest)) := by
  have hval : progressValues
      (onmessage (JSMath.mk Real.pi Real.sin Real.exp Real.sqrt) tallRequest)
      = [5, 18, 18, 306 / 5, 81 / 2, 513 / 10, 621 / 10, 63, 68, 88, 100] := by
    rw [progressValues_onmessage _ _ (by rw [tallRequest_round.1]; norm_num)
      (by rw [tallRequest_round.2]; norm_num), tallRequest_round.2]
    have h1 : (List.range 25).filter (fun y => decide (y % 24 = 0)) = [0, 24] := by decide
    have h2 : (List.range 25).filter (fun y => decide (y % 12 = 0)) = [0, 12, 24] := by decide
    have h3 : (25 : ℤ).toNat = 25 := rfl
    simp only [lanczosProgress, tallRequest, h3, h1, h2, List.map_cons, List.map_nil,
      List.cons_append, List.nil_append, List.map_append]
    norm_num
  refine ⟨hval, ?_⟩
  rw [hval]
  norm_num [List.chain'_cons]

theorem jsRound_nonpos (x : α) (hx : x ≤ 0) : jsRound x ≤ 0 := by
  unfold jsRound
  have h : ⌊x + 1 / 2⌋ < 1 := by
    rw [Int.floor_lt]
    push_cast
    linarith
  omega

theorem shortBufferRequest_round :
    jsRound (((shortBufferRequest : Request ℝ).width : ℝ) * (shortBufferRequest : Request ℝ).scale)
      = 1 ∧
    jsRound (((shortBufferRequest : Request ℝ).height : ℝ) * (shortBufferRequest : Request ℝ).scale)
      = 1 := by
  have := jsRound_natCast (α := ℝ) 1
  constructor <;> simpa [shortBufferRequest] using this

theorem zeroScaleRequest_round :
    jsRound (((zeroScaleRequest : Request ℝ).width : ℝ) * (zeroScaleRequest : Request ℝ).scale)
      = 0 ∧
    jsRound (((zeroScaleRequest : Request ℝ).height : ℝ) * (zeroScaleRequest : Request ℝ).scale)
      = 0 := by
  have := jsRound_natCast (α := ℝ) 0
  constructor <;> simpa [zeroScaleRequest] using this

theorem negativeScaleRequest_round :
    jsRound (((negativeScaleRequest : Request ℝ).width : ℝ)
      * (negativeScaleRequest : Request ℝ).scale) = -1 := by
  simp only [negativeScaleRequest, jsRound]
  rw [Int.floor_eq_iff]
  constructor <;> norm_num

/-- C7 fails at the one-pixel request with an empty buffer (length 0, not 4): the run posts
progress notifications and a result, and no error. -/
theorem C7_counterexample :
    (shortBufferRequest : Request ℝ).buffer.length
        ≠ (shortBufferRequest : Request ℝ).width * (shortBufferRequest : Request ℝ).height * 4 ∧
    Event.progress 5
        ∈ onmessage (JSMath.mk Real.pi Real.sin Real.exp Real.sqrt) shortBufferRequest ∧
    (∃ buf, Event.complete 1 1 buf
        ∈ onmessage (JSMath.mk Real.pi Real.sin Real.exp Real.sqrt) shortBufferRequest) ∧
    Event.error ∉ onmessage (JSMath.mk Real.pi Real.sin Real.exp Real.sqrt) shortBufferRequest := by
  obtain ⟨buf, _, hrun⟩ := onmessage_of_nonneg
    (JSMath.mk Real.pi Real.sin Real.exp Real.sqrt) (shortBufferRequest : Request ℝ)
    (by rw [shortBufferRequest_round.1]; norm_num) (by rw [shortBufferRequest_round.2]; norm_num)
  rw [shortBufferRequest_round.1, shortBufferRequest_round.2] at hrun
  refine ⟨by decide, ?_, ⟨buf, ?_⟩, ?_⟩ <;> rw [hrun] <;> simp

/-- C7 as amended: the handler never checks the buffer length.  For every request whose
buffer length differs from `width * height * 4` the run starts with progress 5 and progress 18;
when the scale is non-negative it goes on with further progress notifications and ends with
one result of `round(W*S)` by `round(H*S)` whose buffer has length `width * height * 4`, and
no error is posted. -/
theorem C7_no_length_check (M : JSMath α) (req : Request α)
    (hlen : req.buffer.length ≠ req.width * req.height * 4) :
    (∃ rest, onmessage M req = Event.progress 5 :: Event.progress 18 :: rest) ∧
    (0 ≤ req.scale →
      (∃ (pre : List (Event α)) (buf : List ℤ),
        onmessage M req
            = Event.progress 5 :: Event.progress 18 :: pre
              ++ [Event.complete (jsRound ((req.width : α) * req.scale))
                    (jsRound ((req.height : α) * req.scale)) buf] ∧
        (∀ e ∈ pre, e.isProgress = true) ∧
        (buf.length : ℤ)
            = jsRound ((req.width : α) * req.scale) * jsRound ((req.height : α) * req.scale) * 4) ∧
      Event.error ∉ onmessage M req) := by
  refine ⟨⟨_, rfl⟩, fun hs => ?_⟩
  have h1 : 0 ≤ jsRound ((req.width : α) * req.scale) :=
    jsRound_nonneg _ (mul_nonneg (Nat.cast_nonneg _) hs)
  have h2 : 0 ≤ jsRound ((req.height : α) * req.scale) :=
    jsRound_nonneg _ (mul_nonneg (Nat.cast_nonneg _) hs)
  obtain ⟨buf, hl, hrun⟩ := onmessage_of_nonneg M req h1 h2
  refine ⟨⟨(lanczosProgress req.height (jsRound ((req.height : α) * req.scale)).toNat).map
          (fun p => Event.progress (18 + p * 45))
      ++ [Event.progress 68, Event.progress 88, Event.progress 100], buf, ?_, ?_, hl⟩, ?_⟩
  · rw [hrun]
    simp
  · intro e he
    simp only [List.mem_append, List.mem_map, List.mem_cons, List.mem_singleton,
      List.not_mem_nil, or_false] at he
    rcases he with ⟨p, _, h⟩ | h | h | h <;> subst h <;> rfl
  · rw [hrun]
    simp

/-- The amended C7 at the one-pixel request with an empty buffer, over the reals. -/
theorem C7_no_length_check_witness :
    (∃ (pre : List (Event ℝ)) (buf : List ℤ),
      onmessage (JSMath.mk Real.pi Real.sin Real.exp Real.sqrt) shortBufferRequest
          = Event.progress 5 :: Event.progress 18 :: pre ++ [Event.complete 1 1 buf] ∧
      (∀ e ∈ pre, e.isProgress = true) ∧ (buf.length : ℤ) = 1 * 1 * 4) ∧
    Event.error ∉ onmessage (JSMath.mk Real.pi Real.sin Real.exp Real.sqrt) shortBufferRequest := by
  have h := (C7_no_length_check (JSMath.mk Real.pi Real.sin Real.exp Real.sqrt)
    (shortBufferRequest : Request ℝ) (by decide)).2 (by simp [shortBufferRequest])
  rw [shortBufferRequest_round.1, shortBufferRequest_round.2] at h
  exact h

/-- C8 fails at the one-pixel request with scale 0: the run posts progress notifications and a
result (0 by 0, empty buffer), and no error. -/
theorem C8_counterexample :
    (zeroScaleRequest : Request ℝ).scale ≤ 0 ∧
    Event.progress 5
        ∈ onmessage (JSMath.mk Real.pi Real.sin Real.exp Real.sqrt) zeroScaleRequest ∧
    Event.complete 0 0 []
        ∈ onmessage (JSMath.mk Real.pi Real.sin Real.exp Real.sqrt) zeroScaleRequest ∧
    Event.error ∉ onmessage (JSMath.mk Real.pi Real.sin Real.exp Real.sqrt) zeroScaleRequest := by
  obtain ⟨buf, hl, hrun⟩ := onmessage_of_nonneg
    (JSMath.mk Real.pi Real.sin Real.exp Real.sqrt) (zeroScaleRequest : Request ℝ)
    (by rw [zeroScaleRequest_round.1]) (by rw [zeroScaleRequest_round.2])
  rw [zeroScaleRequest_round.1, zeroScaleRequest_round.2] at hrun hl
  have hbuf : buf = [] := by
    apply List.eq_nil_of_length_eq_zero
    have : (buf.length : ℤ) = 0 := by simpa using hl
    exact_mod_cast this
  subst hbuf
  refine ⟨by simp [zeroScaleRequest], ?_, ?_, ?_⟩ <;> rw [hrun] <;> simp

/-- C8 as amended: the handler never checks the scale.  For every request with a non-positive
scale the run starts with progress 5 and progress 18, and both rounded target dimensions are
at most 0.  If both are 0 (as for scale 0) the run goes on to completion and posts a 0 by 0
result with an empty buffer and no error; if one is negative the run is exactly progress 5,
progress 18, error. -/
theorem C8_nonpositive_scale (M : JSMath α) (req : Request α) (hs : req.scale ≤ 0) :
    (∃ rest, onmessage M req = Event.progress 5 :: Event.progress 18 :: rest) ∧
    jsRound ((req.width : α) * req.scale) ≤ 0 ∧ jsRound ((req.height : α) * req.scale) ≤ 0 ∧
    (jsRound ((req.width : α) * req.scale) = 0 → jsRound ((req.height : α) * req.scale) = 0 →
      onmessage M req
        = [Event.progress 5, Event.progress 18]
          ++ (lanczosProgress req.height 0).map (fun p => Event.progress (18 + p * 45))
          ++ [Event.progress 68, Event.progress 88, Event.progress 100, Event.complete 0 0 []]) ∧
    (jsRound ((req.width : α) * req.scale) < 0 ∨ jsRound ((req.height : α) * req.scale) < 0 →
      onmessage M req = [Event.progress 5, Event.progress 18, Event.error]) := by
  refine ⟨⟨_, rfl⟩,
    jsRound_nonpos _ (mul_nonpos_of_nonneg_of_nonpos (Nat.cast_nonneg _) hs),
    jsRound_nonpos _ (mul_nonpos_of_nonneg_of_nonpos (Nat.cast_nonneg _) hs), ?_,
    onmessage_of_neg M req⟩
  intro h1 h2
  obtain ⟨buf, hl, hrun⟩ := onmessage_of_nonneg M req (by rw [h1]) (by rw [h2])
  rw [h1, h2] at hrun hl
  have hbuf : buf = [] := by
    apply List.eq_nil_of_length_eq_zero
    have : (buf.length : ℤ) = 0 := by simpa using hl
    exact_mod_cast this
  subst hbuf
  exact hrun

/-- The amended C8 at the one-pixel requests with scale 0 and scale -1, over the reals. -/
theorem C8_nonpositive_scale_witness :
    onmessage (JSMath.mk Real.pi Real.sin Real.exp Real.sqrt) zeroScaleRequest
      = [Event.progress 5, Event.progress 18]
        ++ (lanczosProgress 1 0).map (fun p => Event.progress (18 + p * 45))
        ++ [Event.progress 68, Event.progress 88, Event.progress 100, Event.complete 0 0 []] ∧
    onmessage (JSMath.mk Real.pi Real.sin Real.exp Real.sqrt) negativeScaleRequest
      = [Event.progress 5, Event.progress 18, Event.error] :=
  ⟨(C8_nonpositive_scale (JSMath.mk Real.pi Real.sin Real.exp Real.sqrt)
      (zeroScaleRequest : Request ℝ) (by simp [zeroScaleRequest])).2.2.2.1
      zeroScaleRequest_round.1 zeroScaleRequest_round.2,
    (C8_nonpositive_scale (JSMath.mk Real.pi Real.sin Real.exp Real.sqrt)
      (negativeScaleRequest : Request ℝ) (by simp [negativeScaleRequest])).2.2.2.2
      (Or.inl (by rw [negativeScaleRequest_round]; norm_num))⟩

/-! ## C10: the kernel outside its support -/

theorem mem_intRange (lo hi j : ℤ) : j ∈ intRange lo hi ↔ lo ≤ j ∧ j ≤ hi := by
  unfold intRange
  rw [List.mem_map]
  constructor
  · rintro ⟨d, hd, rfl⟩
    rw [List.mem_range] at hd
    omega
  · rintro ⟨h1, h2⟩
    refine ⟨(j - lo).toNat, ?_, ?_⟩
    · rw [List.mem_range]
      omega
    · omega

theorem real_sin_neg_seven_halves : Real.sin (Real.pi * (-7 / 2)) = 1 := by
  have h : Real.pi * (-7 / 2) = Real.pi / 2 + ((-2 : ℤ) : ℝ) * (2 * Real.pi) := by
    push_cast; ring
  rw [h, Real.sin_add_int_mul_two_pi, Real.sin_pi_div_two]

theorem real_sin_neg_seven_sixths : Real.sin (Real.pi * (-7 / 2) / 3) = 1 / 2 := by
  have h : Real.pi * (-7 / 2) / 3
      = (Real.pi - Real.pi / 6) + ((-1 : ℤ) : ℝ) * (2 * Real.pi) := by
    push_cast; ring
  rw [h, Real.sin_add_int_mul_two_pi, Real.sin_pi_sub, Real.sin_pi_div_six]

theorem real_kernel_neg_thirteen_quarters :
    0 < lanczosKernel (JSMath.mk Real.pi Real.sin Real.exp Real.sqrt) (-13 / 4) 3 := by
  have hpi : 0 < Real.pi := Real.pi_pos
  have h1 : Real.sin (Real.pi * (-13 / 4)) = Real.sin (3 * Real.pi / 4) := by
    have h : Real.pi * (-13 / 4) = 3 * Real.pi / 4 + ((-2 : ℤ) : ℝ) * (2 * Real.pi) := by
      push_cast; ring
    rw [h, Real.sin_add_int_mul_two_pi]
  have h2 : Real.sin (Real.pi * (-13 / 4) / 3) = Real.sin (11 * Real.pi / 12) := by
    have h : Real.pi * (-13 / 4) / 3 = 11 * Real.pi / 12 + ((-1 : ℤ) : ℝ) * (2 * Real.pi) := by
      push_cast; ring
    rw [h, Real.sin_add_int_mul_two_pi]
  have p1 : 0 < Real.sin (3 * Real.pi / 4) :=
    Real.sin_pos_of_pos_of_lt_pi (by linarith) (by linarith)
  have p2 : 0 < Real.sin (11 * Real.pi / 12) :=
    Real.sin_pos_of_pos_of_lt_pi (by linarith) (by linarith)
  unfold lanczosKernel
  rw [if_neg (by norm_num)]
  simp only [h1, h2]
  apply mul_pos_of_neg_of_neg
  · apply div_neg_of_pos_of_neg p1
    linarith
  · apply div_neg_of_pos_of_neg p2
    linarith

/-- C10 at the offset `x = -3.5`, outside the support `|x| < 3`: the source `lanczosKernel`
has no case for `|x| >= a` and returns `6 / (49 PI^2)`, not 0; `precomputeWeights(8, 4, 3)`
evaluates the kernel at this offset (centre 1, source index 4) and keeps the tap.  The same
happens when upscaling by 2: `precomputeWeights(4, 8, 3)` keeps, for destination 0 (centre
0.25), the tap of source index 3 at offset `-3.25` with a positive weight. -/
theorem C10_kernel_outside_support :
    lanczosKernel (JSMath.mk Real.pi Real.sin Real.exp Real.sqrt) (-7 / 2) 3
      = 6 / (49 * Real.pi ^ 2) ∧
    lanczosKernel (JSMath.mk Real.pi Real.sin Real.exp Real.sqrt) (-7 / 2) 3 ≠ 0 ∧
    (∃ t ∈ weightItems (JSMath.mk Real.pi Real.sin Real.exp Real.sqrt) 8 3 1,
      t.index = 4 ∧ t.weight = 6 / (49 * Real.pi ^ 2)) ∧
    (∃ t ∈ weightItems (JSMath.mk Real.pi Real.sin Real.exp Real.sqrt) 4 3 (1 / 4),
      t.index = 3 ∧ 0 < t.weight) := by
  have hpi : Real.pi ≠ 0 := Real.pi_ne_zero
  have hval : lanczosKernel (JSMath.mk Real.pi Real.sin Real.exp Real.sqrt) (-7 / 2) 3
      = 6 / (49 * Real.pi ^ 2) := by
    unfold lanczosKernel
    rw [if_neg (by norm_num)]
    simp only [real_sin_neg_seven_halves, real_sin_neg_seven_sixths]
    field_simp
    ring
  have hne : (6 : ℝ) / (49 * Real.pi ^ 2) ≠ 0 := by positivity
  refine ⟨hval, by rw [hval]; exact hne, ?_, ?_⟩
  · refine ⟨{ index := 4, weight := 6 / (49 * Real.pi ^ 2) }, ?_, rfl, rfl⟩
    unfold weightItems
    simp only [List.mem_filterMap]
    refine ⟨4, ?_, ?_⟩
    · rw [mem_intRange]
      constructor
      · have : ⌊(1 : ℝ) - 3⌋ = -2 := by
          rw [Int.floor_eq_iff]; constructor <;> norm_num
        rw [this]; norm_num
      · have : ⌈(1 : ℝ) + 3⌉ = 4 := by
          rw [Int.ceil_eq_iff]; constructor <;> norm_num
        rw [this]
    · have hx : (1 : ℝ) - ((4 : ℤ) : ℝ) - 0.5 = -7 / 2 := by norm_num
      rw [if_neg (by norm_num)]
      simp only [hx, hval]
      rw [if_pos hne]
  · refine ⟨Tap.mk 3
        (lanczosKernel (JSMath.mk Real.pi Real.sin Real.exp Real.sqrt) (-13 / 4) 3),
      ?_, rfl, real_kernel_neg_thirteen_quarters⟩
    unfold weightItems
    simp only [List.mem_filterMap]
    refine ⟨3, ?_, ?_⟩
    · rw [mem_intRange]
      constructor
      · have : ⌊(1 : ℝ) / 4 - 3⌋ = -3 := by
          rw [Int.floor_eq_iff]; constructor <;> norm_num
        rw [this]; norm_num
      · have : ⌈(1 : ℝ) / 4 + 3⌉ = 4 := by
          rw [Int.ceil_eq_iff]; constructor <;> norm_num
        rw [this]; norm_num
    · have hx : (1 : ℝ) / 4 - ((3 : ℤ) : ℝ) - 0.5 = -13 / 4 := by norm_num
      rw [if_neg (by norm_num)]
      simp only [hx]
      rw [if_pos (ne_of_gt real_kernel_neg_thirteen_quarters)]

/-! ## Uniform images -/

theorem fill_const (n : ℕ) (f : ℕ → α) (c : α) (h : ∀ i, i < n → f i = c) :
    fill n f = List.replicate n c := by
  apply List.ext_getElem
  · simp [fill]
  · intro i h1 h2
    have hi : i < n := by simpa [fill] using h1
    simp [fill, h i hi]

theorem rd_replicate (n : ℕ) (c : α) (i : ℕ) (h : i < n) : rd (List.replicate n c) i = c := by
  simp [rd, h]

theorem rdZ_replicate (n : ℕ) (c : α) (i : ℤ) (h0 : 0 ≤ i) (h1 : i < (n : ℤ)) :
    rdZ (List.replicate n c) i = c := by
  have h : i.toNat < n := by omega
  simp [rdZ, not_lt.mpr h0, h]

theorem rd_uniformRGBA (n : ℕ) (g a : α) (k : ℕ) (h : k < n * 4) :
    rd (uniformRGBA n g a) k = if k % 4 = 3 then a else g := by
  unfold uniformRGBA
  rw [rd_fill _ _ _ h]

theorem length_uniformRGBA (n : ℕ) (g a : α) : (uniformRGBA n g a).length = n * 4 := by
  simp [uniformRGBA, length_fill]

theorem splitToYcbcr_uniform (width height : ℕ) (g a : α) :
    splitToYcbcr (uniformRGBA (width * height) g a) width height
      = { y := List.replicate (width * height) g
          cb := List.replicate (width * height) 128
          cr := List.replicate (width * height) 128
          alpha := List.replicate (width * height) a } := by
  have h0 : ∀ i, i < width * height → rd (uniformRGBA (width * height) g a) (4 * i) = g := by
    intro i hi
    rw [rd_uniformRGBA _ _ _ _ (by omega), if_neg (by omega)]
  have h1 : ∀ i, i < width * height → rd (uniformRGBA (width * height) g a) (4 * i + 1) = g := by
    intro i hi
    rw [rd_uniformRGBA _ _ _ _ (by omega), if_neg (by omega)]
  have h2 : ∀ i, i < width * height → rd (uniformRGBA (width * height) g a) (4 * i + 2) = g := by
    intro i hi
    rw [rd_uniformRGBA _ _ _ _ (by omega), if_neg (by omega)]
  have h3 : ∀ i, i < width * height → rd (uniformRGBA (width * height) g a) (4 * i + 3) = a := by
    intro i hi
    rw [rd_uniformRGBA _ _ _ _ (by omega), if_pos (by omega)]
  unfold splitToYcbcr
  simp only [Planes.mk.injEq]
  refine ⟨?_, ?_, ?_, ?_⟩
  · apply fill_const
    intro i hi
    rw [h0 i hi, h1 i hi, h2 i hi]
    norm_num
    ring
  · apply fill_const
    intro i hi
    rw [h0 i hi, h1 i hi, h2 i hi]
    norm_num
    ring
  · apply fill_const
    intro i hi
    rw [h0 i hi, h1 i hi, h2 i hi]
    norm_num
    ring
  · apply fill_const
    intro i hi
    rw [h3 i hi]

theorem mergeFromYcbcr_uniform (n : ℕ) (g a : α) :
    mergeFromYcbcr (List.replicate n g) (List.replicate n 128) (List.replicate n 128)
      (some (List.replicate n a)) = uniformRGBA n g a := by
  unfold mergeFromYcbcr uniformRGBA fill
  simp only [List.length_replicate]
  apply List.map_congr_left
  intro k hk
  have hk4 : k / 4 < n := by
    have := List.mem_range.mp hk
    omega
  have hm : k % 4 < 4 := Nat.mod_lt _ (by norm_num)
  simp only [rd_replicate _ _ _ hk4]
  interval_cases h : k % 4 <;> simp

theorem foldl_const_mul {β : Type} (l : List β) (w : β → α) (c : α) :
    l.foldl (fun s t => s + c * w t) 0 = c * l.foldl (fun s t => s + w t) 0 := by
  rw [foldl_add_eq_sum, foldl_add_eq_sum, zero_add, zero_add]
  have : (fun t => c * w t) = fun t => c * w t := rfl
  rw [List.sum_map_mul_left]

theorem clamped_index_bounds (width height : ℕ) (hw : 1 ≤ width) (hh : 1 ≤ height)
    (nx ny : ℤ) (hx : 0 ≤ nx ∧ nx ≤ (width : ℤ) - 1) (hy : 0 ≤ ny ∧ ny ≤ (height : ℤ) - 1) :
    0 ≤ ny * (width : ℤ) + nx ∧ ny * (width : ℤ) + nx < ((width * height : ℕ) : ℤ) := by
  have hw0 : (0 : ℤ) ≤ (width : ℤ) := by omega
  constructor
  · have := mul_nonneg hy.1 hw0
    omega
  · push_cast
    have h1 : ny * (width : ℤ) ≤ ((height : ℤ) - 1) * (width : ℤ) :=
      mul_le_mul_of_nonneg_right hy.2 hw0
    nlinarith

theorem bilateralPixel_const (M : JSMath α) (kernel : List α) (width height : ℕ)
    (hw : 1 ≤ width) (hh : 1 ≤ height) (sigmaRangeSq c : α) (idx : ℕ)
    (hidx : idx < width * height) :
    bilateralPixel M (List.replicate (width * height) c) kernel width height sigmaRangeSq idx
      = c := by
  have hnb : ∀ (oy ox : ℤ),
      rdZ (List.replicate (width * height) c)
        (clamp (oy + ((idx / width : ℕ) : ℤ)) 0 ((height : ℤ) - 1) * (width : ℤ)
          + clamp (ox + ((idx % width : ℕ) : ℤ)) 0 ((width : ℤ) - 1)) = c := by
    intro oy ox
    have hb := clamped_index_bounds width height hw hh _ _
      (clamp_range (ox + ((idx % width : ℕ) : ℤ)) 0 ((width : ℤ) - 1) (by omega))
      (clamp_range (oy + ((idx / width : ℕ) : ℤ)) 0 ((height : ℤ) - 1) (by omega))
    exact rdZ_replicate _ _ _ hb.1 hb.2
  unfold bilateralPixel bilateralTaps
  simp only [rd_replicate _ _ _ hidx, hnb, List.foldl_map]
  rw [foldl_const_mul]
  split_ifs with h
  · exact mul_div_cancel_right₀ c (ne_of_gt h)
  · rfl

theorem bilateralFilterY_const (M : JSMath α) (width height : ℕ) (hw : 1 ≤ width)
    (hh : 1 ≤ height) (sigmaSpatial sigmaRange c : α) :
    bilateralFilterY M (List.replicate (width * height) c) width height sigmaSpatial sigmaRange
      = List.replicate (width * height) c := by
  unfold bilateralFilterY mixArrays
  simp only [List.length_replicate]
  apply fill_const
  intro i hi
  rw [rd_replicate _ _ _ hi, rd_fill _ _ _ hi, if_pos hi,
    bilateralPixel_const M _ width height hw hh _ c i hi]
  ring

theorem fill_congr (n : ℕ) (f g : ℕ → α) (h : ∀ i, i < n → f i = g i) : fill n f = fill n g := by
  unfold fill
  apply List.map_congr_left
  intro i hi
  exact h i (List.mem_range.mp hi)

theorem rdZ_uniformRGBA (n : ℕ) (g a : α) (q : ℤ) (c : ℕ) (hc : c < 4) (hq0 : 0 ≤ q)
    (hq : q < (n : ℤ)) :
    rdZ (uniformRGBA n g a) (q * 4 + (c : ℤ)) = if c = 3 then a else g := by
  have h1 : q * 4 + (c : ℤ) = ((q.toNat * 4 + c : ℕ) : ℤ) := by
    push_cast
    omega
  rw [h1, rdZ_natCast, rd_uniformRGBA _ _ _ _ (by omega)]
  have h2 : (q.toNat * 4 + c) % 4 = c := by omega
  rw [h2]

theorem weightedSum_const (buf : List α) (list : List (Tap α)) (pos : ℤ → ℤ) (v : α)
    (h : ∀ t ∈ list, rdZ buf (pos t.index) = v) (hsum : (list.map Tap.weight).sum = 1) :
    weightedSum buf list pos = v := by
  unfold weightedSum
  rw [foldl_add_eq_sum, zero_add]
  have hmap : list.map (fun t => rdZ buf (pos t.index) * t.weight)
      = list.map (fun t => v * t.weight) := by
    apply List.map_congr_left
    intro t ht
    rw [h t ht]
  rw [hmap, List.sum_map_mul_left, hsum, mul_one]

theorem lanczosTemp_uniform (M : JSMath α) (width height newWidth : ℕ) (hw : 1 ≤ width)
    (g a : α) :
    lanczosTemp (uniformRGBA (width * height) g a)
      ((List.range newWidth).map fun i => weightRow M width newWidth LANCZOS_A i)
      width height newWidth = uniformRGBA (newWidth * height) g a := by
  unfold lanczosTemp
  rw [show uniformRGBA (newWidth * height) g a
    = fill (newWidth * height * 4) (fun k => if k % 4 = 3 then a else g) from rfl]
  apply fill_congr
  intro k hk
  simp only []
  have hnw : 0 < newWidth := by
    rcases Nat.eq_zero_or_pos newWidth with h | h
    · subst h; simp at hk
    · exact h
  have hx : k / 4 % newWidth < newWidth := Nat.mod_lt _ hnw
  have hy : k / 4 / newWidth < height := by
    apply Nat.div_lt_of_lt_mul
    omega
  have hc : k % 4 < 4 := Nat.mod_lt _ (by norm_num)
  have hrow : ((List.range newWidth).map fun i => weightRow M width newWidth (LANCZOS_A : α) i).getD
      (k / 4 % newWidth) [] = weightRow M width newWidth LANCZOS_A (k / 4 % newWidth) := by
    simp [hx]
  rw [hrow]
  apply weightedSum_const _ _ _ _ _ (weightRow_sum M width newWidth _ _)
  intro t ht
  obtain ⟨h0, h1⟩ := weightRow_index M width newWidth _ _ hw t ht
  apply rdZ_uniformRGBA _ _ _ _ _ hc
  · have := mul_nonneg (Int.ofNat_nonneg (k / 4 / newWidth)) (Int.ofNat_nonneg width)
    simp only [Int.ofNat_eq_coe] at this
    omega
  · have hy' : ((k / 4 / newWidth : ℕ) : ℤ) ≤ (height : ℤ) - 1 := by omega
    have hw0 : (0 : ℤ) ≤ (width : ℤ) := by omega
    have := mul_le_mul_of_nonneg_right hy' hw0
    push_cast
    nlinarith

theorem lanczosDst_uniform (M : JSMath α) (height newWidth newHeight : ℕ) (hh : 1 ≤ height)
    (g a : α) :
    lanczosDst (uniformRGBA (newWidth * height) g a)
      ((List.range newHeight).map fun i => weightRow M height newHeight LANCZOS_A i)
      newWidth newHeight = uniformRGBA (newWidth * newHeight) g a := by
  unfold lanczosDst
  rw [show uniformRGBA (newWidth * newHeight) g a
    = fill (newWidth * newHeight * 4) (fun k => if k % 4 = 3 then a else g) from rfl]
  apply fill_congr
  intro k hk
  simp only []
  have hnw : 0 < newWidth := by
    rcases Nat.eq_zero_or_pos newWidth with h | h
    · subst h; simp at hk
    · exact h
  have hx : k / 4 % newWidth < newWidth := Nat.mod_lt _ hnw
  have hy : k / 4 / newWidth < newHeight := by
    apply Nat.div_lt_of_lt_mul
    omega
  have hc : k % 4 < 4 := Nat.mod_lt _ (by norm_num)
  have hrow : ((List.range newHeight).map fun i =>
      weightRow M height newHeight (LANCZOS_A : α) i).getD
      (k / 4 / newWidth) [] = weightRow M height newHeight LANCZOS_A (k / 4 / newWidth) := by
    simp [hy]
  rw [hrow]
  apply weightedSum_const _ _ _ _ _ (weightRow_sum M height newHeight _ _)
  intro t ht
  obtain ⟨h0, h1⟩ := weightRow_index M height newHeight _ _ hh t ht
  apply rdZ_uniformRGBA _ _ _ _ _ hc
  · have := mul_nonneg h0 (Int.ofNat_nonneg newWidth)
    simp only [Int.ofNat_eq_coe] at this
    omega
  · have ht' : t.index ≤ (height : ℤ) - 1 := by omega
    have hw0 : (0 : ℤ) ≤ (newWidth : ℤ) := by omega
    have := mul_le_mul_of_nonneg_right ht' hw0
    push_cast
    nlinarith

/-- Resampling a uniform image gives a uniform image of the same colour and alpha. -/
theorem lanczosScaleRGBA_uniform (M : JSMath α) (width height : ℕ) (newWidth newHeight : ℤ)
    (hw : 1 ≤ width) (hh : 1 ≤ height) (hnw : 0 ≤ newWidth) (hnh : 0 ≤ newHeight) (g a : α) :
    lanczosScaleRGBA M (uniformRGBA (width * height) g a) width height newWidth newHeight
      = .ok (lanczosProgress height newHeight.toNat,
          uniformRGBA (newWidth.toNat * newHeight.toNat) g a) := by
  rw [lanczosScaleRGBA_ok M _ width height _ _ hnw hnh,
    lanczosTemp_uniform M width height _ hw, lanczosDst_uniform M height _ _ hh]

theorem intRange_five : intRange (-((2 : ℕ) : ℤ)) ((2 : ℕ) : ℤ) = [-2, -1, 0, 1, 2] := by
  decide

theorem buildGaussianKernel_pos (M : JSMath α) (hexp : ∀ x, 0 < M.exp x) (sigma : α) (j : ℕ)
    (hj : j ≤ 2) : 0 < rd (buildGaussianKernel M 2 sigma) j := by
  have hS : 0 < (0 : α) + M.exp (-(((0 : ℕ) : α) * ((0 : ℕ) : α)) / (2 * sigma * sigma))
      + M.exp (-(((1 : ℕ) : α) * ((1 : ℕ) : α)) / (2 * sigma * sigma)) * 2
      + M.exp (-(((2 : ℕ) : α) * ((2 : ℕ) : α)) / (2 * sigma * sigma)) * 2 := by
    have h0 := hexp (-(((0 : ℕ) : α) * ((0 : ℕ) : α)) / (2 * sigma * sigma))
    have h1 := hexp (-(((1 : ℕ) : α) * ((1 : ℕ) : α)) / (2 * sigma * sigma))
    have h2 := hexp (-(((2 : ℕ) : α) * ((2 : ℕ) : α)) / (2 * sigma * sigma))
    linarith
  unfold buildGaussianKernel
  simp only [List.range_succ, List.range_zero, List.nil_append, List.cons_append, List.map_cons,
    List.map_nil, List.foldl_cons, List.foldl_nil, rd, List.getD_cons_zero, List.getD_cons_succ,
    if_true, one_ne_zero, if_false, OfNat.ofNat_ne_zero]
  interval_cases j
  · exact div_pos (hexp _) hS
  · exact div_pos (hexp _) hS
  · exact div_pos (hexp _) hS

theorem blurPixel_const (data kernel : List α) (pos : ℤ → ℤ) (c : α)
    (hdata : ∀ k, rdZ data (pos k) = c) (hker : ∀ j, j ≤ 2 → 0 < rd kernel j) :
    blurPixel data kernel 2 pos = c := by
  unfold blurPixel
  simp only [hdata, intRange_five]
  rw [foldl_const_mul]
  apply mul_div_cancel_right₀
  apply ne_of_gt
  have h0 := hker 0 (by norm_num)
  have h1 := hker 1 (by norm_num)
  have h2 := hker 2 (by norm_num)
  simp only [List.foldl_cons, List.foldl_nil]
  have e2 : (-2 : ℤ).natAbs = 2 := rfl
  have e1 : (-1 : ℤ).natAbs = 1 := rfl
  have e0 : (0 : ℤ).natAbs = 0 := rfl
  have e1' : (1 : ℤ).natAbs = 1 := rfl
  have e2' : (2 : ℤ).natAbs = 2 := rfl
  rw [e2, e1, e0, e1', e2']
  linarith

theorem gaussianBlur_const (M : JSMath α) (hexp : ∀ x, 0 < M.exp x) (width height : ℕ)
    (hw : 1 ≤ width) (hh : 1 ≤ height) (sigma c : α) :
    gaussianBlur M (List.replicate (width * height) c) width height 2 sigma
      = List.replicate (width * height) c := by
  have hrow : ∀ idx, idx < width * height →
      (0 : ℤ) ≤ ((idx / width : ℕ) : ℤ) ∧ ((idx / width : ℕ) : ℤ) ≤ (height : ℤ) - 1 := by
    intro idx hidx
    have h1 : idx / width < height := by
      apply Nat.div_lt_of_lt_mul
      exact hidx
    have h2 : ((idx / width : ℕ) : ℤ) < (height : ℤ) := by exact_mod_cast h1
    have h3 : (0 : ℤ) ≤ ((idx / width : ℕ) : ℤ) := Int.ofNat_nonneg _
    exact ⟨h3, by linarith⟩
  have hcol : ∀ idx, (0 : ℤ) ≤ ((idx % width : ℕ) : ℤ) ∧ ((idx % width : ℕ) : ℤ) ≤ (width : ℤ) - 1 := by
    intro idx
    have h1 : idx % width < width := Nat.mod_lt _ (by omega)
    have h2 : ((idx % width : ℕ) : ℤ) < (width : ℤ) := by exact_mod_cast h1
    have h3 : (0 : ℤ) ≤ ((idx % width : ℕ) : ℤ) := Int.ofNat_nonneg _
    exact ⟨h3, by linarith⟩
  have htemp : (fill (List.replicate (width * height) c).length fun idx =>
      if idx < width * height then
        blurPixel (List.replicate (width * height) c) (buildGaussianKernel M 2 sigma) 2 fun k =>
          ((idx / width : ℕ) : ℤ) * (width : ℤ)
            + clamp (((idx % width : ℕ) : ℤ) + k) 0 ((width : ℤ) - 1)
      else 0) = List.replicate (width * height) c := by
    rw [List.length_replicate]
    apply fill_const
    intro idx hidx
    rw [if_pos hidx]
    apply blurPixel_const _ _ _ _ _ (buildGaussianKernel_pos M hexp sigma)
    intro k
    have hb := clamped_index_bounds width height hw hh _ _
      (clamp_range (((idx % width : ℕ) : ℤ) + k) 0 ((width : ℤ) - 1) (by omega)) (hrow idx hidx)
    exact rdZ_replicate _ _ _ hb.1 hb.2
  unfold gaussianBlur
  simp only [htemp]
  rw [List.length_replicate]
  apply fill_const
  intro idx hidx
  rw [if_pos hidx]
  apply blurPixel_const _ _ _ _ _ (buildGaussianKernel_pos M hexp sigma)
  intro k
  have hb := clamped_index_bounds width height hw hh _ _ (hcol idx)
    (clamp_range (((idx / width : ℕ) : ℤ) + k) 0 ((height : ℤ) - 1) (by omega))
  exact rdZ_replicate _ _ _ hb.1 hb.2

theorem sharpen_const (n : ℕ) (c : α) :
    sharpen (List.replicate n c) (List.replicate n c) n = List.replicate n c := by
  unfold sharpen
  apply fill_const
  intro i hi
  simp only [rd_replicate _ _ _ hi, sub_self, abs_zero]
  norm_num

theorem clamp_of_mem {β : Type} [LinearOrder β] (v lo hi : β) (h1 : lo ≤ v) (h2 : v ≤ hi) :
    clamp v lo hi = v := by
  unfold clamp
  rw [if_neg (not_lt.mpr h1), if_neg (not_lt.mpr h2)]

theorem statClip_const (M : JSMath α) (n : ℕ) (hn : 0 < n) (c : α) (hc0 : 0 ≤ c)
    (hc : c ≤ 255) (strength : α) (hs : 0 ≤ strength) :
    statClip M (List.replicate n c) strength = List.replicate n c := by
  have hn0 : (n : α) ≠ 0 := by
    have : n ≠ 0 := by omega
    exact_mod_cast this
  have hmean : (List.replicate n c).foldl (fun s v => s + v) 0
      / ((List.replicate n c).length : α) = c := by
    have h := foldl_add_eq_sum (List.replicate n c) (fun v : α => v) 0
    simp only [List.map_id', zero_add, List.sum_replicate, nsmul_eq_mul] at h
    rw [h, List.length_replicate]
    field_simp
  unfold statClip
  simp only [hmean, List.map_replicate]
  congr 1
  have hT : 0 ≤ max (M.sqrt (max ((List.replicate n c).foldl
      (fun s v => s + (v - c) * (v - c)) 0 / ((List.replicate n c).length : α)) 1e-5)) 28
      * (1 + strength * 2.2) := by
    apply mul_nonneg
    · exact le_trans (by norm_num) (le_max_right _ _)
    · have : 0 ≤ strength * 2.2 := mul_nonneg hs (by norm_num)
      linarith
  rw [clamp_of_mem c _ _ (by linarith) (by linarith)]
  simp only [sub_self, zero_mul, add_zero]
  exact clamp_of_mem c 0 255 hc0 hc

theorem bucket_natCast (n : ℕ) (hn : n ≤ 255) : bucket (n : α) = (n : ℤ) := by
  unfold bucket
  rw [jsRound_natCast]
  exact clamp_of_mem _ _ _ (by omega) (by omega)

theorem histogram_replicate (n b : ℕ) (hb : b ≤ 255) :
    histogram (List.replicate n (b : α))
      = (List.range 256).map fun (i : ℕ) => if i = b then n else 0 := by
  unfold histogram
  apply List.map_congr_left
  intro i _
  rw [List.countP_replicate, bucket_natCast b hb]
  by_cases h : i = b
  · subst h; simp
  · have h1 : ¬ ((b : ℤ) = (i : ℤ)) := by omega
    simp [h, h1]

set_option maxRecDepth 100000 in
theorem histLow_uniform :
    histLow ((List.range 256).map fun (i : ℕ) => if i = 128 then 64 else 0) 3 = 128 := by
  decide

set_option maxRecDepth 100000 in
theorem histHigh_uniform :
    histHigh ((List.range 256).map fun (i : ℕ) => if i = 128 then 64 else 0) 64 60 = 128 := by
  decide

/-- The histogram stretch applied to 64 values, all 128: `low = high = 128`, the scale factor
is 1, and every value becomes `(128 - 128) * 1 = 0`. -/
theorem histStretch_gray64 :
    histStretch (List.replicate 64 (128 : α)) 0.05 = List.replicate 64 0 := by
  have hcast : (128 : α) = ((128 : ℕ) : α) := by norm_num
  have hhist : histogram (List.replicate 64 (128 : α))
      = (List.range 256).map fun (i : ℕ) => if i = 128 then 64 else 0 := by
    rw [hcast]
    exact histogram_replicate 64 128 (by norm_num)
  have hlo : ⌊((64 : ℕ) : α) * 0.05⌋ = 3 := by
    rw [Int.floor_eq_iff]
    constructor <;> norm_num
  have hup : ⌊((64 : ℕ) : α) * (1 - 0.05)⌋ = 60 := by
    rw [Int.floor_eq_iff]
    constructor <;> norm_num
  unfold histStretch
  simp only [hhist, List.length_replicate, hlo, hup, histLow_uniform, histHigh_uniform,
    List.map_replicate]
  congr 1
  norm_num
  exact clamp_of_mem _ _ _ (le_refl _) (by norm_num)

theorem contrastNormalize_gray64 (M : JSMath α) :
    contrastNormalize M (List.replicate 64 (128 : α)) 0.05 0.1 = List.replicate 64 0 := by
  unfold contrastNormalize
  rw [statClip_const M 64 (by norm_num) 128 (by norm_num) (by norm_num) 0.1 (by norm_num),
    if_pos (by norm_num)]
  exact histStretch_gray64

/-- `enhanceLuma` on the uniform 8x8 image of gray 128: the luma plane is set to 0. -/
theorem enhanceLuma_gray64 (M : JSMath α) (hexp : ∀ x, 0 < M.exp x) (a : α) :
    enhanceLuma M (uniformRGBA (8 * 8) 128 a) 8 8 = uniformRGBA (8 * 8) 0 a := by
  have hp := splitToYcbcr_uniform 8 8 (128 : α) a
  unfold splitToYcbcr at hp
  simp only [Planes.mk.injEq] at hp
  obtain ⟨hy, hcb, hcr, _⟩ := hp
  unfold enhanceLuma
  simp only [hy, hcb, hcr, gaussianBlur_const M hexp 8 8 (by norm_num) (by norm_num),
    sharpen_const]
  rw [show (8 * 8 : ℕ) = 64 from rfl, contrastNormalize_gray64 M, length_uniformRGBA]
  rw [show uniformRGBA 64 (0 : α) a = fill (64 * 4) (fun k => if k % 4 = 3 then a else 0) from rfl]
  apply fill_congr
  intro k hk
  have hk4 : k / 4 < 64 := by omega
  have hm : k % 4 < 4 := Nat.mod_lt _ (by norm_num)
  simp only [if_pos hk4, rd_replicate _ _ _ hk4, rd_uniformRGBA _ _ _ _ hk]
  interval_cases h : k % 4 <;> simp

/-! ## C9: the uniform-image scenario -/

set_option maxRecDepth 100000 in
theorem gray4x4_eq :
    gray4x4 = (List.range (4 * 4 * 4)).map fun k => if k % 4 = 3 then (255 : Fin 256) else 128 := by
  decide

theorem toFloat32_gray4x4 : (toFloat32 gray4x4 : List α) = uniformRGBA (4 * 4) 128 255 := by
  rw [gray4x4_eq]
  unfold toFloat32 uniformRGBA fill
  rw [List.map_map]
  apply List.map_congr_left
  intro k _
  simp only [Function.comp]
  split_ifs
  · have h : (255 : Fin 256).val = 255 := rfl
    rw [h]
    norm_num
  · have h : (128 : Fin 256).val = 128 := rfl
    rw [h]
    norm_num

theorem quantize_zero : quantize (0 : α) = 0 := by
  have h1 : clamp255 ((0 : α) + 0.5) = 1 / 2 := by
    unfold clamp255
    rw [min_eq_right (by norm_num), max_eq_right (by norm_num)]
    norm_num
  have h2 : clamp ((1 : α) / 2) 0 255 = 1 / 2 := clamp_of_mem _ _ _ (by norm_num) (by norm_num)
  have h3 : ⌊(1 : α) / 2⌋ = 0 := by
    rw [Int.floor_eq_iff]
    constructor <;> norm_num
  unfold quantize toUint8Clamp
  simp only [h1, h2, h3]
  norm_num

theorem quantize_255 : quantize (255 : α) = 255 := by
  have h1 : clamp255 ((255 : α) + 0.5) = 255 := by
    unfold clamp255
    rw [min_eq_left (by norm_num), max_eq_right (by norm_num)]
  have h2 : clamp (255 : α) 0 255 = 255 := clamp_of_mem _ _ _ (by norm_num) (le_refl _)
  have h3 : ⌊(255 : α)⌋ = 255 := by
    rw [Int.floor_eq_iff]
    constructor <;> norm_num
  unfold quantize toUint8Clamp
  simp only [h1, h2, h3]
  norm_num

set_option maxRecDepth 100000 in
theorem black64_eq :
    ((List.range (8 * 8 * 4)).map fun k => if k % 4 = 3 then (255 : ℤ) else 0)
      = (List.replicate 64 [0, 0, 0, 255]).flatten := by
  decide

theorem quantize_black64 :
    (uniformRGBA (8 * 8) (0 : α) 255).map quantize = (List.replicate 64 [0, 0, 0, 255]).flatten := by
  rw [← black64_eq]
  unfold uniformRGBA fill
  rw [List.map_map]
  apply List.map_congr_left
  intro k _
  simp only [Function.comp]
  split_ifs
  · exact quantize_255
  · exact quantize_zero

theorem grayRequest_round :
    jsRound (((grayRequest : Request α).width : α) * (grayRequest : Request α).scale) = 8 ∧
    jsRound (((grayRequest : Request α).height : α) * (grayRequest : Request α).scale) = 8 := by
  have h := jsRound_natCast (α := α) 8
  have e : (((4 : ℕ) : α) * 2) = ((8 : ℕ) : α) := by norm_num
  constructor <;> simp only [grayRequest, e, h] <;> rfl

/-- The run of the handler on the 4x4 gray image at scale 2, for any host exponential that is
positive: every pixel of the 8x8 result is `(0, 0, 0, 255)`. -/
theorem onmessage_grayRequest (M : JSMath α) (hexp : ∀ x, 0 < M.exp x) :
    onmessage M grayRequest
      = [Event.progress 5, Event.progress 18, Event.progress 18, Event.progress (81 / 2),
          Event.progress 63, Event.progress 68, Event.progress 88, Event.progress 100,
          Event.complete 8 8 (List.replicate 64 [0, 0, 0, 255]).flatten] := by
  have hscaled : lanczosScaleRGBA M (uniformRGBA (4 * 4) (128 : α) 255) 4 4 8 8
      = .ok (lanczosProgress 4 8, uniformRGBA (8 * 8) 128 255) :=
    lanczosScaleRGBA_uniform M 4 4 8 8 (by norm_num) (by norm_num) (by norm_num) (by norm_num)
      128 255
  have hprog : (lanczosProgress 4 8 : List α) = [0, 1 / 2, 1] := by
    have h1 : (List.range 4).filter (fun y => decide (y % 24 = 0)) = [0] := by decide
    have h2 : (List.range 8).filter (fun y => decide (y % 12 = 0)) = [0] := by decide
    simp only [lanczosProgress, h1, h2, List.map_cons, List.map_nil, List.cons_append,
      List.nil_append]
    norm_num
  unfold onmessage
  simp only [grayRequest_round.1, grayRequest_round.2]
  simp only [grayRequest, toFloat32_gray4x4, splitToYcbcr_uniform,
    bilateralFilterY_const M 4 4 (by norm_num) (by norm_num), mergeFromYcbcr_uniform, hscaled,
    hprog]
  have h8 : (8 : ℤ).toNat = 8 := rfl
  simp only [h8, enhanceLuma_gray64 M hexp, quantize_black64]
  norm_num

/-- C9 on the code: with the real host functions, the 4x4 image of `(128, 128, 128, 255)`
scaled by 2 gives an 8x8 result in which every pixel is `(0, 0, 0, 255)`, not gray 128. -/
theorem C9_uniform_gray_turns_black :
    onmessage (JSMath.mk Real.pi Real.sin Real.exp Real.sqrt) grayRequest
      = [Event.progress 5, Event.progress 18, Event.progress 18, Event.progress (81 / 2),
          Event.progress 63, Event.progress 68, Event.progress 88, Event.progress 100,
          Event.complete 8 8 (List.replicate 64 [0, 0, 0, 255]).flatten] :=
  onmessage_grayRequest _ Real.exp_pos

/-! ## C15: alpha through the colour stages -/

theorem rd_splitToYcbcr_alpha (rgba : List α) (width height i : ℕ) (hi : i < width * height) :
    rd (splitToYcbcr rgba width height).alpha i = rd rgba (4 * i + 3) := by
  simp only [splitToYcbcr]
  rw [rd_fill _ _ _ hi]

theorem length_mergeFromYcbcr (y cb cr : List α) (alpha : Option (List α)) :
    (mergeFromYcbcr y cb cr alpha).length = y.length * 4 := by
  simp [mergeFromYcbcr, length_fill]

theorem rd_mergeFromYcbcr_alpha_some (y cb cr al : List α) (i : ℕ) (hi : i < y.length) :
    rd (mergeFromYcbcr y cb cr (some al)) (4 * i + 3) = rd al i := by
  have e : (4 * i + 3) / 4 = i := by omega
  have m : (4 * i + 3) % 4 = 3 := by omega
  simp only [mergeFromYcbcr]
  rw [rd_fill _ _ _ (by omega)]
  simp only [e, m]

theorem rd_mergeFromYcbcr_alpha_none (y cb cr : List α) (i : ℕ) (hi : i < y.length) :
    rd (mergeFromYcbcr y cb cr none) (4 * i + 3) = 255 := by
  have m : (4 * i + 3) % 4 = 3 := by omega
  simp only [mergeFromYcbcr]
  rw [rd_fill _ _ _ (by omega)]
  simp only [m]

theorem rd_enhanceLuma_alpha (M : JSMath α) (rgba : List α) (width height i : ℕ)
    (hi : i < width * height) (hlen : 4 * i + 3 < rgba.length) :
    rd (enhanceLuma M rgba width height) (4 * i + 3) = rd rgba (4 * i + 3) := by
  have e : (4 * i + 3) / 4 = i := by omega
  have m : (4 * i + 3) % 4 = 3 := by omega
  simp only [enhanceLuma]
  rw [rd_fill _ _ _ hlen]
  simp only [e, m, if_pos hi]

/-- C15: alpha passes through the colour stages unchanged.  For a buffer of `width * height`
pixels and every pixel `i`: `splitToYcbcr` puts `rgba[4i+3]` in `alpha[i]`;
`mergeFromYcbcr(y, cb, cr, alpha)` writes `alpha[i]` at `out[4i+3]`, and writes 255 there when
the alpha argument is absent; `enhanceLuma` returns a buffer whose sample `4i+3` is
`rgba[4i+3]`. -/
theorem C15_alpha_passthrough (M : JSMath α) (rgba y cb cr al : List α) (width height i : ℕ)
    (hlen : rgba.length = width * height * 4) (hy : y.length = width * height)
    (hal : al.length = width * height) (hi : i < width * height) :
    rd (splitToYcbcr rgba width height).alpha i = rd rgba (4 * i + 3) ∧
    rd (mergeFromYcbcr y cb cr (some al)) (4 * i + 3) = rd al i ∧
    rd (mergeFromYcbcr y cb cr none) (4 * i + 3) = 255 ∧
    rd (enhanceLuma M rgba width height) (4 * i + 3) = rd rgba (4 * i + 3) :=
  ⟨rd_splitToYcbcr_alpha rgba width height i hi,
    rd_mergeFromYcbcr_alpha_some y cb cr al i (by omega),
    rd_mergeFromYcbcr_alpha_none y cb cr i (by omega),
    rd_enhanceLuma_alpha M rgba width height i hi (by omega)⟩

/-- C15 at the one-pixel buffer `(10, 20, 30, 200)` with planes of one sample, over the reals. -/
theorem C15_alpha_passthrough_witness :
    rd (splitToYcbcr ([10, 20, 30, 200] : List ℝ) 1 1).alpha 0
        = rd ([10, 20, 30, 200] : List ℝ) (4 * 0 + 3) ∧
    rd (mergeFromYcbcr ([50] : List ℝ) [128] [128] (some [200])) (4 * 0 + 3)
        = rd ([200] : List ℝ) 0 ∧
    rd (mergeFromYcbcr ([50] : List ℝ) [128] [128] none) (4 * 0 + 3) = 255 ∧
    rd (enhanceLuma (JSMath.mk Real.pi Real.sin Real.exp Real.sqrt) [10, 20, 30, 200] 1 1)
        (4 * 0 + 3) = rd ([10, 20, 30, 200] : List ℝ) (4 * 0 + 3) :=
  C15_alpha_passthrough (JSMath.mk Real.pi Real.sin Real.exp Real.sqrt) [10, 20, 30, 200]
    [50] [128] [128] [200] 1 1 0 rfl rfl rfl (by norm_num)

/-! ## C11: the final conversion to 8 bits -/

theorem length_bilateralFilterY (M : JSMath α) (src : List α) (width height : ℕ)
    (sigmaSpatial sigmaRange : α) :
    (bilateralFilterY M src width height sigmaSpatial sigmaRange).length = src.length := by
  simp [bilateralFilterY, mixArrays, length_fill]

theorem length_recombined (M : JSMath α) (req : Request α) :
    (recombined M req).length = req.width * req.height * 4 := by
  simp [recombined, length_mergeFromYcbcr, length_bilateralFilterY, splitToYcbcr, length_fill]

theorem rd_recombined_alpha (M : JSMath α) (req : Request α) (i : ℕ)
    (hi : i < req.width * req.height) :
    rd (recombined M req) (4 * i + 3) = rd (toFloat32 req.buffer : List α) (4 * i + 3) := by
  unfold recombined
  simp only []
  rw [rd_mergeFromYcbcr_alpha_some _ _ _ _ i
    (by rw [length_bilateralFilterY]; simpa [splitToYcbcr, length_fill] using hi)]
  exact rd_splitToYcbcr_alpha _ _ _ i hi

theorem onmessage_eq_recombined (M : JSMath α) (req : Request α) :
    onmessage M req =
      [Event.progress 5, Event.progress 18] ++
        match lanczosScaleRGBA M (recombined M req) req.width req.height
            (jsRound ((req.width : α) * req.scale)) (jsRound ((req.height : α) * req.scale)) with
        | .error _ => [Event.error]
        | .ok (reported, scaled) =>
          reported.map (fun p => Event.progress (18 + p * 45))
            ++ [Event.progress 68, Event.progress 88, Event.progress 100,
                Event.complete (jsRound ((req.width : α) * req.scale))
                  (jsRound ((req.height : α) * req.scale))
                  ((enhanceLuma M scaled (jsRound ((req.width : α) * req.scale)).toNat
                    (jsRound ((req.height : α) * req.scale)).toNat).map quantize)] :=
  rfl

theorem quantize_tenth : quantize (10.2 : α) = 11 := by
  have h1 : clamp255 ((10.2 : α) + 0.5) = 107 / 10 := by
    unfold clamp255
    rw [min_eq_right (by norm_num), max_eq_right (by norm_num)]
    norm_num
  have h2 : clamp ((107 : α) / 10) 0 255 = 107 / 10 :=
    clamp_of_mem _ _ _ (by norm_num) (by norm_num)
  have h3 : ⌊(107 : α) / 10⌋ = 10 := by
    rw [Int.floor_eq_iff]
    constructor <;> norm_num
  unfold quantize toUint8Clamp
  simp only [h1, h2, h3]
  norm_num

theorem quantize_253 : quantize (253 : α) = 254 := by
  have h1 : clamp255 ((253 : α) + 0.5) = 507 / 2 := by
    unfold clamp255
    rw [min_eq_right (by norm_num), max_eq_right (by norm_num)]
    norm_num
  have h2 : clamp ((507 : α) / 2) 0 255 = 507 / 2 :=
    clamp_of_mem _ _ _ (by norm_num) (by norm_num)
  have h3 : ⌊(507 : α) / 2⌋ = 253 := by
    rw [Int.floor_eq_iff]
    constructor <;> norm_num
  unfold quantize toUint8Clamp
  simp only [h1, h2, h3]
  norm_num

theorem specRound8_tenth : specRound8 (10.2 : α) = 10 := by
  have h : ⌊(10.2 : α) + 0.5⌋ = 10 := by
    rw [Int.floor_eq_iff]
    constructor <;> norm_num
  unfold specRound8
  rw [h]
  decide

theorem specRound8_253 : specRound8 (253 : α) = 253 := by
  have h : ⌊(253 : α) + 0.5⌋ = 253 := by
    rw [Int.floor_eq_iff]
    constructor <;> norm_num
  unfold specRound8
  rw [h]
  decide

theorem oddAlphaRequest_round :
    jsRound (((oddAlphaRequest : Request ℝ).width : ℝ) * (oddAlphaRequest : Request ℝ).scale)
      = 1 ∧
    jsRound (((oddAlphaRequest : Request ℝ).height : ℝ) * (oddAlphaRequest : Request ℝ).scale)
      = 1 := by
  have := jsRound_natCast (α := ℝ) 1
  constructor <;> simpa [oddAlphaRequest] using this

/-- C11 on the code: the enhanced sample 10.2 is stored as 11, where `value + 0.5` truncated
gives 10; and for the well-formed one-pixel request with alpha 253 the result's alpha sample is
254, where `value + 0.5` truncated gives 253.  The store into the `Uint8ClampedArray` rounds
`clamp255(v + 0.5)` to the nearest integer instead of truncating it. -/
theorem C11_double_rounding :
    quantize (10.2 : ℝ) = 11 ∧ specRound8 (10.2 : ℝ) = 10 ∧
    (∃ buf : List ℤ,
      Event.complete 1 1 buf
          ∈ onmessage (JSMath.mk Real.pi Real.sin Real.exp Real.sqrt) oddAlphaRequest ∧
      buf.getD 3 0 = 254) ∧
    specRound8 (253 : ℝ) = 253 := by
  refine ⟨quantize_tenth, specRound8_tenth, ?_, specRound8_253⟩
  have hscaled := lanczosScaleRGBA_unit (JSMath.mk Real.pi Real.sin Real.exp Real.sqrt)
    real_sin_pi_mul_int
    (recombined (JSMath.mk Real.pi Real.sin Real.exp Real.sqrt) (oddAlphaRequest : Request ℝ))
    1 1 (le_refl 1) (le_refl 1) (length_recombined _ _)
  have hrun := onmessage_eq_recombined (JSMath.mk Real.pi Real.sin Real.exp Real.sqrt)
    (oddAlphaRequest : Request ℝ)
  rw [oddAlphaRequest_round.1, oddAlphaRequest_round.2] at hrun
  have hw : (oddAlphaRequest : Request ℝ).width = 1 := rfl
  have hh : (oddAlphaRequest : Request ℝ).height = 1 := rfl
  rw [hw, hh] at hrun
  have hcast : ((1 : ℕ) : ℤ) = 1 := rfl
  rw [hcast] at hscaled
  rw [hscaled] at hrun
  refine ⟨(enhanceLuma (JSMath.mk Real.pi Real.sin Real.exp Real.sqrt)
      (recombined (JSMath.mk Real.pi Real.sin Real.exp Real.sqrt) (oddAlphaRequest : Request ℝ))
      1 1).map quantize, ?_, ?_⟩
  · rw [hrun]
    have h1 : (1 : ℤ).toNat = 1 := rfl
    simp [h1]
  have halpha : rd (enhanceLuma (JSMath.mk Real.pi Real.sin Real.exp Real.sqrt)
      (recombined (JSMath.mk Real.pi Real.sin Real.exp Real.sqrt) (oddAlphaRequest : Request ℝ))
      1 1) (4 * 0 + 3) = 253 := by
    rw [rd_enhanceLuma_alpha _ _ 1 1 0 (by norm_num) (by rw [length_recombined]; decide),
      rd_recombined_alpha _ _ 0 (by decide)]
    simp only [oddAlphaRequest, toFloat32, rd, List.map_cons, List.map_nil]
    have h253 : (253 : Fin 256).val = 253 := rfl
    simp [h253]
  have hlen : 3 < (enhanceLuma (JSMath.mk Real.pi Real.sin Real.exp Real.sqrt)
      (recombined (JSMath.mk Real.pi Real.sin Real.exp Real.sqrt) (oddAlphaRequest : Request ℝ))
      1 1).length := by
    rw [length_enhanceLuma, length_recombined]; decide
  simp only [List.getD_eq_getElem?_getD, List.getElem?_map]
  simp only [rd, List.getD_eq_getElem?_getD] at halpha
  rw [List.getElem?_eq_getElem hlen] at halpha ⊢
  simp only [Option.getD_some, Option.map_some'] at halpha ⊢
  rw [halpha]
  exact quantize_253

/-! ## C12: the histogram stretch when the bounds coincide -/

/-- When `high - low <= 1` the histogram stretch uses the factor 1 but still subtracts `low`:
every value `v` becomes `clamp(v - low, 0, 255)`. -/
theorem histStretch_of_narrow (adjusted : List α) (lowClipRatio : α)
    (h : ((histHigh (histogram adjusted) adjusted.length
            ⌊(adjusted.length : α) * (1 - lowClipRatio)⌋ : ℕ) : ℤ)
          - ((histLow (histogram adjusted) ⌊(adjusted.length : α) * lowClipRatio⌋ : ℕ) : ℤ) ≤ 1) :
    histStretch adjusted lowClipRatio
      = adjusted.map fun v =>
          clamp (v - ((histLow (histogram adjusted)
            ⌊(adjusted.length : α) * lowClipRatio⌋ : ℕ) : α)) 0 255 := by
  unfold histStretch
  simp only [gt_iff_lt, if_neg (not_lt.mpr h), mul_one]

/-- C12 on the code: for the plane of 64 values that are all 128, the statistically clipped
values are all 128 and the bounds found are `low = high = 128`, so `high - low = 0 <= 1`; yet
`contrastNormalize` returns 0 for every value, not 128. -/
theorem C12_flat_plane_zeroed :
    statClip (JSMath.mk Real.pi Real.sin Real.exp Real.sqrt) (List.replicate 64 (128 : ℝ)) 0.1
      = List.replicate 64 128 ∧
    histLow (histogram (List.replicate 64 (128 : ℝ))) ⌊((64 : ℕ) : ℝ) * 0.05⌋ = 128 ∧
    histHigh (histogram (List.replicate 64 (128 : ℝ))) 64 ⌊((64 : ℕ) : ℝ) * (1 - 0.05)⌋ = 128 ∧
    contrastNormalize (JSMath.mk Real.pi Real.sin Real.exp Real.sqrt)
      (List.replicate 64 (128 : ℝ)) 0.05 0.1 = List.replicate 64 0 := by
  have hcast : (128 : ℝ) = ((128 : ℕ) : ℝ) := by norm_num
  have hhist : histogram (List.replicate 64 (128 : ℝ))
      = (List.range 256).map fun (i : ℕ) => if i = 128 then 64 else 0 := by
    rw [hcast]
    exact histogram_replicate 64 128 (by norm_num)
  have hlo : ⌊((64 : ℕ) : ℝ) * 0.05⌋ = 3 := by
    rw [Int.floor_eq_iff]
    constructor <;> norm_num
  have hup : ⌊((64 : ℕ) : ℝ) * (1 - 0.05)⌋ = 60 := by
    rw [Int.floor_eq_iff]
    constructor <;> norm_num
  refine ⟨statClip_const _ 64 (by norm_num) 128 (by norm_num) (by norm_num) 0.1 (by norm_num),
    ?_, ?_, contrastNormalize_gray64 _⟩
  · rw [hhist, hlo]
    exact histLow_uniform
  · rw [hhist, hup]
    exact histHigh_uniform

/-! ## C13: the boundary policy of the Gaussian blur -/

theorem gaussianBlur_eq_passes (M : JSMath α) (data : List α) (width height radius : ℕ)
    (sigma : α) :
    gaussianBlur M data width height radius sigma
      = blurPassY (buildGaussianKernel M radius sigma)
          (blurPassX (buildGaussianKernel M radius sigma) data width height radius)
          width height radius := by
  unfold gaussianBlur blurPassY blurPassX
  simp only [length_fill]

theorem blurPixel_eq_taps (data kernel : List α) (radius : ℕ) (coord size : ℤ)
    (base : ℤ → ℤ) :
    blurPixel data kernel radius (fun k => base (clamp (coord + k) 0 (size - 1)))
      = ((blurTaps kernel radius coord size).map fun t => rdZ data (base t.1) * t.2).sum
          / ((blurTaps kernel radius coord size).map fun t => t.2).sum := by
  unfold blurPixel blurTaps
  simp only [foldl_add_eq_sum, zero_add, List.map_map]
  rfl

theorem blurTaps_two (kernel : List α) (coord size : ℤ) :
    blurTaps kernel 2 coord size
      = [(clamp (coord + -2) 0 (size - 1), rd kernel 2),
         (clamp (coord + -1) 0 (size - 1), rd kernel 1),
         (clamp (coord + 0) 0 (size - 1), rd kernel 0),
         (clamp (coord + 1) 0 (size - 1), rd kernel 1),
         (clamp (coord + 2) 0 (size - 1), rd kernel 2)] := by
  unfold blurTaps
  rw [intRange_five]
  rfl

theorem normalized_three_sum (a b c : α) (h : 0 < 0 + a + b * 2 + c * 2) :
    a / (0 + a + b * 2 + c * 2) + 2 * (b / (0 + a + b * 2 + c * 2))
      + 2 * (c / (0 + a + b * 2 + c * 2)) = 1 := by
  have hne : 0 + a + b * 2 + c * 2 ≠ 0 := ne_of_gt h
  have e : a / (0 + a + b * 2 + c * 2) + 2 * (b / (0 + a + b * 2 + c * 2))
      + 2 * (c / (0 + a + b * 2 + c * 2))
      = (0 + a + b * 2 + c * 2) / (0 + a + b * 2 + c * 2) := by ring
  rw [e, div_self hne]

theorem buildGaussianKernel_sum (M : JSMath α) (hexp : ∀ x, 0 < M.exp x) (sigma : α) :
    rd (buildGaussianKernel M 2 sigma) 0 + 2 * rd (buildGaussianKernel M 2 sigma) 1
      + 2 * rd (buildGaussianKernel M 2 sigma) 2 = 1 := by
  have hS : 0 < (0 : α) + M.exp (-(((0 : ℕ) : α) * ((0 : ℕ) : α)) / (2 * sigma * sigma))
      + M.exp (-(((1 : ℕ) : α) * ((1 : ℕ) : α)) / (2 * sigma * sigma)) * 2
      + M.exp (-(((2 : ℕ) : α) * ((2 : ℕ) : α)) / (2 * sigma * sigma)) * 2 := by
    have h0 := hexp (-(((0 : ℕ) : α) * ((0 : ℕ) : α)) / (2 * sigma * sigma))
    have h1 := hexp (-(((1 : ℕ) : α) * ((1 : ℕ) : α)) / (2 * sigma * sigma))
    have h2 := hexp (-(((2 : ℕ) : α) * ((2 : ℕ) : α)) / (2 * sigma * sigma))
    linarith
  unfold buildGaussianKernel
  simp only [List.range_succ, List.range_zero, List.nil_append, List.cons_append, List.map_cons,
    List.map_nil, List.foldl_cons, List.foldl_nil, rd, List.getD_cons_zero, List.getD_cons_succ,
    if_true, one_ne_zero, if_false, OfNat.ofNat_ne_zero]
  exact normalized_three_sum _ _ _ hS

/-- C13 fails at the edge pixel `x = 0` of a row of width 5, for the kernel of
`gaussianBlur(data, width, height, 2, 1.2)`: the pass reads five taps, those at offsets -2 and
-1 at the clamped coordinate 0, and its divisor is 1, equal to (not smaller than) the divisor
at the interior pixel `x = 2`. -/
theorem C13_counterexample :
    (blurTaps (buildGaussianKernel (JSMath.mk Real.pi Real.sin Real.exp Real.sqrt) 2 1.2) 2 0 5).map
        Prod.fst = [0, 0, 0, 1, 2] ∧
    ((blurTaps (buildGaussianKernel (JSMath.mk Real.pi Real.sin Real.exp Real.sqrt) 2 1.2)
        2 0 5).map Prod.snd).sum = 1 ∧
    ((blurTaps (buildGaussianKernel (JSMath.mk Real.pi Real.sin Real.exp Real.sqrt) 2 1.2)
        2 2 5).map Prod.snd).sum = 1 ∧
    ¬ ((blurTaps (buildGaussianKernel (JSMath.mk Real.pi Real.sin Real.exp Real.sqrt) 2 1.2)
          2 0 5).map Prod.snd).sum
        < ((blurTaps (buildGaussianKernel (JSMath.mk Real.pi Real.sin Real.exp Real.sqrt) 2 1.2)
          2 2 5).map Prod.snd).sum := by
  have hsum := buildGaussianKernel_sum (JSMath.mk Real.pi Real.sin Real.exp Real.sqrt)
    Real.exp_pos 1.2
  have h0 : ((blurTaps (buildGaussianKernel (JSMath.mk Real.pi Real.sin Real.exp Real.sqrt) 2 1.2)
      2 0 5).map Prod.snd).sum = 1 := by
    rw [blurTaps_two]
    simp only [List.map_cons, List.map_nil, List.sum_cons, List.sum_nil]
    linarith
  have h2 : ((blurTaps (buildGaussianKernel (JSMath.mk Real.pi Real.sin Real.exp Real.sqrt) 2 1.2)
      2 2 5).map Prod.snd).sum = 1 := by
    rw [blurTaps_two]
    simp only [List.map_cons, List.map_nil, List.sum_cons, List.sum_nil]
    linarith
  refine ⟨?_, h0, h2, ?_⟩
  · rw [blurTaps_two]
    simp only [List.map_cons, List.map_nil]
    decide
  · rw [h0, h2]
    exact lt_irrefl 1

/-- C13 as amended: in both passes of `gaussianBlur(data, width, height, 2, 1.2)` no tap is
skipped.  A tap whose coordinate falls outside the image is read at the nearest edge
coordinate (clamp to edge); each pass always uses the five taps `k = -2, ..., 2` and divides by
the sum of all their weights, `kernel[0] + 2 kernel[1] + 2 kernel[2]`, which is the same for
every pixel, at an edge or in the interior. -/
theorem C13_clamp_to_edge (M : JSMath α) (data : List α) (width height idx : ℕ)
    (hw : 1 ≤ width) (hh : 1 ≤ height) (hlen : data.length = width * height)
    (hidx : idx < width * height) :
    rd (blurPassX (buildGaussianKernel M 2 1.2) data width height 2) idx
      = ((blurTaps (buildGaussianKernel M 2 1.2) 2 ((idx % width : ℕ) : ℤ) width).map fun t =>
            rdZ data (((idx / width : ℕ) : ℤ) * width + t.1) * t.2).sum
          / (rd (buildGaussianKernel M 2 1.2) 0 + 2 * rd (buildGaussianKernel M 2 1.2) 1
              + 2 * rd (buildGaussianKernel M 2 1.2) 2) ∧
    rd (gaussianBlur M data width height 2 1.2) idx
      = ((blurTaps (buildGaussianKernel M 2 1.2) 2 ((idx / width : ℕ) : ℤ) height).map fun t =>
            rdZ (blurPassX (buildGaussianKernel M 2 1.2) data width height 2)
              (t.1 * width + ((idx % width : ℕ) : ℤ)) * t.2).sum
          / (rd (buildGaussianKernel M 2 1.2) 0 + 2 * rd (buildGaussianKernel M 2 1.2) 1
              + 2 * rd (buildGaussianKernel M 2 1.2) 2) ∧
    (∀ coord size : ℤ, 1 ≤ size →
      (blurTaps (buildGaussianKernel M 2 1.2) 2 coord size).length = 5 ∧
      (∀ t ∈ blurTaps (buildGaussianKernel M 2 1.2) 2 coord size, 0 ≤ t.1 ∧ t.1 ≤ size - 1) ∧
      ((blurTaps (buildGaussianKernel M 2 1.2) 2 coord size).map Prod.snd).sum
        = rd (buildGaussianKernel M 2 1.2) 0 + 2 * rd (buildGaussianKernel M 2 1.2) 1
            + 2 * rd (buildGaussianKernel M 2 1.2) 2) := by
  have hdiv : ∀ coord size : ℤ,
      ((blurTaps (buildGaussianKernel M 2 1.2) 2 coord size).map fun t => t.2).sum
        = rd (buildGaussianKernel M 2 1.2) 0 + 2 * rd (buildGaussianKernel M 2 1.2) 1
            + 2 * rd (buildGaussianKernel M 2 1.2) 2 := by
    intro coord size
    rw [blurTaps_two]
    simp only [List.map_cons, List.map_nil, List.sum_cons, List.sum_nil]
    ring
  refine ⟨?_, ?_, ?_⟩
  · unfold blurPassX
    rw [rd_fill _ _ _ (by omega), if_pos hidx]
    simp only []
    rw [blurPixel_eq_taps data _ 2 _ _ (fun n => ((idx / width : ℕ) : ℤ) * (width : ℤ) + n), hdiv]
  · rw [gaussianBlur_eq_passes]
    unfold blurPassY
    rw [rd_fill _ _ _ (by simp only [blurPassX, length_fill]; omega), if_pos hidx]
    simp only []
    rw [blurPixel_eq_taps _ _ 2 _ _ (fun n => n * (width : ℤ) + ((idx % width : ℕ) : ℤ)), hdiv]
  · intro coord size hsize
    refine ⟨by rw [blurTaps_two]; rfl, ?_, hdiv coord size⟩
    intro t ht
    rw [blurTaps_two] at ht
    simp only [List.mem_cons, List.mem_singleton, List.not_mem_nil, or_false] at ht
    rcases ht with h | h | h | h | h <;> subst h <;>
      exact clamp_range _ 0 (size - 1) (by omega)

/-- The amended C13 at the edge pixel 0 of the row `[1, 2, 3, 4, 5]` (width 5, height 1), over
the reals. -/
theorem C13_clamp_to_edge_witness :
    rd (blurPassX (buildGaussianKernel (JSMath.mk Real.pi Real.sin Real.exp Real.sqrt) 2 1.2)
        [1, 2, 3, 4, 5] 5 1 2) 0
      = ((blurTaps (buildGaussianKernel (JSMath.mk Real.pi Real.sin Real.exp Real.sqrt) 2 1.2) 2
            ((0 % 5 : ℕ) : ℤ) ((5 : ℕ) : ℤ)).map fun t =>
            rdZ ([1, 2, 3, 4, 5] : List ℝ) (((0 / 5 : ℕ) : ℤ) * ((5 : ℕ) : ℤ) + t.1) * t.2).sum
          / (rd (buildGaussianKernel (JSMath.mk Real.pi Real.sin Real.exp Real.sqrt) 2 1.2) 0
              + 2 * rd (buildGaussianKernel (JSMath.mk Real.pi Real.sin Real.exp Real.sqrt) 2 1.2) 1
              + 2 * rd (buildGaussianKernel (JSMath.mk Real.pi Real.sin Real.exp Real.sqrt) 2 1.2)
                  2) :=
  (C13_clamp_to_edge (JSMath.mk Real.pi Real.sin Real.exp Real.sqrt) [1, 2, 3, 4, 5] 5 1 0
    (by norm_num) (by norm_num) rfl (by norm_num)).1

/-! ## C14 and C18: the bilateral filter -/

theorem foldl_add_self_eq_sum (l : List α) : l.foldl (fun s v => s + v) 0 = l.sum := by
  have h := foldl_add_eq_sum l (fun v : α => v) 0
  simp only [List.map_id', zero_add] at h
  exact h

theorem rd_normalized_pos (values : List α) (hpos : ∀ v ∈ values, 0 < v) (k : ℕ)
    (hk : k < values.length) :
    0 < rd (values.map fun v => v / values.foldl (fun s v => s + v) 0) k := by
  have hne : values ≠ [] := by
    intro h
    rw [h] at hk
    simp at hk
  have hS : 0 < values.sum := List.sum_pos _ hpos hne
  rw [foldl_add_self_eq_sum]
  simp only [rd, List.getD_eq_getElem?_getD, List.getElem?_map, List.getElem?_eq_getElem hk,
    Option.map_some', Option.getD_some]
  exact div_pos (hpos _ (List.getElem_mem hk)) hS

theorem buildSpatialKernel3x3_pos (M : JSMath α) (hexp : ∀ x, 0 < M.exp x) (sigma : α) (k : ℕ)
    (hk : k < 9) : 0 < rd (buildSpatialKernel3x3 M sigma) k := by
  unfold buildSpatialKernel3x3
  apply rd_normalized_pos
  · intro v hv
    obtain ⟨t, _, rfl⟩ := List.mem_map.mp hv
    exact hexp _
  · simpa [taps3x3] using hk

theorem taps3x3_index_lt (t : ℤ × ℤ × ℕ) (ht : t ∈ taps3x3) : t.2.2 < 9 := by
  simp only [taps3x3, List.mem_cons, List.mem_singleton, List.not_mem_nil, or_false] at ht
  rcases ht with h | h | h | h | h | h | h | h | h <;> subst h <;> decide

theorem bilateralTaps_weightSum_pos (M : JSMath α) (hexp : ∀ x, 0 < M.exp x)
    (src : List α) (sigmaSpatial : α) (width height : ℕ) (sigmaRangeSq : α) (x y : ℤ)
    (center : α) :
    0 < (bilateralTaps M src (buildSpatialKernel3x3 M sigmaSpatial) width height sigmaRangeSq
          x y center).foldl (fun s t => s + t.2) 0 := by
  rw [foldl_add_eq_sum, zero_add]
  apply List.sum_pos
  · intro v hv
    obtain ⟨u, hu, rfl⟩ := List.mem_map.mp hv
    unfold bilateralTaps at hu
    obtain ⟨t, ht, rfl⟩ := List.mem_map.mp hu
    exact mul_pos (buildSpatialKernel3x3_pos M hexp _ _ (taps3x3_index_lt t ht)) (hexp _)
  · simp [bilateralTaps, taps3x3]

/-- With a positive host exponential the fallback branch of `bilateralFilterY` is not taken. -/
theorem bilateralPixel_eq_div (M : JSMath α) (hexp : ∀ x, 0 < M.exp x) (src : List α)
    (sigmaSpatial : α) (width height : ℕ) (sigmaRangeSq : α) (idx : ℕ) :
    bilateralPixel M src (buildSpatialKernel3x3 M sigmaSpatial) width height sigmaRangeSq idx
      = (bilateralTaps M src (buildSpatialKernel3x3 M sigmaSpatial) width height sigmaRangeSq
            ((idx % width : ℕ) : ℤ) ((idx / width : ℕ) : ℤ) (rd src idx)).foldl
            (fun s t => s + t.1 * t.2) 0
          / (bilateralTaps M src (buildSpatialKernel3x3 M sigmaSpatial) width height sigmaRangeSq
              ((idx % width : ℕ) : ℤ) ((idx / width : ℕ) : ℤ) (rd src idx)).foldl
              (fun s t => s + t.2) 0 := by
  unfold bilateralPixel
  simp only []
  rw [if_pos (bilateralTaps_weightSum_pos M hexp src sigmaSpatial width height sigmaRangeSq _ _ _)]

theorem bilateralPixel_eq_average (M : JSMath α) (hexp : ∀ x, 0 < M.exp x) (src : List α)
    (sigmaSpatial sigmaRange : α) (width height : ℕ) (idx : ℕ) :
    bilateralPixel M src (buildSpatialKernel3x3 M sigmaSpatial) width height
        (2 * sigmaRange * sigmaRange) idx
      = bilateralAverage M src width height sigmaSpatial sigmaRange idx := by
  rw [bilateralPixel_eq_div M hexp]
  unfold bilateralAverage bilateralTaps
  simp only [foldl_add_eq_sum, zero_add, List.map_map]
  have hexparg : ∀ n c : α,
      -((n - c) * (n - c)) / (2 * sigmaRange * sigmaRange) = -(n - c) ^ 2 / (2 * sigmaRange ^ 2) := by
    intro n c
    ring
  congr 1
  · apply congrArg List.sum
    apply List.map_congr_left
    intro t _
    simp only [Function.comp, hexparg, add_comm t.1, add_comm t.2.1]
    ring
  · apply congrArg List.sum
    apply List.map_congr_left
    intro t _
    simp only [Function.comp, hexparg, add_comm t.1, add_comm t.2.1]

theorem rd_bilateralFilterY (M : JSMath α) (hexp : ∀ x, 0 < M.exp x) (src : List α)
    (width height : ℕ) (sigmaSpatial sigmaRange : α) (p : ℕ)
    (hlen : src.length = width * height) (hp : p < width * height) :
    rd (bilateralFilterY M src width height sigmaSpatial sigmaRange) p
      = 0.65 * rd src p + 0.35 * bilateralAverage M src width height sigmaSpatial sigmaRange p := by
  unfold bilateralFilterY mixArrays
  simp only []
  rw [rd_fill _ _ _ (by omega), rd_fill _ _ _ (by omega), if_pos hp,
    bilateralPixel_eq_average M hexp]
  ring

/-- C14: with the real exponential, for a luma plane of length `width * height` (both at
least 1, sigmas positive) and every pixel `p`, `bilateralFilterY(...)[p]` is
`0.65 * src[p] + 0.35 * F[p]`, where `F[p]` is the average of the 3x3 clamp-to-edge
neighbourhood of `p` weighted by `spatialKernel[k] * exp(-(neighbor - center)^2 /
(2 * sigmaRange^2))` and divided by the sum of those weights. -/
theorem C14_bilateral_blend (src : List ℝ) (width height : ℕ) (sigmaSpatial sigmaRange : ℝ)
    (p : ℕ) (hw : 1 ≤ width) (hh : 1 ≤ height) (hs : 0 < sigmaSpatial) (hr : 0 < sigmaRange)
    (hlen : src.length = width * height) (hp : p < width * height) :
    rd (bilateralFilterY (JSMath.mk Real.pi Real.sin Real.exp Real.sqrt) src width height
        sigmaSpatial sigmaRange) p
      = 0.65 * rd src p
        + 0.35 * bilateralAverage (JSMath.mk Real.pi Real.sin Real.exp Real.sqrt) src width height
            sigmaSpatial sigmaRange p :=
  rd_bilateralFilterY _ Real.exp_pos src width height sigmaSpatial sigmaRange p hlen hp

/-- C14 at a 2x2 plane with the sigmas of the handler, pixel 3. -/
theorem C14_bilateral_blend_witness :
    rd (bilateralFilterY (JSMath.mk Real.pi Real.sin Real.exp Real.sqrt) [10, 20, 30, 40] 2 2
        1.25 12) 3
      = 0.65 * rd ([10, 20, 30, 40] : List ℝ) 3
        + 0.35 * bilateralAverage (JSMath.mk Real.pi Real.sin Real.exp Real.sqrt)
            [10, 20, 30, 40] 2 2 1.25 12 3 :=
  C14_bilateral_blend [10, 20, 30, 40] 2 2 1.25 12 3 (by norm_num) (by norm_num) (by norm_num)
    (by norm_num) rfl (by norm_num)

theorem pixel_coords (width height idx : ℕ) (hw : 1 ≤ width) (hidx : idx < width * height) :
    (0 : ℤ) ≤ ((idx / width : ℕ) : ℤ) ∧ ((idx / width : ℕ) : ℤ) ≤ (height : ℤ) - 1 ∧
    (0 : ℤ) ≤ ((idx % width : ℕ) : ℤ) ∧ ((idx % width : ℕ) : ℤ) ≤ (width : ℤ) - 1 ∧
    ((idx / width : ℕ) : ℤ) * (width : ℤ) + ((idx % width : ℕ) : ℤ) = (idx : ℤ) := by
  have h1 : idx / width < height := Nat.div_lt_of_lt_mul hidx
  have h2 : ((idx / width : ℕ) : ℤ) < (height : ℤ) := by exact_mod_cast h1
  have h3 : idx % width < width := Nat.mod_lt _ (by omega)
  have h4 : ((idx % width : ℕ) : ℤ) < (width : ℤ) := by exact_mod_cast h3
  have h5 : idx / width * width + idx % width = idx := Nat.div_add_mod' _ _
  have h6 : ((idx / width : ℕ) : ℤ) * (width : ℤ) + ((idx % width : ℕ) : ℤ) = (idx : ℤ) := by
    exact_mod_cast h5
  exact ⟨Int.ofNat_nonneg _, by linarith, Int.ofNat_nonneg _, by linarith, h6⟩

/-- C18: with the real exponential, for a plane of `width * height` samples (both at least 1)
and positive sigmas, at every pixel of `bilateralFilterY`: `spatialKernel[4] > 0`; the centre
tap has the centre value as neighbour and range weight 1; the accumulated `weightSum` is
strictly positive, so the pixel is `sum / weightSum` and the fallback branch is not taken; and
every clamped neighbour index lies in `[0, width * height)`. -/
theorem C18_bilateral_weightSum_pos (src : List ℝ) (width height : ℕ)
    (sigmaSpatial sigmaRange : ℝ) (idx : ℕ) (hw : 1 ≤ width) (hh : 1 ≤ height)
    (hs : 0 < sigmaSpatial) (hr : 0 < sigmaRange) (hlen : src.length = width * height)
    (hidx : idx < width * height) :
    0 < rd (buildSpatialKernel3x3 (JSMath.mk Real.pi Real.sin Real.exp Real.sqrt) sigmaSpatial) 4 ∧
    (rd src idx,
      rd (buildSpatialKernel3x3 (JSMath.mk Real.pi Real.sin Real.exp Real.sqrt) sigmaSpatial) 4 * 1)
      ∈ bilateralTaps (JSMath.mk Real.pi Real.sin Real.exp Real.sqrt) src
          (buildSpatialKernel3x3 (JSMath.mk Real.pi Real.sin Real.exp Real.sqrt) sigmaSpatial)
          width height (2 * sigmaRange * sigmaRange)
          ((idx % width : ℕ) : ℤ) ((idx / width : ℕ) : ℤ) (rd src idx) ∧
    0 < (bilateralTaps (JSMath.mk Real.pi Real.sin Real.exp Real.sqrt) src
          (buildSpatialKernel3x3 (JSMath.mk Real.pi Real.sin Real.exp Real.sqrt) sigmaSpatial)
          width height (2 * sigmaRange * sigmaRange)
          ((idx % width : ℕ) : ℤ) ((idx / width : ℕ) : ℤ) (rd src idx)).foldl
          (fun s t => s + t.2) 0 ∧
    bilateralPixel (JSMath.mk Real.pi Real.sin Real.exp Real.sqrt) src
        (buildSpatialKernel3x3 (JSMath.mk Real.pi Real.sin Real.exp Real.sqrt) sigmaSpatial)
        width height (2 * sigmaRange * sigmaRange) idx
      = (bilateralTaps (JSMath.mk Real.pi Real.sin Real.exp Real.sqrt) src
            (buildSpatialKernel3x3 (JSMath.mk Real.pi Real.sin Real.exp Real.sqrt) sigmaSpatial)
            width height (2 * sigmaRange * sigmaRange)
            ((idx % width : ℕ) : ℤ) ((idx / width : ℕ) : ℤ) (rd src idx)).foldl
            (fun s t => s + t.1 * t.2) 0
          / (bilateralTaps (JSMath.mk Real.pi Real.sin Real.exp Real.sqrt) src
              (buildSpatialKernel3x3 (JSMath.mk Real.pi Real.sin Real.exp Real.sqrt) sigmaSpatial)
              width height (2 * sigmaRange * sigmaRange)
              ((idx % width : ℕ) : ℤ) ((idx / width : ℕ) : ℤ) (rd src idx)).foldl
              (fun s t => s + t.2) 0 ∧
    (∀ t ∈ taps3x3,
      0 ≤ clamp (t.1 + ((idx / width : ℕ) : ℤ)) 0 ((height : ℤ) - 1) * (width : ℤ)
            + clamp (t.2.1 + ((idx % width : ℕ) : ℤ)) 0 ((width : ℤ) - 1) ∧
      clamp (t.1 + ((idx / width : ℕ) : ℤ)) 0 ((height : ℤ) - 1) * (width : ℤ)
            + clamp (t.2.1 + ((idx % width : ℕ) : ℤ)) 0 ((width : ℤ) - 1)
          < ((width * height : ℕ) : ℤ)) := by
  obtain ⟨hy0, hy1, hx0, hx1, hxy⟩ := pixel_coords width height idx hw hidx
  refine ⟨buildSpatialKernel3x3_pos _ Real.exp_pos _ 4 (by norm_num), ?_,
    bilateralTaps_weightSum_pos _ Real.exp_pos _ _ _ _ _ _ _ _,
    bilateralPixel_eq_div _ Real.exp_pos _ _ _ _ _ _, ?_⟩
  · unfold bilateralTaps
    rw [List.mem_map]
    refine ⟨(0, 0, 4), by simp [taps3x3], ?_⟩
    simp only [zero_add]
    rw [clamp_of_mem _ _ _ hy0 hy1, clamp_of_mem _ _ _ hx0 hx1, hxy, rdZ_natCast]
    simp
  · intro t _
    exact clamped_index_bounds width height hw hh _ _
      (clamp_range _ 0 _ (by omega)) (clamp_range _ 0 _ (by omega))

/-- C18 at a 2x2 plane with the sigmas of the handler, pixel 3: the weight sum is positive. -/
theorem C18_bilateral_weightSum_pos_witness :
    0 < (bilateralTaps (JSMath.mk Real.pi Real.sin Real.exp Real.sqrt) [10, 20, 30, 40]
          (buildSpatialKernel3x3 (JSMath.mk Real.pi Real.sin Real.exp Real.sqrt) 1.25)
          2 2 (2 * 12 * 12)
          ((3 % 2 : ℕ) : ℤ) ((3 / 2 : ℕ) : ℤ) (rd ([10, 20, 30, 40] : List ℝ) 3)).foldl
          (fun s t => s + t.2) 0 :=
  (C18_bilateral_weightSum_pos [10, 20, 30, 40] 2 2 1.25 12 3 (by norm_num) (by norm_num)
    (by norm_num) (by norm_num) rfl (by norm_num)).2.2.1

/-! ## C16: the two passes and the direct 2-D sum -/

theorem decode_pixel (y x c n : ℕ) (hx : x < n) (hc : c < 4) :
    ((y * n + x) * 4 + c) % 4 = c ∧ ((y * n + x) * 4 + c) / 4 % n = x ∧
    ((y * n + x) * 4 + c) / 4 / n = y := by
  have h4 : ((y * n + x) * 4 + c) / 4 = y * n + x := by omega
  refine ⟨by omega, ?_, ?_⟩
  · rw [h4, Nat.add_comm, Nat.add_mul_mod_self_right, Nat.mod_eq_of_lt hx]
  · rw [h4, Nat.add_comm, Nat.add_mul_div_right _ _ (by omega), Nat.div_eq_of_lt hx, Nat.zero_add]

theorem pixel_index_lt (y x c n m : ℕ) (hx : x < n) (hy : y < m) (hc : c < 4) :
    (y * n + x) * 4 + c < n * m * 4 := by
  have h1 : y * n + x < n * m := by
    have : (y + 1) * n ≤ m * n := Nat.mul_le_mul_right n hy
    nlinarith
  omega

theorem rd_lanczosTemp (src : List α) (weightsX : List (List (Tap α)))
    (width height newWidth j x c : ℕ) (hj : j < height) (hx : x < newWidth) (hc : c < 4) :
    rd (lanczosTemp src weightsX width height newWidth) ((j * newWidth + x) * 4 + c)
      = weightedSum src (weightsX.getD x [])
          (fun index => ((j : ℤ) * (width : ℤ) + index) * 4 + (c : ℤ)) := by
  obtain ⟨h1, h2, h3⟩ := decode_pixel j x c newWidth hx hc
  unfold lanczosTemp
  rw [rd_fill _ _ _ (pixel_index_lt j x c newWidth height hx hj hc)]
  simp only [h1, h2, h3]

theorem rd_lanczosDst (temp : List α) (weightsY : List (List (Tap α)))
    (newWidth newHeight y x c : ℕ) (hy : y < newHeight) (hx : x < newWidth) (hc : c < 4) :
    rd (lanczosDst temp weightsY newWidth newHeight) ((y * newWidth + x) * 4 + c)
      = weightedSum temp (weightsY.getD y [])
          (fun index => (index * (newWidth : ℤ) + (x : ℤ)) * 4 + (c : ℤ)) := by
  obtain ⟨h1, h2, h3⟩ := decode_pixel y x c newWidth hx hc
  unfold lanczosDst
  rw [rd_fill _ _ _ (pixel_index_lt y x c newWidth newHeight hx hy hc)]
  simp only [h1, h2, h3]

theorem weightedSum_eq_sum (buf : List α) (list : List (Tap α)) (pos : ℤ → ℤ) :
    weightedSum buf list pos = (list.map fun t => rdZ buf (pos t.index) * t.weight).sum := by
  unfold weightedSum
  rw [foldl_add_eq_sum, zero_add]

theorem rd_two_pass (M : JSMath α) (src : List α) (width height newWidth newHeight : ℕ)
    (hh : 1 ≤ height) (x y c : ℕ) (hx : x < newWidth) (hy : y < newHeight) (hc : c < 4) :
    rd (lanczosDst
          (lanczosTemp src
            ((List.range newWidth).map fun i => weightRow M width newWidth LANCZOS_A i)
            width height newWidth)
          ((List.range newHeight).map fun i => weightRow M height newHeight LANCZOS_A i)
          newWidth newHeight) ((y * newWidth + x) * 4 + c)
      = resampleDirect src
          ((List.range newWidth).map fun i => weightRow M width newWidth LANCZOS_A i)
          ((List.range newHeight).map fun i => weightRow M height newHeight LANCZOS_A i)
          width x y c := by
  have hrowY : ((List.range newHeight).map fun i =>
      weightRow M height newHeight (LANCZOS_A : α) i).getD y []
      = weightRow M height newHeight LANCZOS_A y := by
    simp [hy]
  rw [rd_lanczosDst _ _ _ _ y x c hy hx hc, weightedSum_eq_sum]
  unfold resampleDirect
  rw [hrowY]
  apply congrArg List.sum
  apply List.map_congr_left
  intro ty hty
  obtain ⟨h0, h1⟩ := weightRow_index M height newHeight _ y hh ty hty
  have hj : ty.index.toNat < height := by omega
  have hcast : ty.index * (newWidth : ℤ) + (x : ℤ)
      = (((ty.index.toNat * newWidth + x : ℕ)) : ℤ) := by
    push_cast
    rw [Int.toNat_of_nonneg h0]
  have hcast2 : (ty.index * (newWidth : ℤ) + (x : ℤ)) * 4 + (c : ℤ)
      = ((((ty.index.toNat * newWidth + x) * 4 + c : ℕ)) : ℤ) := by
    rw [hcast]
    push_cast
    ring
  rw [hcast2, rdZ_natCast, rd_lanczosTemp _ _ _ _ _ _ x c hj hx hc, weightedSum_eq_sum,
    Int.toNat_of_nonneg h0, ← List.sum_map_mul_right]
  apply congrArg List.sum
  apply List.map_congr_left
  intro tx _
  ring

theorem rdZ_congr_channel (s s' : List α) (c : ℕ) (hc : c < 4)
    (h : ∀ k : ℕ, k % 4 = c → rd s k = rd s' k) (q : ℤ) :
    rdZ s (q * 4 + (c : ℤ)) = rdZ s' (q * 4 + (c : ℤ)) := by
  by_cases hq : q * 4 + (c : ℤ) < 0
  · simp [rdZ, hq]
  · have h1 : q * 4 + (c : ℤ) = (((q * 4 + (c : ℤ)).toNat : ℕ) : ℤ) := by
      rw [Int.toNat_of_nonneg (by omega)]
    rw [h1, rdZ_natCast, rdZ_natCast]
    apply h
    omega

/-- C16: for a source of `width * height` pixels (both at least 1), the buffer returned by the
two passes of `lanczosScaleRGBA` equals the direct 2-D resampling with the weight lists of
`precomputeWeights`: for every channel `c` and destination `(x, y)`,
`dst[(y * newWidth + x) * 4 + c]` is the sum over `(j, wy)` in `weightsY[y]` and `(i, wx)` in
`weightsX[x]` of `wy * wx * src[(j * width + i) * 4 + c]`.  The weight lists do not depend on
the channel or on the source, and the sum for channel `c` reads only samples of channel `c`:
two sources that agree on channel `c` give the same channel `c`. -/
theorem C16_two_pass_direct (M : JSMath α) (width height newWidth newHeight : ℕ)
    (hw : 1 ≤ width) (hh : 1 ≤ height) :
    ∃ weightsX weightsY : List (List (Tap α)),
      precomputeWeights M width (newWidth : ℤ) LANCZOS_A = .ok weightsX ∧
      precomputeWeights M height (newHeight : ℤ) LANCZOS_A = .ok weightsY ∧
      (∀ src : List α, src.length = width * height * 4 →
        ∃ (reported dst : List α),
          lanczosScaleRGBA M src width height (newWidth : ℤ) (newHeight : ℤ)
            = .ok (reported, dst) ∧
          ∀ x y c, x < newWidth → y < newHeight → c < 4 →
            rd dst ((y * newWidth + x) * 4 + c)
              = resampleDirect src weightsX weightsY width x y c) ∧
      (∀ (s s' : List α) (x y c : ℕ), c < 4 →
        (∀ k : ℕ, k % 4 = c → rd s k = rd s' k) →
        resampleDirect s weightsX weightsY width x y c
          = resampleDirect s' weightsX weightsY width x y c) := by
  refine ⟨_, _, precomputeWeights_ok M width newWidth LANCZOS_A (by omega),
    precomputeWeights_ok M height newHeight LANCZOS_A (by omega), ?_, ?_⟩
  · intro src _
    refine ⟨_, _, lanczosScaleRGBA_ok M src width height _ _ (by omega) (by omega), ?_⟩
    intro x y c hx hy hc
    simp only [Int.toNat_ofNat]
    exact rd_two_pass M src width height newWidth newHeight hh x y c hx hy hc
  · intro s s' x y c hc h
    unfold resampleDirect
    apply congrArg List.sum
    apply List.map_congr_left
    intro ty _
    apply congrArg List.sum
    apply List.map_congr_left
    intro tx _
    rw [rdZ_congr_channel s s' c hc h]

/-- C16 at a 2x1 source resampled to 4x2 with the real kernel. -/
theorem C16_two_pass_direct_witness :
    ∃ weightsX weightsY : List (List (Tap ℝ)),
      precomputeWeights (JSMath.mk Real.pi Real.sin Real.exp Real.sqrt) 2 ((4 : ℕ) : ℤ) LANCZOS_A
        = .ok weightsX ∧
      precomputeWeights (JSMath.mk Real.pi Real.sin Real.exp Real.sqrt) 1 ((2 : ℕ) : ℤ) LANCZOS_A
        = .ok weightsY ∧
      ∃ (reported dst : List ℝ),
        lanczosScaleRGBA (JSMath.mk Real.pi Real.sin Real.exp Real.sqrt)
          [10, 20, 30, 255, 200, 100, 0, 128] 2 1 ((4 : ℕ) : ℤ) ((2 : ℕ) : ℤ)
          = .ok (reported, dst) ∧
        ∀ x y c, x < 4 → y < 2 → c < 4 →
          rd dst ((y * 4 + x) * 4 + c)
            = resampleDirect [10, 20, 30, 255, 200, 100, 0, 128] weightsX weightsY 2 x y c := by
  obtain ⟨wx, wy, h1, h2, h3, _⟩ := C16_two_pass_direct
    (JSMath.mk Real.pi Real.sin Real.exp Real.sqrt) 2 1 4 2 (by norm_num) (by norm_num)
  exact ⟨wx, wy, h1, h2, h3 [10, 20, 30, 255, 200, 100, 0, 128] rfl⟩

/-! ## C17: adaptive sharpening -/

/-- C17: for every pixel `i`, the sharpened luma of `enhanceLuma` (before contrast
normalisation) is `original + 0.88 * boost * detail`, where `detail = original - blurred` and
`boost` is 0.85 if `|detail| > 2.0` and 0.4 otherwise; in particular `|detail| = 2.0` takes the
0.4 branch. -/
theorem C17_sharpen_formula (y blurred : List α) (size i : ℕ) (hi : i < size) :
    rd (sharpen y blurred size) i
      = rd y i + 0.88 * (if |rd y i - rd blurred i| > 2.0 then 0.85 else 0.4)
          * (rd y i - rd blurred i) ∧
    (|rd y i - rd blurred i| = 2.0 →
      rd (sharpen y blurred size) i = rd y i + 0.88 * 0.4 * (rd y i - rd blurred i)) := by
  have hmain : rd (sharpen y blurred size) i
      = rd y i + 0.88 * (if |rd y i - rd blurred i| > 2.0 then 0.85 else 0.4)
          * (rd y i - rd blurred i) := by
    unfold sharpen
    rw [rd_fill _ _ _ hi]
    simp only []
    split_ifs <;> norm_num <;> ring
  refine ⟨hmain, fun h => ?_⟩
  rw [hmain, h, if_neg (lt_irrefl _)]

/-- C17 at one pixel with original luma 10 and blurred luma 8, where `|detail|` is exactly 2:
the 0.4 branch is taken. -/
theorem C17_sharpen_formula_witness :
    rd (sharpen ([10] : List ℚ) [8] 1) 0
      = rd ([10] : List ℚ) 0 + 0.88 * 0.4 * (rd ([10] : List ℚ) 0 - rd ([8] : List ℚ) 0) :=
  (C17_sharpen_formula [10] [8] 1 0 (by norm_num)).2 (by norm_num [rd])

/-! ## C19: the candidate list of `precomputeWeights` is never empty -/

theorem real_sin_ne_zero_of_abs_lt_pi (t : ℝ) (h0 : t ≠ 0) (h1 : -Real.pi < t)
    (h2 : t < Real.pi) : Real.sin t ≠ 0 := by
  rcases lt_or_gt_of_ne h0 with h | h
  · exact ne_of_lt (Real.sin_neg_of_neg_of_neg_pi_lt h h1)
  · exact ne_of_gt (Real.sin_pos_of_pos_of_lt_pi h h2)

theorem real_lanczosKernel_ne_zero (x : ℝ) (h1 : -(1 / 2) ≤ x) (h2 : x < 1 / 2) :
    lanczosKernel (JSMath.mk Real.pi Real.sin Real.exp Real.sqrt) x 3 ≠ 0 := by
  have hpi : 0 < Real.pi := Real.pi_pos
  unfold lanczosKernel
  by_cases hx : x = 0
  · rw [if_pos hx]
    exact one_ne_zero
  · rw [if_neg hx]
    simp only []
    have hpx : Real.pi * x ≠ 0 := mul_ne_zero (ne_of_gt hpi) hx
    have hpx3 : Real.pi * x / 3 ≠ 0 := div_ne_zero hpx (by norm_num)
    have hs1 : Real.sin (Real.pi * x) ≠ 0 :=
      real_sin_ne_zero_of_abs_lt_pi _ hpx (by nlinarith) (by nlinarith)
    have hs2 : Real.sin (Real.pi * x / 3) ≠ 0 :=
      real_sin_ne_zero_of_abs_lt_pi _ hpx3 (by nlinarith) (by nlinarith)
    exact mul_ne_zero (div_ne_zero hs1 hpx) (div_ne_zero hs2 hpx3)

theorem center_bounds (oldSize newSize i : ℕ) (hold : 1 ≤ oldSize) (hnew : 1 ≤ newSize)
    (hi : i < newSize) :
    ((i : ℝ) + 0.5) * (1 / ((newSize : ℝ) / (oldSize : ℝ)))
        = ((i : ℝ) + 0.5) * (oldSize : ℝ) / (newSize : ℝ) ∧
    0 ≤ ((i : ℝ) + 0.5) * (1 / ((newSize : ℝ) / (oldSize : ℝ))) ∧
    ((i : ℝ) + 0.5) * (1 / ((newSize : ℝ) / (oldSize : ℝ))) < (oldSize : ℝ) := by
  have ho : (0 : ℝ) < (oldSize : ℝ) := by exact_mod_cast hold
  have hn : (0 : ℝ) < (newSize : ℝ) := by exact_mod_cast hnew
  have hi' : (i : ℝ) + 1 ≤ (newSize : ℝ) := by exact_mod_cast hi
  have e : ((i : ℝ) + 0.5) * (1 / ((newSize : ℝ) / (oldSize : ℝ)))
      = ((i : ℝ) + 0.5) * (oldSize : ℝ) / (newSize : ℝ) := by
    field_simp
  refine ⟨e, ?_, ?_⟩
  · rw [e]
    have : (0 : ℝ) ≤ (i : ℝ) := Nat.cast_nonneg _
    positivity
  · rw [e, div_lt_iff₀ hn]
    have : ((i : ℝ) + 0.5) < (newSize : ℝ) := by norm_num; linarith
    nlinarith

/-- C19: with the real sine, for source and destination sizes at least 1 and every destination
coordinate `i`, the source index `floor((i + 0.5) * oldSize / newSize)` is in bounds, lies in
`[left, right]`, and has a kernel offset in `[-0.5, 0.5)`, where `lanczosKernel` is non-zero;
so it is in the candidate list `items`, which is never empty, and the single-tap fallback
branch of `precomputeWeights` is not taken. -/
theorem C19_items_nonempty (oldSize newSize i : ℕ) (hold : 1 ≤ oldSize) (hnew : 1 ≤ newSize)
    (hi : i < newSize) :
    ((i : ℝ) + 0.5) * (1 / ((newSize : ℝ) / (oldSize : ℝ)))
        = ((i : ℝ) + 0.5) * (oldSize : ℝ) / (newSize : ℝ) ∧
    0 ≤ ⌊((i : ℝ) + 0.5) * (1 / ((newSize : ℝ) / (oldSize : ℝ)))⌋ ∧
    ⌊((i : ℝ) + 0.5) * (1 / ((newSize : ℝ) / (oldSize : ℝ)))⌋ < (oldSize : ℤ) ∧
    ⌊((i : ℝ) + 0.5) * (1 / ((newSize : ℝ) / (oldSize : ℝ))) - 3⌋
        ≤ ⌊((i : ℝ) + 0.5) * (1 / ((newSize : ℝ) / (oldSize : ℝ)))⌋ ∧
    ⌊((i : ℝ) + 0.5) * (1 / ((newSize : ℝ) / (oldSize : ℝ)))⌋
        ≤ ⌈((i : ℝ) + 0.5) * (1 / ((newSize : ℝ) / (oldSize : ℝ))) + 3⌉ ∧
    -(1 / 2) ≤ ((i : ℝ) + 0.5) * (1 / ((newSize : ℝ) / (oldSize : ℝ)))
        - ((⌊((i : ℝ) + 0.5) * (1 / ((newSize : ℝ) / (oldSize : ℝ)))⌋ : ℤ) : ℝ) - 0.5 ∧
    ((i : ℝ) + 0.5) * (1 / ((newSize : ℝ) / (oldSize : ℝ)))
        - ((⌊((i : ℝ) + 0.5) * (1 / ((newSize : ℝ) / (oldSize : ℝ)))⌋ : ℤ) : ℝ) - 0.5 < 1 / 2 ∧
    lanczosKernel (JSMath.mk Real.pi Real.sin Real.exp Real.sqrt)
        (((i : ℝ) + 0.5) * (1 / ((newSize : ℝ) / (oldSize : ℝ)))
          - ((⌊((i : ℝ) + 0.5) * (1 / ((newSize : ℝ) / (oldSize : ℝ)))⌋ : ℤ) : ℝ) - 0.5) 3 ≠ 0 ∧
    (∃ t ∈ weightItems (JSMath.mk Real.pi Real.sin Real.exp Real.sqrt) oldSize 3
          (((i : ℝ) + 0.5) * (1 / ((newSize : ℝ) / (oldSize : ℝ)))),
      t.index = ⌊((i : ℝ) + 0.5) * (1 / ((newSize : ℝ) / (oldSize : ℝ)))⌋) ∧
    (weightItems (JSMath.mk Real.pi Real.sin Real.exp Real.sqrt) oldSize 3
        (((i : ℝ) + 0.5) * (1 / ((newSize : ℝ) / (oldSize : ℝ))))).length ≠ 0 := by
  obtain ⟨he, hc0, hc1⟩ := center_bounds oldSize newSize i hold hnew hi
  generalize ((i : ℝ) + 0.5) * (1 / ((newSize : ℝ) / (oldSize : ℝ))) = center at he hc0 hc1 ⊢
  have hf0 : 0 ≤ ⌊center⌋ := Int.floor_nonneg.mpr hc0
  have hf1 : ⌊center⌋ < (oldSize : ℤ) := by
    rw [Int.floor_lt]
    exact_mod_cast hc1
  have hleft : ⌊center - 3⌋ ≤ ⌊center⌋ := Int.floor_le_floor (by linarith)
  have hright : ⌊center⌋ ≤ ⌈center + 3⌉ :=
    le_trans (Int.floor_le_ceil center) (Int.ceil_le_ceil (by linarith))
  have hx1 : -(1 / 2) ≤ center - ((⌊center⌋ : ℤ) : ℝ) - 0.5 := by
    have := Int.floor_le center
    have e05 : (0.5 : ℝ) = 1 / 2 := by norm_num
    rw [e05]
    linarith
  have hx2 : center - ((⌊center⌋ : ℤ) : ℝ) - 0.5 < 1 / 2 := by
    have := Int.lt_floor_add_one center
    have e05 : (0.5 : ℝ) = 1 / 2 := by norm_num
    rw [e05]
    linarith
  have hk := real_lanczosKernel_ne_zero _ hx1 hx2
  have hmem : ∃ t ∈ weightItems (JSMath.mk Real.pi Real.sin Real.exp Real.sqrt) oldSize 3 center,
      t.index = ⌊center⌋ := by
    refine ⟨Tap.mk ⌊center⌋ (lanczosKernel (JSMath.mk Real.pi Real.sin Real.exp Real.sqrt)
      (center - ((⌊center⌋ : ℤ) : ℝ) - 0.5) 3), ?_, rfl⟩
    unfold weightItems
    simp only [List.mem_filterMap]
    refine ⟨⌊center⌋, (mem_intRange _ _ _).mpr ⟨hleft, hright⟩, ?_⟩
    rw [if_neg (by omega), if_pos hk]
  refine ⟨he, hf0, hf1, hleft, hright, hx1, hx2, hk, hmem, ?_⟩
  obtain ⟨t, ht, _⟩ := hmem
  intro h
  have := List.length_pos_of_mem ht
  omega

/-- C19 for the sizes 4 and 8 of the uniform-image scenario, destination 0: the candidate list
is not empty. -/
theorem C19_items_nonempty_witness :
    (weightItems (JSMath.mk Real.pi Real.sin Real.exp Real.sqrt) 4 3
        ((((0 : ℕ) : ℝ) + 0.5) * (1 / (((8 : ℕ) : ℝ) / ((4 : ℕ) : ℝ))))).length ≠ 0 :=
  (C19_items_nonempty 4 8 0 (by norm_num) (by norm_num) (by norm_num)).2.2.2.2.2.2.2.2.2

/-! ## C20: the bounds found in the histogram -/

theorem find?_pairwise {R : ℕ → ℕ → Prop} (l : List ℕ) (hl : l.Pairwise R) (p : ℕ → Bool)
    (i : ℕ) (h : l.find? p = some i) :
    i ∈ l ∧ p i = true ∧ ∀ j ∈ l, j ≠ i → ¬ R i j → p j = false := by
  rw [List.find?_eq_some] at h
  obtain ⟨hp, as, bs, hsplit, has⟩ := h
  refine ⟨by rw [hsplit]; simp, hp, ?_⟩
  intro j hj hne hR
  rw [hsplit] at hj hl
  rw [List.mem_append, List.mem_cons] at hj
  rw [List.pairwise_append, List.pairwise_cons] at hl
  rcases hj with hj | hj | hj
  · simpa using has j hj
  · exact absurd hj hne
  · exact absurd (hl.2.1.1 j hj) hR

theorem histLow_spec (hist : List ℕ) (L : ℤ) :
    histLow hist L < 256 ∧
    (histLow hist L ≠ 0 →
      ∀ j, j < histLow hist L → (((hist.take (j + 1)).sum : ℕ) : ℤ) < L) := by
  unfold histLow
  cases h : (List.range 256).find?
      (fun i => decide (L ≤ (((hist.take (i + 1)).sum : ℕ) : ℤ))) with
  | none => simp
  | some i =>
    obtain ⟨hmem, _, hmin⟩ := find?_pairwise _ (List.pairwise_lt_range 256) _ i h
    simp only [Option.getD_some]
    refine ⟨List.mem_range.mp hmem, fun _ j hj => ?_⟩
    have := hmin j (List.mem_range.mpr (by have := List.mem_range.mp hmem; omega)) (by omega)
      (by omega)
    exact not_le.mp (of_decide_eq_false this)

theorem histHigh_spec (hist : List ℕ) (total : ℕ) (U : ℤ) :
    histHigh hist total U < 256 ∧
    (histHigh hist total U ≠ 255 →
      ∀ j, histHigh hist total U < j → j < 256 →
        (((hist.drop j).sum : ℕ) : ℤ) < (total : ℤ) - U) := by
  unfold histHigh
  cases h : (List.range 256).reverse.find?
      (fun i => decide ((total : ℤ) - U ≤ (((hist.drop i).sum : ℕ) : ℤ))) with
  | none => simp
  | some i =>
    have hpw : (List.range 256).reverse.Pairwise (fun a b => b < a) := by
      rw [List.pairwise_reverse]
      exact List.pairwise_lt_range 256
    obtain ⟨hmem, _, hmin⟩ := find?_pairwise _ hpw _ i h
    have hi : i < 256 := by
      rw [List.mem_reverse] at hmem
      exact List.mem_range.mp hmem
    simp only [Option.getD_some]
    refine ⟨hi, fun _ j hj hj2 => ?_⟩
    have := hmin j (by rw [List.mem_reverse]; exact List.mem_range.mpr hj2) (by omega) (by omega)
    exact not_le.mp (of_decide_eq_false this)

/-- The bound `low` found by the upward scan never exceeds the bound `high` found by the
downward scan, as soon as the two targets together do not exceed the number of counted values
plus one. -/
theorem histLow_le_histHigh (hist : List ℕ) (total : ℕ) (L U : ℤ)
    (hLU : L + ((total : ℤ) - U) ≤ ((hist.sum : ℕ) : ℤ) + 1) :
    histLow hist L ≤ histHigh hist total U := by
  obtain ⟨hlo, hlomin⟩ := histLow_spec hist L
  obtain ⟨hhi, hhimax⟩ := histHigh_spec hist total U
  by_contra hcon
  have hlt : histHigh hist total U < histLow hist L := by omega
  have h1 := hlomin (by omega) (histHigh hist total U) hlt
  have h2 := hhimax (by omega) (histHigh hist total U + 1) (by omega) (by omega)
  have h3 := List.sum_take_add_sum_drop hist (histHigh hist total U + 1)
  have h4 : (((hist.take (histHigh hist total U + 1)).sum : ℕ) : ℤ)
      + (((hist.drop (histHigh hist total U + 1)).sum : ℕ) : ℤ) = ((hist.sum : ℕ) : ℤ) := by
    exact_mod_cast h3
  omega

theorem sum_indicator (n : ℕ) (z : ℤ) (h0 : 0 ≤ z) (h1 : z < (n : ℤ)) :
    ((List.range n).map fun (b : ℕ) => if z = (b : ℤ) then 1 else 0).sum = 1 := by
  induction n with
  | zero => omega
  | succ m ih =>
    rw [List.range_succ, List.map_append, List.sum_append]
    simp only [List.map_cons, List.map_nil, List.sum_cons, List.sum_nil, add_zero]
    by_cases hz : z = (m : ℤ)
    · have hzero : ((List.range m).map fun (b : ℕ) => if z = (b : ℤ) then 1 else 0).sum = 0 := by
        apply List.sum_eq_zero
        intro x hx
        obtain ⟨b, hb, rfl⟩ := List.mem_map.mp hx
        have := List.mem_range.mp hb
        rw [if_neg (by omega)]
      rw [hzero, if_pos hz]
    · rw [ih (by push_cast at h1; omega), if_neg hz]

theorem bucket_range (v : α) : 0 ≤ bucket v ∧ bucket v < 256 := by
  have := clamp_range (jsRound v) (0 : ℤ) 255 (by norm_num)
  unfold bucket
  omega

theorem histogram_sum (adjusted : List α) : (histogram adjusted).sum = adjusted.length := by
  induction adjusted with
  | nil =>
    unfold histogram
    apply List.sum_eq_zero
    intro x hx
    obtain ⟨b, _, rfl⟩ := List.mem_map.mp hx
    rfl
  | cons v l ih =>
    unfold histogram at ih ⊢
    simp only [List.countP_cons, List.sum_map_add, ih, List.length_cons, decide_eq_true_eq]
    obtain ⟨h0, h1⟩ := bucket_range v
    rw [sum_indicator 256 (bucket v) h0 (by exact_mod_cast h1)]

theorem histStretch_bounds (adjusted : List α) :
    histLow (histogram adjusted) ⌊(adjusted.length : α) * 0.05⌋
      ≤ histHigh (histogram adjusted) adjusted.length ⌊(adjusted.length : α) * (1 - 0.05)⌋ ∧
    histHigh (histogram adjusted) adjusted.length ⌊(adjusted.length : α) * (1 - 0.05)⌋ ≤ 255 ∧
    (0 : α) < (if ((histHigh (histogram adjusted) adjusted.length
                    ⌊(adjusted.length : α) * (1 - 0.05)⌋ : ℕ) : ℤ)
                  - ((histLow (histogram adjusted) ⌊(adjusted.length : α) * 0.05⌋ : ℕ) : ℤ) > 1
                then (255 : α)
                  / ((((histHigh (histogram adjusted) adjusted.length
                        ⌊(adjusted.length : α) * (1 - 0.05)⌋ : ℕ) : ℤ)
                      - ((histLow (histogram adjusted) ⌊(adjusted.length : α) * 0.05⌋ : ℕ) : ℤ)
                      : ℤ) : α)
                else 1) ∧
    ∀ v ∈ histStretch adjusted 0.05, (0 : α) ≤ v ∧ v ≤ 255 := by
  have hn : (0 : α) ≤ (adjusted.length : α) := Nat.cast_nonneg _
  have hfl : ⌊(adjusted.length : α) * 0.05⌋ ≤ ⌊(adjusted.length : α) * (1 - 0.05)⌋ := by
    apply Int.floor_le_floor
    have : (0.05 : α) ≤ 1 - 0.05 := by norm_num
    exact mul_le_mul_of_nonneg_left this hn
  have hle := histLow_le_histHigh (histogram adjusted) adjusted.length
    ⌊(adjusted.length : α) * 0.05⌋ ⌊(adjusted.length : α) * (1 - 0.05)⌋
    (by rw [histogram_sum]; omega)
  have hhi := (histHigh_spec (histogram adjusted) adjusted.length
    ⌊(adjusted.length : α) * (1 - 0.05)⌋).1
  refine ⟨hle, by omega, ?_, ?_⟩
  · split_ifs with h
    · apply div_pos (by norm_num)
      have : (0 : ℤ) < ((histHigh (histogram adjusted) adjusted.length
          ⌊(adjusted.length : α) * (1 - 0.05)⌋ : ℕ) : ℤ)
          - ((histLow (histogram adjusted) ⌊(adjusted.length : α) * 0.05⌋ : ℕ) : ℤ) := by
        omega
      exact_mod_cast this
    · exact one_pos
  · intro v hv
    unfold histStretch at hv
    obtain ⟨u, _, rfl⟩ := List.mem_map.mp hv
    exact clamp_range _ 0 255 (by norm_num)

/-- C20: for non-empty data, in `contrastNormalize(data, 0.05, 0.1)` the histogram bounds
satisfy `0 <= low <= high <= 255`, the stretch factor is positive, the result is the clipped
plane mapped by `clamp((v - low) * scale, 0, 255)`, and every returned value lies in
`[0, 255]`. -/
theorem C20_histogram_bounds (M : JSMath α) (data : List α) (hdata : data ≠ []) :
    0 ≤ histLow (histogram (statClip M data 0.1)) ⌊((statClip M data 0.1).length : α) * 0.05⌋ ∧
    histLow (histogram (statClip M data 0.1)) ⌊((statClip M data 0.1).length : α) * 0.05⌋
      ≤ histHigh (histogram (statClip M data 0.1)) (statClip M data 0.1).length
          ⌊((statClip M data 0.1).length : α) * (1 - 0.05)⌋ ∧
    histHigh (histogram (statClip M data 0.1)) (statClip M data 0.1).length
        ⌊((statClip M data 0.1).length : α) * (1 - 0.05)⌋ ≤ 255 ∧
    (0 : α) < (if ((histHigh (histogram (statClip M data 0.1)) (statClip M data 0.1).length
                    ⌊((statClip M data 0.1).length : α) * (1 - 0.05)⌋ : ℕ) : ℤ)
                  - ((histLow (histogram (statClip M data 0.1))
                      ⌊((statClip M data 0.1).length : α) * 0.05⌋ : ℕ) : ℤ) > 1
                then (255 : α)
                  / ((((histHigh (histogram (statClip M data 0.1)) (statClip M data 0.1).length
                        ⌊((statClip M data 0.1).length : α) * (1 - 0.05)⌋ : ℕ) : ℤ)
                      - ((histLow (histogram (statClip M data 0.1))
                          ⌊((statClip M data 0.1).length : α) * 0.05⌋ : ℕ) : ℤ) : ℤ) : α)
                else 1) ∧
    contrastNormalize M data 0.05 0.1
      = (statClip M data 0.1).map (fun v =>
          clamp ((v - ((histLow (histogram (statClip M data 0.1))
                    ⌊((statClip M data 0.1).length : α) * 0.05⌋ : ℕ) : α))
              * (if ((histHigh (histogram (statClip M data 0.1)) (statClip M data 0.1).length
                      ⌊((statClip M data 0.1).length : α) * (1 - 0.05)⌋ : ℕ) : ℤ)
                    - ((histLow (histogram (statClip M data 0.1))
                        ⌊((statClip M data 0.1).length : α) * 0.05⌋ : ℕ) : ℤ) > 1
                  then (255 : α)
                    / ((((histHigh (histogram (statClip M data 0.1)) (statClip M data 0.1).length
                          ⌊((statClip M data 0.1).length : α) * (1 - 0.05)⌋ : ℕ) : ℤ)
                        - ((histLow (histogram (statClip M data 0.1))
                            ⌊((statClip M data 0.1).length : α) * 0.05⌋ : ℕ) : ℤ) : ℤ) : α)
                  else 1)) 0 255) ∧
    ∀ v ∈ contrastNormalize M data 0.05 0.1, (0 : α) ≤ v ∧ v ≤ 255 := by
  obtain ⟨h1, h2, h3, h4⟩ := histStretch_bounds (statClip M data 0.1)
  have hcn : contrastNormalize M data 0.05 0.1 = histStretch (statClip M data 0.1) 0.05 := by
    unfold contrastNormalize
    rw [if_pos (by norm_num)]
  refine ⟨Nat.zero_le _, h1, h2, h3, ?_, ?_⟩
  · rw [hcn]
    rfl
  · rw [hcn]
    exact h4

/-- C20 at a plane of three values, over the reals: the bounds are ordered and at most 255. -/
theorem C20_histogram_bounds_witness :
    histLow (histogram (statClip (JSMath.mk Real.pi Real.sin Real.exp Real.sqrt)
          ([10, 200, 50] : List ℝ) 0.1))
        ⌊((statClip (JSMath.mk Real.pi Real.sin Real.exp Real.sqrt)
          ([10, 200, 50] : List ℝ) 0.1).length : ℝ) * 0.05⌋
      ≤ histHigh (histogram (statClip (JSMath.mk Real.pi Real.sin Real.exp Real.sqrt)
          ([10, 200, 50] : List ℝ) 0.1))
          (statClip (JSMath.mk Real.pi Real.sin Real.exp Real.sqrt)
            ([10, 200, 50] : List ℝ) 0.1).length
          ⌊((statClip (JSMath.mk Real.pi Real.sin Real.exp Real.sqrt)
            ([10, 200, 50] : List ℝ) 0.1).length : ℝ) * (1 - 0.05)⌋ ∧
    histHigh (histogram (statClip (JSMath.mk Real.pi Real.sin Real.exp Real.sqrt)
          ([10, 200, 50] : List ℝ) 0.1))
        (statClip (JSMath.mk Real.pi Real.sin Real.exp Real.sqrt)
          ([10, 200, 50] : List ℝ) 0.1).length
        ⌊((statClip (JSMath.mk Real.pi Real.sin Real.exp Real.sqrt)
          ([10, 200, 50] : List ℝ) 0.1).length : ℝ) * (1 - 0.05)⌋ ≤ 255 :=
  ⟨(C20_histogram_bounds (JSMath.mk Real.pi Real.sin Real.exp Real.sqrt) [10, 200, 50]
      (by simp)).2.1,
    (C20_histogram_bounds (JSMath.mk Real.pi Real.sin Real.exp Real.sqrt) [10, 200, 50]
      (by simp)).2.2.1⟩

/-! ## C21: the denoiser stays within the neighbourhood -/

theorem exists_min_max_mem (l : List α) (h : l ≠ []) :
    (∃ a ∈ l, ∀ x ∈ l, a ≤ x) ∧ (∃ b ∈ l, ∀ x ∈ l, x ≤ b) := by
  have hne : l.toFinset.Nonempty := by
    obtain ⟨x, hx⟩ := List.exists_mem_of_ne_nil l h
    exact ⟨x, List.mem_toFinset.mpr hx⟩
  obtain ⟨a, ha, hmin⟩ := Finset.exists_min_image l.toFinset (fun x => x) hne
  obtain ⟨b, hb, hmax⟩ := Finset.exists_max_image l.toFinset (fun x => x) hne
  exact ⟨⟨a, List.mem_toFinset.mp ha, fun x hx => hmin x (List.mem_toFinset.mpr hx)⟩,
    ⟨b, List.mem_toFinset.mp hb, fun x hx => hmax x (List.mem_toFinset.mpr hx)⟩⟩

/-- A combination with non-negative coefficients of sum 1 lies between any two bounds of the
combined values. -/
theorem convex_bounds {β : Type} (l : List β) (coeff nb : β → α) (lo hi : α)
    (hc : ∀ t ∈ l, 0 ≤ coeff t) (hsum : (l.map coeff).sum = 1)
    (hb : ∀ t ∈ l, lo ≤ nb t ∧ nb t ≤ hi) :
    lo ≤ (l.map fun t => coeff t * nb t).sum ∧ (l.map fun t => coeff t * nb t).sum ≤ hi := by
  have h1 : (l.map fun t => coeff t * lo).sum ≤ (l.map fun t => coeff t * nb t).sum :=
    List.sum_le_sum fun t ht => mul_le_mul_of_nonneg_left (hb t ht).1 (hc t ht)
  have h2 : (l.map fun t => coeff t * nb t).sum ≤ (l.map fun t => coeff t * hi).sum :=
    List.sum_le_sum fun t ht => mul_le_mul_of_nonneg_left (hb t ht).2 (hc t ht)
  rw [List.sum_map_mul_right, hsum, one_mul] at h1 h2
  exact ⟨h1, h2⟩

/-- The blend `0.65 * centre + 0.35 * (weighted average)` over the nine taps, written as one
combination of the nine neighbourhood values with non-negative coefficients of sum 1. -/
theorem blend_convex (nb wt : ℤ × ℤ × ℕ → α) (hwt : ∀ t ∈ taps3x3, 0 < wt t) :
    (∀ t ∈ taps3x3,
      0 ≤ 0.35 * (wt t / (taps3x3.map wt).sum) + (if t.2.2 = 4 then (0.65 : α) else 0)) ∧
    (taps3x3.map fun t =>
      0.35 * (wt t / (taps3x3.map wt).sum) + (if t.2.2 = 4 then (0.65 : α) else 0)).sum = 1 ∧
    nb (0, 0, 4) * (1 - 0.35)
        + (taps3x3.map fun t => nb t * wt t).sum / (taps3x3.map wt).sum * 0.35
      = (taps3x3.map fun t =>
          (0.35 * (wt t / (taps3x3.map wt).sum) + (if t.2.2 = 4 then (0.65 : α) else 0))
            * nb t).sum := by
  have hW : 0 < (taps3x3.map wt).sum := by
    apply List.sum_pos
    · intro v hv
      obtain ⟨t, ht, rfl⟩ := List.mem_map.mp hv
      exact hwt t ht
    · simp [taps3x3]
  have hW0 : (taps3x3.map wt).sum ≠ 0 := ne_of_gt hW
  refine ⟨?_, ?_, ?_⟩
  · intro t ht
    have h1 : 0 ≤ wt t / (taps3x3.map wt).sum := le_of_lt (div_pos (hwt t ht) hW)
    have h2 : (0 : α) ≤ (if t.2.2 = 4 then (0.65 : α) else 0) := by
      split_ifs <;> norm_num
    have h3 : (0 : α) ≤ 0.35 * (wt t / (taps3x3.map wt).sum) := mul_nonneg (by norm_num) h1
    linarith
  · have hsplit : (taps3x3.map fun t =>
        0.35 * (wt t / (taps3x3.map wt).sum) + (if t.2.2 = 4 then (0.65 : α) else 0))
        = taps3x3.map fun t =>
            (fun t => 0.35 / (taps3x3.map wt).sum * wt t) t
              + (fun t : ℤ × ℤ × ℕ => if t.2.2 = 4 then (0.65 : α) else 0) t := by
      apply List.map_congr_left
      intro t _
      simp only []
      ring
    rw [hsplit, List.sum_map_add, List.sum_map_mul_left]
    have hite : (taps3x3.map fun t : ℤ × ℤ × ℕ => if t.2.2 = 4 then (0.65 : α) else 0).sum
        = 0.65 := by
      simp [taps3x3]
    rw [hite]
    field_simp
    norm_num
  · have hsplit : (taps3x3.map fun t =>
        (0.35 * (wt t / (taps3x3.map wt).sum) + (if t.2.2 = 4 then (0.65 : α) else 0)) * nb t)
        = taps3x3.map fun t =>
            (fun t => 0.35 / (taps3x3.map wt).sum * (nb t * wt t)) t
              + (fun t : ℤ × ℤ × ℕ => (if t.2.2 = 4 then (0.65 : α) else 0) * nb t) t := by
      apply List.map_congr_left
      intro t _
      simp only []
      ring
    rw [hsplit, List.sum_map_add, List.sum_map_mul_left]
    have hite : (taps3x3.map fun t : ℤ × ℤ × ℕ =>
        (if t.2.2 = 4 then (0.65 : α) else 0) * nb t).sum = 0.65 * nb (0, 0, 4) := by
      simp [taps3x3]
    rw [hite]
    field_simp
    ring
theorem neighborAt_center (src : List α) (width height p : ℕ) (hw : 1 ≤ width)
    (hp : p < width * height) : neighborAt src width height p (0, 0, 4) = rd src p := by
  obtain ⟨hy0, hy1, hx0, hx1, hxy⟩ := pixel_coords width height p hw hp
  unfold neighborAt
  simp only [zero_add]
  rw [clamp_of_mem _ _ _ hy0 hy1, clamp_of_mem _ _ _ hx0 hx1, hxy, rdZ_natCast]

theorem neighborhood3x3_ne_nil (src : List α) (width height p : ℕ) :
    neighborhood3x3 src width height p ≠ [] := by
  simp [neighborhood3x3, taps3x3]

/-- The pixel written by `bilateralFilterY`, in terms of the nine neighbourhood values and the
weights the loop gives them. -/
theorem rd_bilateralFilterY_taps (M : JSMath α) (hexp : ∀ x, 0 < M.exp x) (src : List α)
    (width height : ℕ) (sigmaSpatial sigmaRange : α) (p : ℕ) (hw : 1 ≤ width)
    (hlen : src.length = width * height) (hp : p < width * height) :
    rd (bilateralFilterY M src width height sigmaSpatial sigmaRange) p
      = neighborAt src width height p (0, 0, 4) * (1 - 0.35)
        + (taps3x3.map fun t => neighborAt src width height p t
              * (rd (buildSpatialKernel3x3 M sigmaSpatial) t.2.2
                  * M.exp (-((neighborAt src width height p t - rd src p)
                      * (neighborAt src width height p t - rd src p))
                    / (2 * sigmaRange * sigmaRange)))).sum
          / (taps3x3.map fun t => rd (buildSpatialKernel3x3 M sigmaSpatial) t.2.2
                  * M.exp (-((neighborAt src width height p t - rd src p)
                      * (neighborAt src width height p t - rd src p))
                    / (2 * sigmaRange * sigmaRange))).sum * 0.35 := by
  rw [neighborAt_center src width height p hw hp]
  unfold bilateralFilterY mixArrays
  simp only []
  rw [rd_fill _ _ _ (by omega), rd_fill _ _ _ (by omega), if_pos hp,
    bilateralPixel_eq_div M hexp]
  unfold bilateralTaps
  simp only [foldl_add_eq_sum, zero_add, List.map_map]
  rfl

/-- With a positive host exponential, the pixel written by `bilateralFilterY` is a combination
of the nine neighbourhood values with non-negative coefficients of sum 1. -/
theorem bilateralFilterY_convex (M : JSMath α) (hexp : ∀ x, 0 < M.exp x) (src : List α)
    (width height : ℕ) (sigmaSpatial sigmaRange : α) (p : ℕ) (hw : 1 ≤ width)
    (hlen : src.length = width * height) (hp : p < width * height) :
    ∃ coeff : ℤ × ℤ × ℕ → α,
      (∀ t ∈ taps3x3, 0 ≤ coeff t) ∧ (taps3x3.map coeff).sum = 1 ∧
      rd (bilateralFilterY M src width height sigmaSpatial sigmaRange) p
        = (taps3x3.map fun t => coeff t * neighborAt src width height p t).sum := by
  have hwt : ∀ t ∈ taps3x3, 0 < rd (buildSpatialKernel3x3 M sigmaSpatial) t.2.2
      * M.exp (-((neighborAt src width height p t - rd src p)
          * (neighborAt src width height p t - rd src p)) / (2 * sigmaRange * sigmaRange)) :=
    fun t ht => mul_pos (buildSpatialKernel3x3_pos M hexp _ _ (taps3x3_index_lt t ht)) (hexp _)
  obtain ⟨h1, h2, h3⟩ := blend_convex (neighborAt src width height p)
    (fun t => rd (buildSpatialKernel3x3 M sigmaSpatial) t.2.2
      * M.exp (-((neighborAt src width height p t - rd src p)
          * (neighborAt src width height p t - rd src p)) / (2 * sigmaRange * sigmaRange))) hwt
  exact ⟨_, h1, h2,
    (rd_bilateralFilterY_taps M hexp src width height sigmaSpatial sigmaRange p hw hlen hp).trans
      h3⟩

/-- With a positive host exponential, the pixel written by `bilateralFilterY` lies between the
least and the greatest of the nine neighbourhood values. -/
theorem bilateralFilterY_between (M : JSMath α) (hexp : ∀ x, 0 < M.exp x) (src : List α)
    (width height : ℕ) (sigmaSpatial sigmaRange : α) (p : ℕ) (hw : 1 ≤ width)
    (hlen : src.length = width * height) (hp : p < width * height) :
    ∃ a ∈ neighborhood3x3 src width height p, ∃ b ∈ neighborhood3x3 src width height p,
      (∀ v ∈ neighborhood3x3 src width height p, a ≤ v ∧ v ≤ b) ∧
      a ≤ rd (bilateralFilterY M src width height sigmaSpatial sigmaRange) p ∧
      rd (bilateralFilterY M src width height sigmaSpatial sigmaRange) p ≤ b := by
  obtain ⟨⟨a, ha, hmin⟩, ⟨b, hb, hmax⟩⟩ :=
    exists_min_max_mem _ (neighborhood3x3_ne_nil src width height p)
  obtain ⟨coeff, hc, hsum, hout⟩ :=
    bilateralFilterY_convex M hexp src width height sigmaSpatial sigmaRange p hw hlen hp
  have hmem : ∀ t ∈ taps3x3, neighborAt src width height p t
      ∈ neighborhood3x3 src width height p := fun t ht => List.mem_map_of_mem _ ht
  have hbd := convex_bounds taps3x3 coeff (neighborAt src width height p) a b hc hsum
    fun t ht => ⟨hmin _ (hmem t ht), hmax _ (hmem t ht)⟩
  rw [← hout] at hbd
  exact ⟨a, ha, b, hb, fun v hv => ⟨hmin v hv, hmax v hv⟩, hbd.1, hbd.2⟩

/-- C21: with the real exponential, for every luma plane of `width * height` samples (both at
least 1, sigmas positive) and every pixel `p`, the value `bilateralFilterY` writes at `p` lies
between the minimum and the maximum of the nine source values of the 3x3 clamp-to-edge
neighbourhood of `p`, and it is a convex combination of those nine values (non-negative
coefficients of sum 1); and a plane that is constant `c` is returned as the constant plane
`c`. -/
theorem C21_bilateral_within_neighbourhood (src : List ℝ) (width height : ℕ)
    (sigmaSpatial sigmaRange : ℝ) (p : ℕ) (hw : 1 ≤ width) (hh : 1 ≤ height)
    (hs : 0 < sigmaSpatial) (hr : 0 < sigmaRange) (hlen : src.length = width * height)
    (hp : p < width * height) :
    (∃ a ∈ neighborhood3x3 src width height p, ∃ b ∈ neighborhood3x3 src width height p,
      (∀ v ∈ neighborhood3x3 src width height p, a ≤ v ∧ v ≤ b) ∧
      a ≤ rd (bilateralFilterY (JSMath.mk Real.pi Real.sin Real.exp Real.sqrt) src width height
            sigmaSpatial sigmaRange) p ∧
      rd (bilateralFilterY (JSMath.mk Real.pi Real.sin Real.exp Real.sqrt) src width height
            sigmaSpatial sigmaRange) p ≤ b) ∧
    (∃ coeff : ℤ × ℤ × ℕ → ℝ,
      (∀ t ∈ taps3x3, 0 ≤ coeff t) ∧ (taps3x3.map coeff).sum = 1 ∧
      rd (bilateralFilterY (JSMath.mk Real.pi Real.sin Real.exp Real.sqrt) src width height
            sigmaSpatial sigmaRange) p
        = (taps3x3.map fun t => coeff t * neighborAt src width height p t).sum) ∧
    (∀ c : ℝ,
      bilateralFilterY (JSMath.mk Real.pi Real.sin Real.exp Real.sqrt)
          (List.replicate (width * height) c) width height sigmaSpatial sigmaRange
        = List.replicate (width * height) c) :=
  ⟨bilateralFilterY_between _ Real.exp_pos src width height sigmaSpatial sigmaRange p hw hlen hp,
    bilateralFilterY_convex _ Real.exp_pos src width height sigmaSpatial sigmaRange p hw hlen hp,
    fun c => bilateralFilterY_const _ width height hw hh sigmaSpatial sigmaRange c⟩

/-- C21 at a 2x2 plane with the sigmas of the handler, pixel 3: the output lies between two
values of the neighbourhood that bound it, and the constant plane 7 is returned unchanged. -/
theorem C21_bilateral_within_neighbourhood_witness :
    (∃ a ∈ neighborhood3x3 ([10, 20, 30, 40] : List ℝ) 2 2 3,
      ∃ b ∈ neighborhood3x3 ([10, 20, 30, 40] : List ℝ) 2 2 3,
      (∀ v ∈ neighborhood3x3 ([10, 20, 30, 40] : List ℝ) 2 2 3, a ≤ v ∧ v ≤ b) ∧
      a ≤ rd (bilateralFilterY (JSMath.mk Real.pi Real.sin Real.exp Real.sqrt) [10, 20, 30, 40]
            2 2 1.25 12) 3 ∧
      rd (bilateralFilterY (JSMath.mk Real.pi Real.sin Real.exp Real.sqrt) [10, 20, 30, 40]
            2 2 1.25 12) 3 ≤ b) ∧
    bilateralFilterY (JSMath.mk Real.pi Real.sin Real.exp Real.sqrt)
        (List.replicate (2 * 2) (7 : ℝ)) 2 2 1.25 12
      = List.replicate (2 * 2) (7 : ℝ) :=
  ⟨(C21_bilateral_within_neighbourhood [10, 20, 30, 40] 2 2 1.25 12 3 (by norm_num)
      (by norm_num) (by norm_num) (by norm_num) rfl (by norm_num)).1,
    (C21_bilateral_within_neighbourhood [10, 20, 30, 40] 2 2 1.25 12 3 (by norm_num)
      (by norm_num) (by norm_num) (by norm_num) rfl (by norm_num)).2.2 7⟩

/-! ## Resampling at scale 1 when the kernel does not vanish at the integers -/

theorem floor_center_sub (i : ℕ) : ⌊(i : α) + 0.5 - 3⌋ = (i : ℤ) - 3 := by
  rw [Int.floor_eq_iff]
  push_cast
  constructor
  · norm_num
  · norm_num; linarith

theorem ceil_center_add (i : ℕ) : ⌈(i : α) + 0.5 + 3⌉ = (i : ℤ) + 4 := by
  rw [Int.ceil_eq_iff]
  push_cast
  constructor
  · norm_num; linarith
  · norm_num; linarith

/-- At scale 1, when no kernel value at an integer offset is zero, the inner loop of
`precomputeWeights` keeps every in-range index of `i - 3 .. i + 4`. -/
theorem weightItems_eq_filterMap (M : JSMath α)
    (hne : ∀ k : ℤ, lanczosKernel M (k : α) 3 ≠ 0) (size i : ℕ) :
    weightItems M size 3 ((i : α) + 0.5)
      = ([(i : ℤ) - 3, (i : ℤ) - 2, (i : ℤ) - 1, (i : ℤ), (i : ℤ) + 1, (i : ℤ) + 2,
          (i : ℤ) + 3, (i : ℤ) + 4] : List ℤ).filterMap fun (j : ℤ) =>
          if j < 0 ∨ j ≥ (size : ℤ) then none
          else some ({ index := j, weight := lanczosKernel M ((((i : ℤ) - j : ℤ)) : α) 3 }
            : Tap α) := by
  have hitem : ∀ j : ℤ,
      (if j < 0 ∨ j ≥ (size : ℤ) then none
        else if lanczosKernel M ((i : α) + 0.5 - (j : α) - 0.5) 3 ≠ 0 then
          some ({ index := j, weight := lanczosKernel M ((i : α) + 0.5 - (j : α) - 0.5) 3 } : Tap α)
        else none)
      = if j < 0 ∨ j ≥ (size : ℤ) then none
        else some ({ index := j, weight := lanczosKernel M ((((i : ℤ) - j : ℤ)) : α) 3 }
          : Tap α) := by
    intro j
    have hx : (i : α) + 0.5 - (j : α) - 0.5 = (((i : ℤ) - j : ℤ) : α) := by
      push_cast; ring
    rw [hx, if_pos (hne _)]
  unfold weightItems
  simp only [floor_center_sub, ceil_center_add, intRange_eight, hitem]

theorem sum_weight_filterMap (l : List ℤ) (f : ℤ → Option (Tap α)) :
    ((l.filterMap f).map Tap.weight).sum
      = (l.map fun j => ((f j).map Tap.weight).getD 0).sum := by
  induction l with
  | nil => simp
  | cons j js ih =>
    cases hfj : f j with
    | none => simp [List.filterMap_cons, hfj, ih]
    | some t => simp [List.filterMap_cons, hfj, ih]

theorem eight_terms_near_one (ε : α) (i : ℤ) (g : ℤ → α) (hgi : g i = 1)
    (hg : ∀ j, j ≠ i → |g j| ≤ ε) :
    |g (i - 3) + (g (i - 2) + (g (i - 1) + (g i + (g (i + 1) + (g (i + 2) + (g (i + 3)
        + (g (i + 4) + 0))))))) - 1| ≤ 7 * ε := by
  have h1 := abs_le.mp (hg (i - 3) (by omega))
  have h2 := abs_le.mp (hg (i - 2) (by omega))
  have h3 := abs_le.mp (hg (i - 1) (by omega))
  have h4 := abs_le.mp (hg (i + 1) (by omega))
  have h5 := abs_le.mp (hg (i + 2) (by omega))
  have h6 := abs_le.mp (hg (i + 3) (by omega))
  have h7 := abs_le.mp (hg (i + 4) (by omega))
  rw [hgi, abs_le]
  constructor <;> linarith [h1.1, h1.2, h2.1, h2.2, h3.1, h3.2, h4.1, h4.2, h5.1, h5.2, h6.1,
    h6.2, h7.1, h7.2]

/-- At scale 1 the sum of the kept kernel values is within `7 * ε` of 1 when the kernel is 1
at 0 and at most `ε` in magnitude at the other integers. -/
theorem weightItems_sum_near_one (M : JSMath α) (hne : ∀ k : ℤ, lanczosKernel M (k : α) 3 ≠ 0)
    (ε : α) (hsmall : ∀ k : ℤ, k ≠ 0 → |lanczosKernel M (k : α) 3| ≤ ε) (size i : ℕ)
    (hi : i < size) :
    |((weightItems M size 3 ((i : α) + 0.5)).map Tap.weight).sum - 1| ≤ 7 * ε := by
  have hε : 0 ≤ ε := le_trans (abs_nonneg _) (hsmall 1 (by norm_num))
  rw [weightItems_eq_filterMap M hne, sum_weight_filterMap]
  simp only [List.map_cons, List.map_nil, List.sum_cons, List.sum_nil]
  refine eight_terms_near_one ε (i : ℤ) (fun j : ℤ =>
    ((if j < 0 ∨ j ≥ (size : ℤ) then none
      else some ({ index := j, weight := lanczosKernel M ((((i : ℤ) - j : ℤ)) : α) 3 }
        : Tap α)).map Tap.weight).getD 0) ?_ ?_
  · have hb : ¬ ((i : ℤ) < 0 ∨ (i : ℤ) ≥ (size : ℤ)) := by omega
    simp only [if_neg hb, Option.map_some', Option.getD_some, sub_self, Int.cast_zero]
    simp [lanczosKernel]
  · intro j hj
    simp only []
    split_ifs with hb
    · simpa using hε
    · simp only [Option.map_some', Option.getD_some]
      exact hsmall _ (by omega)

theorem center_mem_weightItems (M : JSMath α) (hne : ∀ k : ℤ, lanczosKernel M (k : α) 3 ≠ 0)
    (size i : ℕ) (hi : i < size) :
    ({ index := (i : ℤ), weight := lanczosKernel M ((((i : ℤ) - (i : ℤ) : ℤ)) : α) 3 } : Tap α)
      ∈ weightItems M size 3 ((i : α) + 0.5) := by
  rw [weightItems_eq_filterMap M hne, List.mem_filterMap]
  refine ⟨(i : ℤ), by simp, ?_⟩
  have hb : ¬ ((i : ℤ) < 0 ∨ (i : ℤ) ≥ (size : ℤ)) := by omega
  rw [if_neg hb]

/-- At scale 1, with a kernel that is non-zero at every integer and small away from 0, the
weight list of destination `i` is the list of kept kernel values divided by their sum. -/
theorem weightRow_eq_map (M : JSMath α) (hne : ∀ k : ℤ, lanczosKernel M (k : α) 3 ≠ 0)
    (ε : α) (hsmall : ∀ k : ℤ, k ≠ 0 → |lanczosKernel M (k : α) 3| ≤ ε) (hε : 7 * ε < 1)
    (size i : ℕ) (hi : i < size) :
    weightRow M size size LANCZOS_A i
      = (weightItems M size 3 ((i : α) + 0.5)).map fun t =>
          ({ index := t.index,
             weight := t.weight / ((weightItems M size 3 ((i : α) + 0.5)).map Tap.weight).sum }
            : Tap α) := by
  have hs : (size : α) ≠ 0 := by
    have : size ≠ 0 := by omega
    exact_mod_cast this
  have hc : ((i : α) + 0.5) * (1 / ((size : α) / (size : α))) = (i : α) + 0.5 := by
    rw [div_self hs]; simp
  have hlen : (weightItems M size 3 ((i : α) + 0.5)).length ≠ 0 := by
    intro h0
    have hnil := List.length_eq_zero.mp h0
    have hmem := center_mem_weightItems M hne size i hi
    rw [hnil] at hmem
    exact List.not_mem_nil _ hmem
  have hsum := abs_le.mp (weightItems_sum_near_one M hne ε hsmall size i hi)
  have hS : ((weightItems M size 3 ((i : α) + 0.5)).map Tap.weight).sum ≠ 0 := by
    intro h0
    rw [h0] at hsum
    linarith [hsum.1]
  unfold weightRow
  simp only [hc, LANCZOS_A, foldl_add_eq_sum, zero_add]
  rw [if_neg hlen, if_pos hS]

/-! ## C5: resampling at scale 1 with the host value of `Math.PI` -/

theorem doublePI_pos : (0 : ℝ) < doublePI := by
  unfold doublePI
  norm_num

theorem doublePI_lt_pi : (doublePI : ℝ) < Real.pi := by
  have h1 : (doublePI : ℝ) < 3.14159265358979323846 := by
    unfold doublePI
    norm_num
  exact lt_trans h1 Real.pi_gt_d20

theorem pi_sub_doublePI_lt : Real.pi - doublePI < 1225 / 10 ^ 19 := by
  have h1 : (3.14159265358979323847 : ℝ) - 1225 / 10 ^ 19 < doublePI := by
    unfold doublePI
    norm_num
  linarith [Real.pi_lt_d20]

theorem doublePI_gt : (31 / 10 : ℝ) < doublePI := by
  unfold doublePI
  norm_num

/-- The real sine does not vanish at a non-zero rational multiple of the double `Math.PI`. -/
theorem sin_doublePI_mul_rat_ne_zero (q : ℚ) (hq : q ≠ 0) :
    Real.sin (doublePI * (q : ℝ)) ≠ 0 := by
  intro h
  obtain ⟨n, hn⟩ := Real.sin_eq_zero_iff.mp h
  have hq0 : (q : ℝ) ≠ 0 := by exact_mod_cast hq
  have hP : (doublePI : ℝ) ≠ 0 := ne_of_gt doublePI_pos
  have hn0 : (n : ℝ) ≠ 0 := by
    intro h0
    rw [h0, zero_mul] at hn
    exact mul_ne_zero hP hq0 hn.symm
  apply irrational_pi
  refine ⟨(884279719003555 / 281474976710656 : ℚ) * q / (n : ℚ), ?_⟩
  have hpi : Real.pi = doublePI * (q : ℝ) / (n : ℝ) := by
    rw [← hn]
    field_simp
  rw [hpi]
  unfold doublePI
  push_cast
  ring

theorem abs_sin_doublePI_mul_int (d : ℤ) :
    |Real.sin (doublePI * (d : ℝ))| ≤ |(d : ℝ)| * (Real.pi - doublePI) := by
  have h : (doublePI : ℝ) * (d : ℝ) = (d : ℝ) * Real.pi - (d : ℝ) * (Real.pi - doublePI) := by
    ring
  have hsign : |((-1 : ℝ)) ^ d| = 1 := by
    rcases Int.even_or_odd d with he | ho
    · rw [he.neg_one_zpow, abs_one]
    · rw [ho.neg_one_zpow, abs_neg, abs_one]
  rw [h, Real.sin_int_mul_pi_sub, abs_neg, abs_mul, hsign, one_mul]
  calc |Real.sin ((d : ℝ) * (Real.pi - doublePI))|
      ≤ |(d : ℝ) * (Real.pi - doublePI)| := Real.abs_sin_le_abs
    _ = |(d : ℝ)| * (Real.pi - doublePI) := by
        rw [abs_mul, abs_of_pos (sub_pos.mpr doublePI_lt_pi)]

theorem abs_sin_div_le_one (y : ℝ) : |Real.sin y / y| ≤ 1 := by
  rw [abs_div]
  by_cases hy : y = 0
  · subst hy
    simp
  · exact (div_le_one (abs_pos.mpr hy)).mpr Real.abs_sin_le_abs

/-- With the double `Math.PI` and the real sine, `lanczosKernel(d, 3)` is not zero at any
integer `d`. -/
theorem lanczosKernel_double_ne_zero (k : ℤ) :
    lanczosKernel (JSMath.mk doublePI Real.sin Real.exp Real.sqrt) (k : ℝ) 3 ≠ 0 := by
  by_cases hk : k = 0
  · subst hk
    simp [lanczosKernel]
  · have hk0 : (k : ℝ) ≠ 0 := by exact_mod_cast hk
    have hP : (doublePI : ℝ) ≠ 0 := ne_of_gt doublePI_pos
    have h1 : Real.sin (doublePI * (k : ℝ)) ≠ 0 := by
      have := sin_doublePI_mul_rat_ne_zero (k : ℚ) (by exact_mod_cast hk)
      simpa using this
    have h2 : Real.sin (doublePI * (k : ℝ) / 3) ≠ 0 := by
      have := sin_doublePI_mul_rat_ne_zero ((k : ℚ) / 3)
        (div_ne_zero (by exact_mod_cast hk) (by norm_num))
      have he : (doublePI : ℝ) * (((k : ℚ) / 3 : ℚ) : ℝ) = doublePI * (k : ℝ) / 3 := by
        push_cast
        ring
      rwa [he] at this
    unfold lanczosKernel
    rw [if_neg hk0]
    simp only []
    exact mul_ne_zero (div_ne_zero h1 (mul_ne_zero hP hk0))
      (div_ne_zero h2 (div_ne_zero (mul_ne_zero hP hk0) (by norm_num)))

/-- With the double `Math.PI` and the real sine, `lanczosKernel(d, 3)` has magnitude at most
`4e-17` at every non-zero integer `d`. -/
theorem abs_lanczosKernel_double_le (k : ℤ) (hk : k ≠ 0) :
    |lanczosKernel (JSMath.mk doublePI Real.sin Real.exp Real.sqrt) (k : ℝ) 3|
      ≤ 4 / 10 ^ 17 := by
  have hk0 : (k : ℝ) ≠ 0 := by exact_mod_cast hk
  have hkpos : 0 < |(k : ℝ)| := abs_pos.mpr hk0
  have hP := doublePI_pos
  have hP3 := doublePI_gt
  have hδ := pi_sub_doublePI_lt
  unfold lanczosKernel
  rw [if_neg hk0]
  simp only []
  rw [abs_mul]
  have hfirst : |Real.sin (doublePI * (k : ℝ)) / (doublePI * (k : ℝ))| ≤ 4 / 10 ^ 17 := by
    rw [abs_div, abs_mul, abs_of_pos hP, div_le_iff₀ (mul_pos hP hkpos)]
    calc |Real.sin (doublePI * (k : ℝ))|
        ≤ |(k : ℝ)| * (Real.pi - doublePI) := abs_sin_doublePI_mul_int k
      _ ≤ |(k : ℝ)| * (1225 / 10 ^ 19) := mul_le_mul_of_nonneg_left (le_of_lt hδ) (le_of_lt hkpos)
      _ ≤ 4 / 10 ^ 17 * (doublePI * |(k : ℝ)|) := by
          have : (1225 / 10 ^ 19 : ℝ) ≤ 4 / 10 ^ 17 * doublePI := by
            have h3 : (4 / 10 ^ 17 : ℝ) * (31 / 10) ≤ 4 / 10 ^ 17 * doublePI :=
              mul_le_mul_of_nonneg_left (le_of_lt hP3) (by norm_num)
            have h4 : (1225 / 10 ^ 19 : ℝ) ≤ 4 / 10 ^ 17 * (31 / 10) := by norm_num
            exact le_trans h4 h3
          nlinarith
  calc |Real.sin (doublePI * (k : ℝ)) / (doublePI * (k : ℝ))|
        * |Real.sin (doublePI * (k : ℝ) / 3) / (doublePI * (k : ℝ) / 3)|
      ≤ 4 / 10 ^ 17 * 1 :=
        mul_le_mul hfirst (abs_sin_div_le_one _) (abs_nonneg _) (by norm_num)
    _ = 4 / 10 ^ 17 := by ring

theorem weightRow_length_le (M : JSMath α) (hne : ∀ k : ℤ, lanczosKernel M (k : α) 3 ≠ 0)
    (ε : α) (hsmall : ∀ k : ℤ, k ≠ 0 → |lanczosKernel M (k : α) 3| ≤ ε) (hε : 7 * ε < 1)
    (size i : ℕ) (hi : i < size) : (weightRow M size size LANCZOS_A i).length ≤ 8 := by
  rw [weightRow_eq_map M hne ε hsmall hε size i hi, List.length_map,
    weightItems_eq_filterMap M hne]
  exact le_trans (List.length_filterMap_le _ _) (by simp)

theorem mem_weightItems_scale_one (M : JSMath α)
    (hne : ∀ k : ℤ, lanczosKernel M (k : α) 3 ≠ 0) (size i : ℕ) (u : Tap α)
    (hu : u ∈ weightItems M size 3 ((i : α) + 0.5)) :
    0 ≤ u.index ∧ u.index < (size : ℤ) ∧
      u.weight = lanczosKernel M ((((i : ℤ) - u.index : ℤ)) : α) 3 := by
  rw [weightItems_eq_filterMap M hne, List.mem_filterMap] at hu
  obtain ⟨j, _, hj⟩ := hu
  split_ifs at hj with hb
  injection hj with hj
  subst hj
  exact ⟨show 0 ≤ j by omega, show j < (size : ℤ) by omega, rfl⟩

/-- At scale 1 every tap other than the centre one has a weight of magnitude at most
`ε / (1 - 7 * ε)`. -/
theorem weightRow_weight_small (M : JSMath α) (hne : ∀ k : ℤ, lanczosKernel M (k : α) 3 ≠ 0)
    (ε : α) (hsmall : ∀ k : ℤ, k ≠ 0 → |lanczosKernel M (k : α) 3| ≤ ε) (hε : 7 * ε < 1)
    (size i : ℕ) (hi : i < size) (t : Tap α) (ht : t ∈ weightRow M size size LANCZOS_A i)
    (hti : t.index ≠ (i : ℤ)) : |t.weight| ≤ ε / (1 - 7 * ε) := by
  have hε0 : 0 ≤ ε := le_trans (abs_nonneg _) (hsmall 1 (by norm_num))
  have hsum := abs_le.mp (weightItems_sum_near_one M hne ε hsmall size i hi)
  rw [weightRow_eq_map M hne ε hsmall hε size i hi] at ht
  obtain ⟨u, hu, rfl⟩ := List.mem_map.mp ht
  obtain ⟨_, _, hw⟩ := mem_weightItems_scale_one M hne size i u hu
  simp only [] at hti ⊢
  have hS : 1 - 7 * ε ≤ ((weightItems M size 3 ((i : α) + 0.5)).map Tap.weight).sum := by
    linarith [hsum.1]
  have hSpos : 0 < ((weightItems M size 3 ((i : α) + 0.5)).map Tap.weight).sum := by linarith
  rw [abs_div, abs_of_pos hSpos, hw]
  exact div_le_div₀ hε0 (hsmall _ (by omega)) (by linarith) hS

/-- At scale 1 no in-range tap of the window `i - 3 .. i + 4` is dropped. -/
theorem weightRow_keeps_taps (M : JSMath α) (hne : ∀ k : ℤ, lanczosKernel M (k : α) 3 ≠ 0)
    (ε : α) (hsmall : ∀ k : ℤ, k ≠ 0 → |lanczosKernel M (k : α) 3| ≤ ε) (hε : 7 * ε < 1)
    (size i : ℕ) (hi : i < size) (j : ℤ) (h0 : 0 ≤ j) (hn : j < (size : ℤ))
    (hl : (i : ℤ) - 3 ≤ j) (hr : j ≤ (i : ℤ) + 4) :
    ∃ t ∈ weightRow M size size LANCZOS_A i, t.index = j ∧ t.weight ≠ 0 := by
  have hsum := abs_le.mp (weightItems_sum_near_one M hne ε hsmall size i hi)
  have hS : ((weightItems M size 3 ((i : α) + 0.5)).map Tap.weight).sum ≠ 0 := by
    intro h
    rw [h] at hsum
    linarith [hsum.1]
  have hu : ({ index := j, weight := lanczosKernel M ((((i : ℤ) - j : ℤ)) : α) 3 } : Tap α)
      ∈ weightItems M size 3 ((i : α) + 0.5) := by
    rw [weightItems_eq_filterMap M hne, List.mem_filterMap]
    refine ⟨j, ?_, ?_⟩
    · simp only [List.mem_cons, List.mem_singleton, List.not_mem_nil, or_false]
      omega
    · have hb : ¬ (j < 0 ∨ j ≥ (size : ℤ)) := by omega
      rw [if_neg hb]
  rw [weightRow_eq_map M hne ε hsmall hε size i hi]
  exact ⟨_, List.mem_map_of_mem _ hu, rfl, div_ne_zero (hne _) hS⟩

theorem abs_sum_le_length_mul {β : Type} (l : List β) (f : β → α) (c : α)
    (h : ∀ t ∈ l, |f t| ≤ c) : |(l.map f).sum| ≤ (l.length : α) * c := by
  induction l with
  | nil => simp
  | cons t ts ih =>
    have h1 := h t (List.mem_cons_self _ _)
    have h2 := ih fun u hu => h u (List.mem_cons_of_mem _ hu)
    simp only [List.map_cons, List.sum_cons, List.length_cons]
    push_cast
    calc |f t + (ts.map f).sum| ≤ |f t| + |(ts.map f).sum| := abs_add _ _
      _ ≤ c + (ts.length : α) * c := add_le_add h1 h2
      _ = ((ts.length : α) + 1) * c := by ring

theorem sum_sub_const_mul (l : List (Tap α)) (v : Tap α → α) (c : α) :
    (l.map fun t => (v t - c) * t.weight).sum
      = (l.map fun t => v t * t.weight).sum - c * (l.map Tap.weight).sum := by
  induction l with
  | nil => simp
  | cons t ts ih =>
    simp only [List.map_cons, List.sum_cons, ih]
    ring

/-- One accumulation of the resampler with a normalized weight list whose taps other than
`i` have weights of magnitude at most `η` stays close to the sample at `i`. -/
theorem weightedSum_near (buf : List α) (row : List (Tap α)) (pos : ℤ → ℤ) (i : ℤ) (B η : α)
    (hB : ∀ q : ℤ, |rdZ buf q| ≤ B) (hsum : (row.map Tap.weight).sum = 1)
    (hsmall : ∀ t ∈ row, t.index ≠ i → |t.weight| ≤ η) (hη : 0 ≤ η) :
    |weightedSum buf row pos - rdZ buf (pos i)| ≤ (row.length : α) * (2 * B * η) := by
  have hB0 : 0 ≤ B := le_trans (abs_nonneg _) (hB 0)
  have hrew : weightedSum buf row pos - rdZ buf (pos i)
      = (row.map fun t => (rdZ buf (pos t.index) - rdZ buf (pos i)) * t.weight).sum := by
    rw [sum_sub_const_mul row (fun t => rdZ buf (pos t.index)), hsum, mul_one,
      weightedSum_eq_sum]
  rw [hrew]
  apply abs_sum_le_length_mul
  intro t ht
  by_cases hti : t.index = i
  · rw [hti, sub_self, zero_mul, abs_zero]
    positivity
  · rw [abs_mul]
    have h1 : |rdZ buf (pos t.index) - rdZ buf (pos i)| ≤ 2 * B := by
      have ha := abs_le.mp (hB (pos t.index))
      have hb := abs_le.mp (hB (pos i))
      rw [abs_le]
      constructor <;> linarith [ha.1, ha.2, hb.1, hb.2]
    exact mul_le_mul h1 (hsmall t ht hti) (abs_nonneg _) (by positivity)

theorem abs_rdZ_le (buf : List α) (B : α) (hB0 : 0 ≤ B) (hB : ∀ v ∈ buf, |v| ≤ B) (q : ℤ) :
    |rdZ buf q| ≤ B := by
  unfold rdZ
  split_ifs with hq
  · simpa using hB0
  · by_cases hlt : q.toNat < buf.length
    · rw [List.getD_eq_getElem _ _ hlt]
      exact hB _ (List.getElem_mem hlt)
    · rw [List.getD_eq_default _ _ (by omega)]
      simpa using hB0

/-- The horizontal pass at scale 1 with normalized lists of at most eight taps whose taps
other than `x` have weights of magnitude at most `η`. -/
theorem lanczosTemp_near (src : List α) (weightsX : List (List (Tap α))) (width height : ℕ)
    (B η : α) (hB : ∀ q : ℤ, |rdZ src q| ≤ B) (hη : 0 ≤ η)
    (hrows : ∀ x, x < width →
      ((weightsX.getD x []).map Tap.weight).sum = 1 ∧ (weightsX.getD x []).length ≤ 8 ∧
      ∀ t ∈ weightsX.getD x [], t.index ≠ (x : ℤ) → |t.weight| ≤ η)
    (k : ℕ) (hk : k < width * height * 4) :
    |rd (lanczosTemp src weightsX width height width) k - rd src k| ≤ 16 * B * η := by
  have hB0 : 0 ≤ B := le_trans (abs_nonneg _) (hB 0)
  have hw : 0 < width := by
    rcases Nat.eq_zero_or_pos width with h | h
    · subst h; simp at hk
    · exact h
  have hx : k / 4 % width < width := Nat.mod_lt _ hw
  obtain ⟨h1, h2, h3⟩ := hrows _ hx
  have h := weightedSum_near src (weightsX.getD (k / 4 % width) [])
    (fun index => (((k / 4 / width : ℕ) : ℤ) * (width : ℤ) + index) * 4 + ((k % 4 : ℕ) : ℤ))
    ((k / 4 % width : ℕ) : ℤ) B η hB h1 h3 hη
  simp only [index_decode, rdZ_natCast] at h
  unfold lanczosTemp
  rw [rd_fill _ _ _ hk]
  simp only []
  have hlen : (((weightsX.getD (k / 4 % width) []).length : ℕ) : α) ≤ 8 := by exact_mod_cast h2
  calc _ ≤ (((weightsX.getD (k / 4 % width) []).length : ℕ) : α) * (2 * B * η) := h
    _ ≤ 8 * (2 * B * η) := mul_le_mul_of_nonneg_right hlen (by positivity)
    _ = 16 * B * η := by ring

/-- The vertical pass at scale 1, under the same conditions on the weight lists. -/
theorem lanczosDst_near (temp : List α) (weightsY : List (List (Tap α))) (width height : ℕ)
    (B η : α) (hB : ∀ q : ℤ, |rdZ temp q| ≤ B) (hη : 0 ≤ η)
    (hrows : ∀ y, y < height →
      ((weightsY.getD y []).map Tap.weight).sum = 1 ∧ (weightsY.getD y []).length ≤ 8 ∧
      ∀ t ∈ weightsY.getD y [], t.index ≠ (y : ℤ) → |t.weight| ≤ η)
    (k : ℕ) (hk : k < width * height * 4) :
    |rd (lanczosDst temp weightsY width height) k - rd temp k| ≤ 16 * B * η := by
  have hB0 : 0 ≤ B := le_trans (abs_nonneg _) (hB 0)
  have hy : k / 4 / width < height := by
    apply Nat.div_lt_of_lt_mul
    have : k / 4 < width * height := by omega
    simpa [Nat.mul_comm] using this
  obtain ⟨h1, h2, h3⟩ := hrows _ hy
  have h := weightedSum_near temp (weightsY.getD (k / 4 / width) [])
    (fun index => (index * (width : ℤ) + ((k / 4 % width : ℕ) : ℤ)) * 4 + ((k % 4 : ℕ) : ℤ))
    ((k / 4 / width : ℕ) : ℤ) B η hB h1 h3 hη
  simp only [index_decode, rdZ_natCast] at h
  unfold lanczosDst
  rw [rd_fill _ _ _ hk]
  simp only []
  have hlen : (((weightsY.getD (k / 4 / width) []).length : ℕ) : α) ≤ 8 := by exact_mod_cast h2
  calc _ ≤ (((weightsY.getD (k / 4 / width) []).length : ℕ) : α) * (2 * B * η) := h
    _ ≤ 8 * (2 * B * η) := mul_le_mul_of_nonneg_right hlen (by positivity)
    _ = 16 * B * η := by ring

theorem weightRows_double (size x : ℕ) (hx : x < size) :
    ((((List.range size).map fun i =>
        weightRow (JSMath.mk doublePI Real.sin Real.exp Real.sqrt) size size LANCZOS_A i).getD
          x []).map Tap.weight).sum = 1 ∧
    (((List.range size).map fun i =>
        weightRow (JSMath.mk doublePI Real.sin Real.exp Real.sqrt) size size LANCZOS_A i).getD
          x []).length ≤ 8 ∧
    ∀ t ∈ ((List.range size).map fun i =>
        weightRow (JSMath.mk doublePI Real.sin Real.exp Real.sqrt) size size LANCZOS_A i).getD
          x [], t.index ≠ (x : ℤ) → |t.weight| ≤ 5 / 10 ^ 17 := by
  have hrow : ((List.range size).map fun i =>
      weightRow (JSMath.mk doublePI Real.sin Real.exp Real.sqrt) size size (LANCZOS_A : ℝ) i).getD
        x []
      = weightRow (JSMath.mk doublePI Real.sin Real.exp Real.sqrt) size size LANCZOS_A x := by
    simp [hx]
  have hε : (7 : ℝ) * (4 / 10 ^ 17) < 1 := by norm_num
  have hη : (4 / 10 ^ 17 : ℝ) / (1 - 7 * (4 / 10 ^ 17)) ≤ 5 / 10 ^ 17 := by norm_num
  rw [hrow]
  refine ⟨weightRow_sum _ size size _ x,
    weightRow_length_le _ lanczosKernel_double_ne_zero _ abs_lanczosKernel_double_le hε size x hx,
    fun t ht hti => le_trans
      (weightRow_weight_small _ lanczosKernel_double_ne_zero _ abs_lanczosKernel_double_le hε
        size x hx t ht hti) hη⟩

/-- With the double `Math.PI` and the real sine, the two passes at scale 1 return every
sample within `2e-15 * B` of the source sample when the source samples are at most `B` in
magnitude. -/
theorem two_pass_double_near (src : List ℝ) (width height : ℕ) (B : ℝ) (hB0 : 0 ≤ B)
    (hB : ∀ v ∈ src, |v| ≤ B) (k : ℕ) (hk : k < width * height * 4) :
    |rd (lanczosDst
          (lanczosTemp src
            ((List.range width).map fun i =>
              weightRow (JSMath.mk doublePI Real.sin Real.exp Real.sqrt) width width LANCZOS_A i)
            width height width)
          ((List.range height).map fun i =>
            weightRow (JSMath.mk doublePI Real.sin Real.exp Real.sqrt) height height LANCZOS_A i)
          width height) k - rd src k| ≤ 2 / 10 ^ 15 * B := by
  have hη : (0 : ℝ) ≤ 5 / 10 ^ 17 := by norm_num
  have hsrc := abs_rdZ_le src B hB0 hB
  have htemp : ∀ n, n < width * height * 4 →
      |rd (lanczosTemp src
            ((List.range width).map fun i =>
              weightRow (JSMath.mk doublePI Real.sin Real.exp Real.sqrt) width width LANCZOS_A i)
            width height width) n - rd src n| ≤ 16 * B * (5 / 10 ^ 17) :=
    fun n hn => lanczosTemp_near src _ width height B _ hsrc hη
      (fun x hx => weightRows_double width x hx) n hn
  have hB1 : ∀ q : ℤ, |rdZ (lanczosTemp src
            ((List.range width).map fun i =>
              weightRow (JSMath.mk doublePI Real.sin Real.exp Real.sqrt) width width LANCZOS_A i)
            width height width) q| ≤ B * (1 + 16 * (5 / 10 ^ 17)) := by
    intro q
    have hpos : 0 ≤ B * (1 + 16 * (5 / 10 ^ 17)) := by positivity
    unfold rdZ
    split_ifs with hq
    · simpa using hpos
    · by_cases hn : q.toNat < width * height * 4
      · have h1 := abs_le.mp (htemp _ hn)
        have h2 := hsrc (q.toNat : ℤ)
        rw [rdZ_natCast] at h2
        have h3 := abs_le.mp h2
        show |rd _ q.toNat| ≤ _
        rw [abs_le]
        constructor <;> nlinarith [h1.1, h1.2, h3.1, h3.2]
      · show |rd _ q.toNat| ≤ _
        rw [rd_of_length_le _ _ (by simp [lanczosTemp, length_fill]; omega)]
        simpa using hpos
  have hdst := lanczosDst_near _ _ width height _ _ hB1 hη
    (fun y hy => weightRows_double height y hy) k hk
  have h1 := abs_le.mp hdst
  have h2 := abs_le.mp (htemp k hk)
  rw [abs_le]
  constructor <;> nlinarith [h1.1, h1.2, h2.1, h2.2]

theorem weightRow_double_two_one :
    weightRow (JSMath.mk doublePI Real.sin Real.exp Real.sqrt) 2 2 LANCZOS_A 1
      = [{ index := 0,
           weight := lanczosKernel (JSMath.mk doublePI Real.sin Real.exp Real.sqrt) 1 3
             / (lanczosKernel (JSMath.mk doublePI Real.sin Real.exp Real.sqrt) 1 3 + 1) },
         { index := 1,
           weight := 1
             / (lanczosKernel (JSMath.mk doublePI Real.sin Real.exp Real.sqrt) 1 3 + 1) }] := by
  have hε : (7 : ℝ) * (4 / 10 ^ 17) < 1 := by norm_num
  have hitems : weightItems (JSMath.mk doublePI Real.sin Real.exp Real.sqrt) 2 3
      (((1 : ℕ) : ℝ) + 0.5)
      = [{ index := 0,
           weight := lanczosKernel (JSMath.mk doublePI Real.sin Real.exp Real.sqrt) 1 3 },
         { index := 1, weight := 1 }] := by
    rw [weightItems_eq_filterMap _ lanczosKernel_double_ne_zero]
    simp [List.filterMap_cons, lanczosKernel_zero]
  rw [weightRow_eq_map _ lanczosKernel_double_ne_zero _ abs_lanczosKernel_double_le hε 2 1
    (by norm_num), hitems]
  simp

theorem weightRow_double_one_zero :
    weightRow (JSMath.mk doublePI Real.sin Real.exp Real.sqrt) 1 1 LANCZOS_A 0
      = [{ index := 0, weight := 1 }] := by
  have hε : (7 : ℝ) * (4 / 10 ^ 17) < 1 := by norm_num
  have hitems : weightItems (JSMath.mk doublePI Real.sin Real.exp Real.sqrt) 1 3
      (((0 : ℕ) : ℝ) + 0.5) = [{ index := 0, weight := 1 }] := by
    rw [weightItems_eq_filterMap _ lanczosKernel_double_ne_zero]
    simp [List.filterMap_cons, lanczosKernel_zero]
  rw [weightRow_eq_map _ lanczosKernel_double_ne_zero _ abs_lanczosKernel_double_le hε 1 0
    (by norm_num), hitems]
  simp

theorem lanczosKernel_double_one_pos :
    0 < lanczosKernel (JSMath.mk doublePI Real.sin Real.exp Real.sqrt) 1 3 := by
  have hP := doublePI_pos
  have hlt := doublePI_lt_pi
  have h1 : 0 < Real.sin (doublePI * 1) :=
    Real.sin_pos_of_pos_of_lt_pi (by linarith) (by linarith)
  have h2 : 0 < Real.sin (doublePI * 1 / 3) :=
    Real.sin_pos_of_pos_of_lt_pi (by linarith) (by linarith)
  unfold lanczosKernel
  rw [if_neg (by norm_num)]
  simp only []
  exact mul_pos (div_pos h1 (by linarith)) (div_pos h2 (by linarith))

theorem getD_weightRows (M : JSMath α) (oldSize newSize i : ℕ) (hi : i < newSize) :
    ((List.range newSize).map fun i => weightRow M oldSize newSize LANCZOS_A i).getD i []
      = weightRow M oldSize newSize LANCZOS_A i := by
  simp [hi]

/-- The blue sample of the second pixel of the 2x1 buffer `[10, 20, 30, 255, 200, 100, 0, 128]`
after resampling at scale 1 with the double `Math.PI`: the neighbour's 30 leaks in. -/
theorem two_pass_double_sample_six :
    rd (lanczosDst
          (lanczosTemp [10, 20, 30, 255, 200, 100, 0, 128]
            ((List.range 2).map fun i =>
              weightRow (JSMath.mk doublePI Real.sin Real.exp Real.sqrt) 2 2 LANCZOS_A i)
            2 1 2)
          ((List.range 1).map fun i =>
            weightRow (JSMath.mk doublePI Real.sin Real.exp Real.sqrt) 1 1 LANCZOS_A i)
          2 1) 6
      = 30 * lanczosKernel (JSMath.mk doublePI Real.sin Real.exp Real.sqrt) 1 3
          / (lanczosKernel (JSMath.mk doublePI Real.sin Real.exp Real.sqrt) 1 3 + 1) := by
  have h := rd_two_pass (JSMath.mk doublePI Real.sin Real.exp Real.sqrt)
    [10, 20, 30, 255, 200, 100, 0, 128] 2 1 2 1 (by norm_num) 1 0 2 (by norm_num) (by norm_num)
    (by norm_num)
  have h6 : (0 * 2 + 1) * 4 + 2 = 6 := rfl
  rw [h6] at h
  rw [h]
  unfold resampleDirect
  rw [getD_weightRows _ 1 1 0 (by norm_num), getD_weightRows _ 2 2 1 (by norm_num),
    weightRow_double_two_one, weightRow_double_one_zero]
  simp [rdZ]
  ring

/-- C5, the claim refuted: with the double `Math.PI` and the real sine, resampling the 2x1
buffer `[10, 20, 30, 255, 200, 100, 0, 128]` to 2x1 does not return the source: sample 6 is 0
in the source and positive (at most `1.2e-15`) in the result, and the weight list of
destination 1 has two taps, so it is not the single tap `(1, 1)`. -/
theorem C5_counterexample :
    (¬ ∃ reported : List ℝ,
      lanczosScaleRGBA (JSMath.mk doublePI Real.sin Real.exp Real.sqrt)
        [10, 20, 30, 255, 200, 100, 0, 128] 2 1 ((2 : ℕ) : ℤ) ((1 : ℕ) : ℤ)
        = .ok (reported, [10, 20, 30, 255, 200, 100, 0, 128])) ∧
    (∃ reported dst : List ℝ,
      lanczosScaleRGBA (JSMath.mk doublePI Real.sin Real.exp Real.sqrt)
        [10, 20, 30, 255, 200, 100, 0, 128] 2 1 ((2 : ℕ) : ℤ) ((1 : ℕ) : ℤ)
        = .ok (reported, dst) ∧
      rd ([10, 20, 30, 255, 200, 100, 0, 128] : List ℝ) 6 = 0 ∧ 0 < rd dst 6 ∧
      rd dst 6 ≤ 12 / 10 ^ 16) ∧
    (weightRow (JSMath.mk doublePI Real.sin Real.exp Real.sqrt) 2 2 LANCZOS_A 1).length = 2 ∧
    weightRow (JSMath.mk doublePI Real.sin Real.exp Real.sqrt) 2 2 LANCZOS_A 1
      ≠ [{ index := 1, weight := 1 }] := by
  have hκ := lanczosKernel_double_one_pos
  have hpos : 0 < 30 * lanczosKernel (JSMath.mk doublePI Real.sin Real.exp Real.sqrt) 1 3
      / (lanczosKernel (JSMath.mk doublePI Real.sin Real.exp Real.sqrt) 1 3 + 1) :=
    div_pos (by linarith) (by linarith)
  have hrun := lanczosScaleRGBA_ok (JSMath.mk doublePI Real.sin Real.exp Real.sqrt)
    [10, 20, 30, 255, 200, 100, 0, 128] 2 1 ((2 : ℕ) : ℤ) ((1 : ℕ) : ℤ) (by norm_num)
    (by norm_num)
  simp only [Int.toNat_ofNat] at hrun
  have hlen : (weightRow (JSMath.mk doublePI Real.sin Real.exp Real.sqrt) 2 2
      (LANCZOS_A : ℝ) 1).length = 2 := by
    rw [weightRow_double_two_one]
    rfl
  have hup : 30 * lanczosKernel (JSMath.mk doublePI Real.sin Real.exp Real.sqrt) 1 3
      / (lanczosKernel (JSMath.mk doublePI Real.sin Real.exp Real.sqrt) 1 3 + 1)
      ≤ 12 / 10 ^ 16 := by
    have hle := abs_le.mp (abs_lanczosKernel_double_le 1 (by norm_num))
    simp only [Int.cast_one] at hle
    rw [div_le_iff₀ (by linarith)]
    nlinarith [hle.2]
  refine ⟨?_, ⟨_, _, hrun, by simp [rd], ?_, ?_⟩, hlen, ?_⟩
  · rintro ⟨reported, h⟩
    rw [hrun] at h
    injection h with h
    have h2 := congrArg (fun p : List ℝ × List ℝ => rd p.2 6) h
    simp only [] at h2
    rw [two_pass_double_sample_six] at h2
    have h0 : rd ([10, 20, 30, 255, 200, 100, 0, 128] : List ℝ) 6 = 0 := by simp [rd]
    rw [h0] at h2
    linarith
  · rw [two_pass_double_sample_six]
    exact hpos
  · rw [two_pass_double_sample_six]
    exact hup
  · intro h
    rw [h] at hlen
    simp at hlen

/-- C5, as amended: with the double `Math.PI` and the real sine, for every width and height at
least 1 and every buffer of length `width * height * 4` whose samples have magnitude at most
`B`, `lanczosScaleRGBA(src, width, height, width, height, cb)` returns a buffer of the same
length in which every sample is within `2e-15 * B` of the source sample; and for every size the
weight list of destination `i` keeps a tap with a non-zero weight for every source index of
`i - 3 .. i + 4` inside `[0, size)`, each tap other than `i` having a weight of magnitude at most
`5e-17`. -/
theorem C5_resampler_near_identity (src : List ℝ) (width height : ℕ) (B : ℝ) (hw : 1 ≤ width)
    (hh : 1 ≤ height) (hlen : src.length = width * height * 4) (hB : ∀ v ∈ src, |v| ≤ B) :
    (∃ reported dst : List ℝ,
      lanczosScaleRGBA (JSMath.mk doublePI Real.sin Real.exp Real.sqrt) src width height
        (width : ℤ) (height : ℤ) = .ok (reported, dst) ∧
      dst.length = width * height * 4 ∧
      ∀ k, k < width * height * 4 → |rd dst k - rd src k| ≤ 2 / 10 ^ 15 * B) ∧
    (∀ size i : ℕ, i < size →
      (∀ j : ℤ, 0 ≤ j → j < (size : ℤ) → (i : ℤ) - 3 ≤ j → j ≤ (i : ℤ) + 4 →
        ∃ t ∈ weightRow (JSMath.mk doublePI Real.sin Real.exp Real.sqrt) size size LANCZOS_A i,
          t.index = j ∧ t.weight ≠ 0) ∧
      (∀ t ∈ weightRow (JSMath.mk doublePI Real.sin Real.exp Real.sqrt) size size LANCZOS_A i,
        t.index ≠ (i : ℤ) → |t.weight| ≤ 5 / 10 ^ 17)) := by
  have hε : (7 : ℝ) * (4 / 10 ^ 17) < 1 := by norm_num
  have hη : (4 / 10 ^ 17 : ℝ) / (1 - 7 * (4 / 10 ^ 17)) ≤ 5 / 10 ^ 17 := by norm_num
  have hB0 : 0 ≤ B := by
    have hne : src ≠ [] := by
      intro h
      rw [h] at hlen
      simp at hlen
      omega
    obtain ⟨v, hv⟩ := List.exists_mem_of_ne_nil src hne
    exact le_trans (abs_nonneg v) (hB v hv)
  have hrun := lanczosScaleRGBA_ok (JSMath.mk doublePI Real.sin Real.exp Real.sqrt) src width
    height (width : ℤ) (height : ℤ) (by omega) (by omega)
  simp only [Int.toNat_ofNat] at hrun
  refine ⟨⟨_, _, hrun, length_lanczosDst _ _ _ _,
    fun k hk => two_pass_double_near src width height B hB0 hB k hk⟩, ?_⟩
  intro size i hi
  exact ⟨fun j h0 hn hl hr =>
      weightRow_keeps_taps _ lanczosKernel_double_ne_zero _ abs_lanczosKernel_double_le hε
        size i hi j h0 hn hl hr,
    fun t ht hti => le_trans
      (weightRow_weight_small _ lanczosKernel_double_ne_zero _ abs_lanczosKernel_double_le hε
        size i hi t ht hti) hη⟩

/-- C5 as amended at the 2x1 buffer `[10, 20, 30, 255, 200, 100, 0, 128]`, whose samples are
at most 255. -/
theorem C5_resampler_near_identity_witness :
    ∃ reported dst : List ℝ,
      lanczosScaleRGBA (JSMath.mk doublePI Real.sin Real.exp Real.sqrt)
        [10, 20, 30, 255, 200, 100, 0, 128] 2 1 ((2 : ℕ) : ℤ) ((1 : ℕ) : ℤ)
        = .ok (reported, dst) ∧
      dst.length = 2 * 1 * 4 ∧
      ∀ k, k < 2 * 1 * 4 →
        |rd dst k - rd ([10, 20, 30, 255, 200, 100, 0, 128] : List ℝ) k| ≤ 2 / 10 ^ 15 * 255 :=
  (C5_resampler_near_identity [10, 20, 30, 255, 200, 100, 0, 128] 2 1 255 (by norm_num)
    (by norm_num) rfl (by
      intro v hv
      simp only [List.mem_cons, List.mem_singleton, List.not_mem_nil, or_false] at hv
      rcases hv with h | h | h | h | h | h | h | h <;> subst h <;> norm_num)).1

end Theorems

end Worker
